import Mathlib

/-!
CSPB 1300 Image Processing Application: codec and transforms

A shallow embedding of `CSPB_1300_Image_Processing_App.cpp`.

Modelling conventions.

* A C++ `int` is an `Int` kept in the 32-bit two's complement range: the result
  of every `int` addition, subtraction and multiplication is reduced by `wrap32`.
  The code depends on this (the last `base = base * 256` of a four byte
  `get_int` already leaves the `int` range).  `/` and `%` on `int` are the
  truncating `Int.tdiv` and `Int.tmod`.
* `vector<vector<Pixel>>` is a `List (List Pixel)`.  Reading `v[i]` outside the
  vector, and constructing a vector with a negative size (which throws
  `std::length_error`), make the embedded function return `none`.  Memory is
  unbounded: a vector of any non-negative size can be built.
* An input file is the list of its bytes; `FStream` carries the read cursor and
  the fail bit of the `fstream`.  An output file is the list of bytes written.
* A `double` is the rational number it holds.  Every `double` operation is the
  exact operation followed by `round64`, the rounding to 53 significant bits
  (to nearest, ties to even) of IEEE 754 binary64.  The exponent range of
  binary64 is not modelled: a result beyond it (an infinity in the program) is
  held as the rounded finite value, and both are far outside the range of `int`
  when converted; no operation of the program can produce a NaN from finite
  operands.  Operations are not fused: `a - b * c` rounds twice.
* `int x = d` truncates toward zero.  When the truncated value is not an `int`
  the conversion instruction of x86-64 (`cvttsd2si`) delivers `INT_MIN`, and so
  does `toInt`; ISO C++ leaves this case undefined.
* The library function `sqrt` is a parameter of `process_1`; `sqrt64`, the
  square root rounded to binary64, is the function the program calls.
-/

namespace BmpApp

/-! ## Machine integers -/

/-- Reduction of an integer to the range of a 32-bit two's complement `int`. -/
def wrap32 (x : Int) : Int := (x + 2147483648) % 4294967296 - 2147483648

/-- Addition of two `int` values. -/
def iadd (a b : Int) : Int := wrap32 (a + b)

/-- Subtraction of two `int` values. -/
def isub (a b : Int) : Int := wrap32 (a - b)

/-- Multiplication of two `int` values. -/
def imul (a b : Int) : Int := wrap32 (a * b)

/-- One byte of a file. -/
abbrev Byte := Fin 256

/-- Conversion `(unsigned char) v` of an `int`. -/
def toByte (v : Int) : Byte := ⟨(v % 256).toNat, by omega⟩

/-! ## Data model -/

/-- The `Pixel` structure: red, green and blue colour values, each an `int`. -/
structure Pixel where
  red : Int
  green : Int
  blue : Int
deriving DecidableEq, Repr

/-- A value-initialised `Pixel`, as produced by `vector<Pixel>(n)`. -/
def Pixel.zero : Pixel := ⟨0, 0, 0⟩

/-- The type `vector<vector<Pixel>>`. -/
abbrev Image := List (List Pixel)

/-- The vector `vector<vector<Pixel>>(rows, vector<Pixel>(cols))`; the constructor
throws when a size is negative. -/
def allocImage (rows cols : Int) : Option Image :=
  if rows < 0 ∨ cols < 0 then none
  else some (List.replicate rows.toNat (List.replicate cols.toNat Pixel.zero))

/-- The element read `image[i][j]`. -/
def getPixel (image : Image) (i j : Nat) : Option Pixel :=
  match image[i]? with
  | none => none
  | some row => row[j]?

/-- The element write `image[i][j] = p` (all three colour fields assigned);
`none` when the position lies outside the vector. -/
def setPixel (image : Image) (i j : Nat) (p : Pixel) : Option Image :=
  match image[i]? with
  | none => none
  | some row => if j < row.length then some (image.set i (row.set j p)) else none

/-- The conversion of an `int` to a vector index; a negative value converts to
an index beyond every vector. -/
def toIndex (i : Int) : Option Nat := if i < 0 then none else some i.toNat

/-- The values taken by the counter of `for (int i = start; i >= 0; i--)`. -/
def downFrom (start : Int) : List Nat := (List.range (start + 1).toNat).reverse

/-- The values taken by the counter of `for (int i = 0; i < bound; i++)`. -/
def upTo (bound : Int) : List Nat := List.range bound.toNat

/-! ## Input stream -/

/-- An `fstream` opened for binary input: the bytes of the file, the read
position, and the fail bit (set together with the end-of-file bit by a read
past the end, and never cleared by the program). -/
structure FStream where
  data : List Byte
  cur : Nat
  failed : Bool
deriving DecidableEq, Repr

/-- The stream after `stream.open(filename, ios::in | ios::binary)`. -/
def FStream.openIn (data : List Byte) : FStream := ⟨data, 0, false⟩

/-- The call `stream.seekg(pos)`: it does nothing once the fail bit is set, and
a negative position sets the fail bit. -/
def FStream.seekg (s : FStream) (pos : Int) : FStream :=
  if s.failed then s
  else if pos < 0 then { s with failed := true }
  else { s with cur := pos.toNat }

/-- The call `stream.seekg(off, ios::cur)`. -/
def FStream.seekgCur (s : FStream) (off : Int) : FStream :=
  if s.failed then s
  else if (s.cur : Int) + off < 0 then { s with failed := true }
  else { s with cur := ((s.cur : Int) + off).toNat }

/-- The call `stream.get()`: the next byte, or `EOF = -1` when the fail bit is
set or no byte is left (which sets the fail bit). -/
def FStream.get (s : FStream) : Int × FStream :=
  if s.failed then (-1, s)
  else
    match s.data[s.cur]? with
    | some b => ((b.val : Int), { s with cur := s.cur + 1 })
    | none => (-1, { s with failed := true })

/-! ## Decoder -/

/-- The function `get_int`: an integer of `bytes` bytes read at `offset`. -/
def get_int (stream : FStream) (offset : Int) (bytes : Nat) : Int × FStream :=
  let stream := stream.seekg offset
  let st := (List.range bytes).foldl
    (fun (st : Int × Int × FStream) (_ : Nat) =>
      let c := st.2.2.get
      (iadd st.1 (imul c.1 st.2.1), imul st.2.1 256, c.2))
    (0, 1, stream)
  (st.1, st.2.2)

/-- The header metadata read by `read_image`. -/
structure Header where
  file_size : Int
  start : Int
  width : Int
  height : Int
  bits_per_pixel : Int
deriving DecidableEq, Repr

/-- The five `get_int` calls that open `read_image`. -/
def read_header (stream : FStream) : Header × FStream :=
  let file_size := get_int stream 2 4
  let start := get_int file_size.2 10 4
  let width := get_int start.2 18 4
  let height := get_int width.2 22 4
  let bits_per_pixel := get_int height.2 28 2
  (⟨file_size.1, start.1, width.1, height.1, bits_per_pixel.1⟩, bits_per_pixel.2)

/-- The local `scanline_size` of `read_image`. -/
def Header.scanline_size (hd : Header) : Int :=
  imul hd.width (Int.tdiv hd.bits_per_pixel 8)

/-- The local `padding` of `read_image`. -/
def Header.padding (hd : Header) : Int :=
  if Int.tmod hd.scanline_size 4 ≠ 0 then isub 4 (Int.tmod hd.scanline_size 4) else 0

/-- The right-hand side `start + (scanline_size + padding) * height` of the
validity test of `read_image`. -/
def Header.layout_size (hd : Header) : Int :=
  iadd hd.start (imul (iadd hd.scanline_size hd.padding) hd.height)

/-- One pass of the column loop of `read_image` at row `i`, column `j`. -/
def read_pixel (bpp : Int) (i : Nat) (st : Image × Int × FStream) (j : Nat) :
    Option (Image × Int × FStream) :=
  let stream := st.2.2.seekg st.2.1
  let b := stream.get
  let g := b.2.get
  let r := g.2.get
  match setPixel st.1 i j ⟨r.1, g.1, b.1⟩ with
  | none => none
  | some image => some (image, iadd st.2.1 (Int.tdiv bpp 8), r.2)

/-- One pass of the row loop of `read_image` at row `i`. -/
def read_row (bpp width padding : Int) (st : Image × Int × FStream) (i : Nat) :
    Option (Image × Int × FStream) :=
  match (upTo width).foldlM (read_pixel bpp i) st with
  | none => none
  | some st => some (st.1, iadd st.2.1 padding, st.2.2.seekgCur padding)

/-- The function `read_image` on a file with the given bytes.  `some []` is the
empty vector returned for an invalid image. -/
def read_image (file : List Byte) : Option Image :=
  let hd := read_header (FStream.openIn file)
  if hd.1.file_size ≠ hd.1.layout_size then some []
  else
    match allocImage hd.1.height hd.1.width with
    | none => none
    | some image =>
      match (downFrom (isub hd.1.height 1)).foldlM
          (read_row hd.1.bits_per_pixel hd.1.width hd.1.padding)
          (image, hd.1.start, hd.2) with
      | none => none
      | some st => some st.1

/-! ## Encoder -/

/-- The function `set_bytes`: `bytes` bytes of `value`, low byte first, stored
from index `offset` of the array. -/
def set_bytes (arr : List Byte) (offset bytes : Nat) (value : Int) : List Byte :=
  (List.range bytes).foldl
    (fun arr i => arr.set (offset + i) (toByte (value >>> (i * 8)))) arr

/-- One pass of the column loop of `write_image`: the pixel at `(h, w)` written
as blue, green, red. -/
def write_pixel (image : Image) (h : Nat) (out : List Byte) (w : Nat) :
    Option (List Byte) :=
  match getPixel image h w with
  | none => none
  | some p => some (out ++ [toByte p.blue, toByte p.green, toByte p.red])

/-- One pass of the row loop of `write_image`: the pixels of row `h`, then the
padding bytes. -/
def write_row (image : Image) (width_pixels padding_bytes : Int) (out : List Byte)
    (h : Nat) : Option (List Byte) :=
  match (upTo width_pixels).foldlM (write_pixel image h) out with
  | none => none
  | some out => some (out ++ (List.replicate 3 (0 : Byte)).take padding_bytes.toNat)

/-- The array `bmp_header` of `write_image` after its six `set_bytes` calls. -/
def bmp_header (array_bytes : Int) : List Byte :=
  let bmp_header := List.replicate 14 (0 : Byte)
  let bmp_header := set_bytes bmp_header 0 1 66
  let bmp_header := set_bytes bmp_header 1 1 77
  let bmp_header := set_bytes bmp_header 2 4 (iadd (iadd 14 40) array_bytes)
  let bmp_header := set_bytes bmp_header 6 2 0
  let bmp_header := set_bytes bmp_header 8 2 0
  set_bytes bmp_header 10 4 (iadd 14 40)

/-- The array `dib_header` of `write_image` after its eleven `set_bytes` calls. -/
def dib_header (width_pixels height_pixels array_bytes : Int) : List Byte :=
  let dib_header := List.replicate 40 (0 : Byte)
  let dib_header := set_bytes dib_header 0 4 40
  let dib_header := set_bytes dib_header 4 4 width_pixels
  let dib_header := set_bytes dib_header 8 4 height_pixels
  let dib_header := set_bytes dib_header 12 2 1
  let dib_header := set_bytes dib_header 14 2 24
  let dib_header := set_bytes dib_header 16 4 0
  let dib_header := set_bytes dib_header 20 4 array_bytes
  let dib_header := set_bytes dib_header 24 4 2835
  let dib_header := set_bytes dib_header 28 4 2835
  let dib_header := set_bytes dib_header 32 4 0
  set_bytes dib_header 36 4 0

/-- The function `write_image`: the bytes written to the output file. -/
def write_image (image : Image) : Option (List Byte) :=
  match image[0]? with
  | none => none
  | some row0 =>
    let width_pixels := wrap32 row0.length
    let height_pixels := wrap32 image.length
    let width_bytes := imul width_pixels 3
    let padding_bytes := Int.tmod (isub 4 (Int.tmod width_bytes 4)) 4
    let width_bytes := iadd width_bytes padding_bytes
    let array_bytes := imul width_bytes height_pixels
    (downFrom (isub height_pixels 1)).foldlM
      (write_row image width_pixels padding_bytes)
      (bmp_header array_bytes ++ dib_header width_pixels height_pixels array_bytes)

/-! ## Transforms -/

/-- Rounding of a rational number to the nearest integer, a tie going to the
even integer. -/
def roundHalfEven (x : ℚ) : Int :=
  if x - ⌊x⌋ < 1 / 2 then ⌊x⌋
  else if 1 / 2 < x - ⌊x⌋ then ⌊x⌋ + 1
  else if ⌊x⌋ % 2 = 0 then ⌊x⌋ else ⌊x⌋ + 1

/-- The `double` nearest to `x`: with `2 ^ e ≤ |x| < 2 ^ (e + 1)`, the multiple
of `2 ^ (e - 52)` nearest to `x`, a tie going to the even multiple. -/
def round64 (x : ℚ) : ℚ :=
  if x = 0 then 0
  else (roundHalfEven (x / 2 ^ (Int.log 2 |x| - 52)) : ℚ) * 2 ^ (Int.log 2 |x| - 52)

/-- The sum `a + b` of two `double` values. -/
def fadd (a b : ℚ) : ℚ := round64 (a + b)

/-- The difference `a - b` of two `double` values. -/
def fsub (a b : ℚ) : ℚ := round64 (a - b)

/-- The product `a * b` of two `double` values. -/
def fmul (a b : ℚ) : ℚ := round64 (a * b)

/-- The quotient `a / b` of two `double` values. -/
def fdiv (a b : ℚ) : ℚ := round64 (a / b)

/-- The library function `sqrt` on a `double` that is not negative: the square
root rounded to 53 significant bits.  With `4 ^ e ≤ x < 4 ^ (e + 1)` and
`q = 2 ^ (e - 52)` the result is `n * q` for the integer `n` nearest to
`sqrt (x / q ^ 2)`, computed from the integer square root of `4 * x / q ^ 2`. -/
def sqrt64 (x : ℚ) : ℚ :=
  if x ≤ 0 then 0
  else
    ((Nat.sqrt ⌊4 * (x / (2 ^ (Int.log 2 x / 2 - 52) * 2 ^ (Int.log 2 x / 2 - 52)))⌋₊ + 1) / 2
        : ℕ) * 2 ^ (Int.log 2 x / 2 - 52)

/-- The truncation toward zero of a `double`. -/
def truncate (d : ℚ) : Int := if 0 ≤ d then ⌊d⌋ else ⌈d⌉

/-- The conversion `int x = d` of a `double`: truncation toward zero, and
`INT_MIN` when the truncated value is not an `int`. -/
def toInt (d : ℚ) : Int :=
  if -2147483648 ≤ truncate d ∧ truncate d ≤ 2147483647 then truncate d else -2147483648

/-- The integer division `a / b` of C++; division by zero is undefined. -/
def idiv (a b : Int) : Option Int := if b = 0 then none else some (Int.tdiv a b)

/-- One pass of the column loop shared by `process_1`, `process_2`, `process_3`,
`process_7`, `process_8`, `process_9` and `process_10`: read `image[row][col]`,
compute the new pixel with `f`, store it in `new_image[row][col]`. -/
def store_pixel (image : Image) (f : Nat → Nat → Pixel → Option Pixel) (row : Nat)
    (new_image : Image) (col : Nat) : Option Image :=
  (getPixel image row col).bind fun p =>
  (f row col p).bind fun q =>
  setPixel new_image row col q

/-- The allocation `new_image(num_rows, vector<Pixel>(num_columns))` and the
loop nest shared by `process_1`, `process_2`, `process_3`, `process_7`,
`process_8`, `process_9` and `process_10`: for every `row < num_rows` and
`col < num_columns` the pixel computed by `f` is stored in `new_image`. -/
def pixel_loops (image : Image) (num_rows num_columns : Int)
    (f : Nat → Nat → Pixel → Option Pixel) : Option Image :=
  match allocImage num_rows num_columns with
  | none => none
  | some new_image =>
    (upTo num_rows).foldlM
      (fun new_image row => (upTo num_columns).foldlM (store_pixel image f row) new_image)
      new_image

/-- The frame shared by `process_1`, `process_2`, `process_3`, `process_7`,
`process_8`, `process_9` and `process_10`: `num_rows = image.size()`,
`num_columns = image[0].size()`, then the allocation and the loops; the pixel
function `f` receives `num_rows` and `num_columns`. -/
def for_each_pixel (image : Image) (f : Int → Int → Nat → Nat → Pixel → Option Pixel) :
    Option Image :=
  match image[0]? with
  | none => none
  | some row0 =>
    pixel_loops image (wrap32 image.length) (wrap32 row0.length)
      (f (wrap32 image.length) (wrap32 row0.length))

/-- The body of the loops of `process_1`: radial darkening by the distance to
the centre of the image.  The library function `sqrt` is a parameter;
`pow(x, 2)` is the product `x * x`. -/
def process_1_pixel (sqrt : ℚ → ℚ) (num_rows num_columns : Int) (row col : Nat) (p : Pixel) :
    Option Pixel :=
  let distance : ℚ :=
    sqrt (fadd
      (fmul (fsub (col : ℚ) (fdiv (num_columns : ℚ) 2)) (fsub (col : ℚ) (fdiv (num_columns : ℚ) 2)))
      (fmul (fsub (row : ℚ) (fdiv (num_rows : ℚ) 2)) (fsub (row : ℚ) (fdiv (num_rows : ℚ) 2))))
  let scaling_factor : ℚ := fdiv (fsub (num_rows : ℚ) distance) (num_rows : ℚ)
  let newred : Int := toInt (fmul (p.red : ℚ) scaling_factor)
  let newgreen : Int := toInt (fmul (p.green : ℚ) scaling_factor)
  let newblue : Int := toInt (fmul (p.blue : ℚ) scaling_factor)
  some ⟨newred, newgreen, newblue⟩

/-- The function `process_1`: vignette, for a given library function `sqrt`. -/
def process_1 (sqrt : ℚ → ℚ) (image : Image) : Option Image :=
  for_each_pixel image (process_1_pixel sqrt)

/-- The body of the loops of `process_2`: Clarendon. -/
def process_2_pixel (scaling_factor : ℚ) (p : Pixel) : Option Pixel :=
  let average_value : ℚ := fdiv ((iadd (iadd p.blue p.red) p.green : Int) : ℚ) 3
  if average_value ≥ 170 then
    some ⟨toInt (fsub 255 (fmul ((isub 255 p.red : Int) : ℚ) scaling_factor)),
      toInt (fsub 255 (fmul ((isub 255 p.green : Int) : ℚ) scaling_factor)),
      toInt (fsub 255 (fmul ((isub 255 p.blue : Int) : ℚ) scaling_factor))⟩
  else if average_value < 90 then
    some ⟨toInt (fmul (p.red : ℚ) scaling_factor), toInt (fmul (p.green : ℚ) scaling_factor),
      toInt (fmul (p.blue : ℚ) scaling_factor)⟩
  else some ⟨p.red, p.green, p.blue⟩

/-- The function `process_2`: Clarendon with a scaling factor. -/
def process_2 (image : Image) (scaling_factor : ℚ) : Option Image :=
  for_each_pixel image (fun _ _ _ _ => process_2_pixel scaling_factor)

/-- The body of the loops of `process_3`: grayscale. -/
def process_3_pixel (p : Pixel) : Option Pixel :=
  let gray_color : ℚ := fdiv ((iadd (iadd p.red p.green) p.blue : Int) : ℚ) 3
  some ⟨toInt gray_color, toInt gray_color, toInt gray_color⟩

/-- The function `process_3`: grayscale. -/
def process_3 (image : Image) : Option Image :=
  for_each_pixel image (fun _ _ _ _ => process_3_pixel)

/-- One pass of the column loop of `process_4`. -/
def process_4_pixel (image : Image) (num_rows : Int) (row : Nat) (new_image : Image)
    (col : Nat) : Option Image :=
  (getPixel image row col).bind fun p =>
  (toIndex (isub (isub num_rows 1) row)).bind fun k =>
  setPixel new_image col k p

/-- The allocation `new_image(num_columns, vector<Pixel>(num_rows))` and the
loops of `process_4`. -/
def process_4_loops (image : Image) (num_rows num_columns : Int) : Option Image :=
  match allocImage num_columns num_rows with
  | none => none
  | some new_image =>
    (upTo num_rows).foldlM
      (fun new_image row =>
        (upTo num_columns).foldlM (process_4_pixel image num_rows row) new_image)
      new_image

/-- The function `process_4`: rotation by 90 degrees clockwise. -/
def process_4 (image : Image) : Option Image :=
  match image[0]? with
  | none => none
  | some row0 => process_4_loops image (wrap32 image.length) (wrap32 row0.length)

/-- The test `angle % 90 != 0` of `process_5` on `angle = number * 90`: whether
the invalid-angle message is printed. -/
def process_5_invalid (number : Int) : Bool :=
  decide (Int.tmod (imul number 90) 90 ≠ 0)

/-- The function `process_5`: rotation by a number of quarter turns. -/
def process_5 (image : Image) (number : Int) : Option Image :=
  let angle := imul number 90
  if process_5_invalid number then some image
  else if Int.tmod angle 360 = 0 then some image
  else if Int.tmod angle 360 = 90 then process_4 image
  else if Int.tmod angle 360 = 180 then (process_4 image).bind process_4
  else ((process_4 image).bind process_4).bind process_4

/-- One pass of the column loop of `process_6`. -/
def process_6_pixel (image : Image) (x_scale y_scale : Int) (row : Nat) (new_image : Image)
    (col : Nat) : Option Image :=
  (idiv row y_scale).bind fun source_row =>
  (idiv col x_scale).bind fun source_col =>
  (toIndex source_row).bind fun i =>
  (toIndex source_col).bind fun j =>
  (getPixel image i j).bind fun p =>
  setPixel new_image row col p

/-- The allocation `new_image(new_rows, vector<Pixel>(new_columns))` and the
loops of `process_6`. -/
def process_6_loops (image : Image) (x_scale y_scale new_rows new_columns : Int) :
    Option Image :=
  match allocImage new_rows new_columns with
  | none => none
  | some new_image =>
    (upTo new_rows).foldlM
      (fun new_image row =>
        (upTo new_columns).foldlM (process_6_pixel image x_scale y_scale row) new_image)
      new_image

/-- The function `process_6`: enlargement by repeating pixels. -/
def process_6 (image : Image) (x_scale y_scale : Int) : Option Image :=
  match image[0]? with
  | none => none
  | some row0 =>
    process_6_loops image x_scale y_scale (imul y_scale (wrap32 image.length))
      (imul x_scale (wrap32 row0.length))

/-- The body of the loops of `process_7`: black-and-white threshold. -/
def process_7_pixel (p : Pixel) : Option Pixel :=
  let gray_value := Int.tdiv (iadd (iadd p.red p.green) p.blue) 3
  if gray_value ≥ Int.tdiv 255 2 then some ⟨255, 255, 255⟩ else some ⟨0, 0, 0⟩

/-- The function `process_7`: black-and-white threshold. -/
def process_7 (image : Image) : Option Image :=
  for_each_pixel image (fun _ _ _ _ => process_7_pixel)

/-- The expression `255 - (255 - value) * scaling_factor` of `process_8`,
converted to `int`. -/
def lighten (value : Int) (scaling_factor : ℚ) : Int :=
  toInt (fsub 255 (fmul ((isub 255 value : Int) : ℚ) scaling_factor))

/-- The body of the loops of `process_8`: lighten. -/
def process_8_pixel (scaling_factor : ℚ) (p : Pixel) : Option Pixel :=
  let new_red : Int := lighten p.red scaling_factor
  let new_green : Int := lighten p.green scaling_factor
  let new_blue : Int := lighten p.blue scaling_factor
  some ⟨new_red, new_green, new_blue⟩

/-- The function `process_8`: lighten by a scaling factor. -/
def process_8 (image : Image) (scaling_factor : ℚ) : Option Image :=
  for_each_pixel image (fun _ _ _ _ => process_8_pixel scaling_factor)

/-- The two clamping statements of `process_9` on one channel:
`if (v > 255) v = 255; if (v < 0) v = 0;`. -/
def clamp_channel (v : Int) : Int :=
  let v := if v > 255 then 255 else v
  if v < 0 then 0 else v

/-- The body of the loops of `process_9`: darken, then clamp. -/
def process_9_pixel (scaling_factor : ℚ) (p : Pixel) : Option Pixel :=
  let new_red : Int := toInt (fmul (p.red : ℚ) scaling_factor)
  let new_green : Int := toInt (fmul (p.green : ℚ) scaling_factor)
  let new_blue : Int := toInt (fmul (p.blue : ℚ) scaling_factor)
  some ⟨clamp_channel new_red, clamp_channel new_green, clamp_channel new_blue⟩

/-- The function `process_9`: darken by a scaling factor. -/
def process_9 (image : Image) (scaling_factor : ℚ) : Option Image :=
  for_each_pixel image (fun _ _ _ _ => process_9_pixel scaling_factor)

/-- The body of the loops of `process_10`: colour dominance. -/
def process_10_pixel (p : Pixel) : Option Pixel :=
  let max_color := p.red
  let max_color := if p.green > max_color then p.green else max_color
  let max_color := if p.blue > max_color then p.blue else max_color
  if iadd (iadd p.red p.green) p.blue ≥ 550 then some ⟨255, 255, 255⟩
  else if iadd (iadd p.red p.green) p.blue ≤ 150 then some ⟨0, 0, 0⟩
  else if max_color = p.red then some ⟨255, 0, 0⟩
  else if max_color = p.green then some ⟨0, 255, 0⟩
  else some ⟨0, 0, 255⟩

/-- The function `process_10`: posterize by colour dominance. -/
def process_10 (image : Image) : Option Image :=
  for_each_pixel image (fun _ _ _ _ => process_10_pixel)

/-! ## Vocabulary of the specification -/

/-- The byte of a file at an offset, as a number (0 past the end of the file). -/
def byteAt (data : List Byte) (k : Nat) : Int := ((data.getD k 0).val : Int)

/-- The little-endian value of the `n` bytes at `offset`: the sum over `i < n`
of `byte[offset + i] * 256 ^ i`. -/
def leValue (data : List Byte) (offset n : Nat) : Int :=
  ((List.range n).map (fun i => byteAt data (offset + i) * 256 ^ i)).sum

/-- The header fields that `read_image` reads from a file. -/
def headerOf (file : List Byte) : Header := (read_header (FStream.openIn file)).1

/-- The padding formula of the specification, `(4 - s % 4) % 4`, with the
remainder of C++. -/
def specPadding (s : Int) : Int := Int.tmod (4 - Int.tmod s 4) 4

/-- The layout size of the specification,
`start + (scanline_byte_size + padding) * height` with
`scanline_byte_size = width * (bits_per_pixel / 8)`, in exact arithmetic. -/
def specLayoutSize (hd : Header) : Int :=
  hd.start + (hd.width * Int.tdiv hd.bits_per_pixel 8
    + specPadding (hd.width * Int.tdiv hd.bits_per_pixel 8)) * hd.height

/-- A 30 byte file whose width field is `FF FF FF FF`: declared size 58, pixel
array at 54, height 1, 24 bits per pixel. -/
def negativeWidthFile : List Byte :=
  [66, 77, 58, 0, 0, 0, 0, 0, 0, 0, 54, 0, 0, 0, 40, 0, 0, 0,
   255, 255, 255, 255, 1, 0, 0, 0, 1, 0, 24, 0]

/-- A 30 byte header declaring a 1 by 1 image of 24 bits per pixel at offset 54
and a total size of 57 bytes instead of 58. -/
def wrongSizeFile : List Byte :=
  [66, 77, 57, 0, 0, 0, 0, 0, 0, 0, 54, 0, 0, 0, 40, 0, 0, 0,
   1, 0, 0, 0, 1, 0, 0, 0, 1, 0, 24, 0]

/-- An image of `h` rows that all have `w` pixels. -/
def Dims (image : Image) (h w : Nat) : Prop :=
  image.length = h ∧ ∀ row ∈ image, row.length = w

instance (image : Image) (h w : Nat) : Decidable (Dims image h w) := by
  unfold Dims
  exact inferInstance

/-- The offset of pixel `(i, j)` in the file according to the specification:
`start + (height - 1 - i) * (width * (bits_per_pixel / 8) + padding)
  + j * (bits_per_pixel / 8)`. -/
def pixelOffset (hd : Header) (i j : Nat) : Int :=
  hd.start
    + (hd.height - 1 - i) * (hd.width * Int.tdiv hd.bits_per_pixel 8
        + specPadding (hd.width * Int.tdiv hd.bits_per_pixel 8))
    + j * Int.tdiv hd.bits_per_pixel 8

/-- The pixel whose blue, green and red bytes are at offsets `p`, `p + 1` and
`p + 2` of the file. -/
def pixelAt (file : List Byte) (p : Int) : Pixel :=
  ⟨byteAt file (p + 2).toNat, byteAt file (p + 1).toNat, byteAt file p.toNat⟩

/-- The padding of a scanline of `w` pixels, `(4 - (w * 3) % 4) % 4`. -/
def rowPadding (w : Nat) : Nat := (4 - (w * 3) % 4) % 4

/-- The size of the pixel array, `array_bytes = (w * 3 + padding) * h`. -/
def arrayBytes (w h : Nat) : Nat := (w * 3 + rowPadding w) * h

/-- The `n` low bytes of `v`, low byte first: a little-endian field of `n`
bytes holding `v`. -/
def leBytes (n : Nat) (v : Int) : List Byte :=
  (List.range n).map (fun i => toByte (v / 256 ^ i))

/-- The 54 header bytes of the specification for a raster of width `w` and
height `h`. -/
def specHeader (w h : Nat) : List Byte :=
  [66, 77] ++ leBytes 4 (14 + 40 + arrayBytes w h) ++ leBytes 2 0 ++ leBytes 2 0
    ++ leBytes 4 54
    ++ leBytes 4 40 ++ leBytes 4 w ++ leBytes 4 h ++ leBytes 2 1 ++ leBytes 2 24
    ++ leBytes 4 0 ++ leBytes 4 (arrayBytes w h) ++ leBytes 4 2835 ++ leBytes 4 2835
    ++ leBytes 4 0 ++ leBytes 4 0

/-- The three bytes of a pixel on disk: blue, green, red. -/
def pixelBytes (p : Pixel) : List Byte := [toByte p.blue, toByte p.green, toByte p.red]

/-- The bytes of a scanline: the pixels from left to right, then the zero
padding bytes. -/
def rowBytes (w : Nat) (row : List Pixel) : List Byte :=
  (row.map pixelBytes).flatten ++ List.replicate (rowPadding w) 0

/-- The pixel array of the specification: the scanlines of the rows, last row
first. -/
def specPixelArray (image : Image) (w : Nat) : List Byte :=
  (image.reverse.map (rowBytes w)).flatten

/-- The `n` bytes that `set_bytes` stores for `value`, in the order of their
indices. -/
def storedBytes (n : Nat) (value : Int) : List Byte :=
  (List.range n).map (fun (i : Nat) => toByte (value >>> (i * 8)))

/-- A pixel with each channel reduced modulo 256 into `[0, 255]`. -/
def truncPixel (p : Pixel) : Pixel := ⟨p.red % 256, p.green % 256, p.blue % 256⟩

/-- An image with every channel reduced modulo 256. -/
def truncImage (image : Image) : Image := image.map (fun row => row.map truncPixel)

/-- Every channel of every pixel lies in `[0, 255]`. -/
def InRange (image : Image) : Prop :=
  ∀ row ∈ image, ∀ p ∈ row,
    (0 ≤ p.red ∧ p.red ≤ 255) ∧ (0 ≤ p.green ∧ p.green ≤ 255) ∧ (0 ≤ p.blue ∧ p.blue ≤ 255)

instance (image : Image) : Decidable (InRange image) := by
  unfold InRange
  exact inferInstance

/-- The number of bytes of the encoding of a raster of width `w` and height `h`:
`54 + (w * 3 + padding) * h`. -/
def encodedSize (w h : Nat) : Nat := 54 + arrayBytes w h

/-! ## Sample inputs -/

/-- The 2 by 2 raster of the specification. -/
def sampleRaster : Image :=
  [[⟨10, 20, 30⟩, ⟨40, 50, 60⟩], [⟨70, 80, 90⟩, ⟨100, 110, 120⟩]]

/-- A 70 byte file holding a 2 by 2 image of 24 bits per pixel. -/
def sampleFile : List Byte :=
  [66, 77, 70, 0, 0, 0, 0, 0, 0, 0, 54, 0, 0, 0, 40, 0, 0, 0, 2, 0, 0, 0, 2, 0, 0, 0,
   1, 0, 24, 0, 0, 0, 0, 0, 16, 0, 0, 0, 19, 11, 0, 0, 19, 11, 0, 0, 0, 0, 0, 0, 0, 0, 0, 0,
   90, 80, 70, 120, 110, 100, 0, 0, 30, 20, 10, 60, 50, 40, 0, 0]

/-- A raster of one row of 715827883 black pixels: `width * 3` exceeds the range
of `int`. -/
def wideRaster : Image := [List.replicate 715827883 Pixel.zero]

/-- A raster of one row of 1431655765 black pixels: its encoding has
`54 + 2 ^ 32` bytes. -/
def hugeRaster : Image := [List.replicate 1431655765 Pixel.zero]

/-- A raster of one black pixel. -/
def blackRaster : Image := [[⟨0, 0, 0⟩]]

/-- A raster of one white pixel. -/
def whiteRaster : Image := [[⟨255, 255, 255⟩]]

/-- A raster of one dark gray pixel. -/
def darkRaster : Image := [[⟨50, 50, 50⟩]]

/-- The function `process_4` applied `n` times in succession. -/
def process_4_times : Nat → Image → Option Image
  | 0, image => some image
  | n + 1, image => (process_4_times n image).bind process_4

/-- A raster of one row with two different pixels. -/
def twoPixelRaster : Image := [[⟨1, 2, 3⟩, ⟨4, 5, 6⟩]]

/-- A raster of two rows of one black pixel. -/
def twoRowRaster : Image := [[Pixel.zero], [Pixel.zero]]


/-- A 1 by 3 raster with a white, a black and a mid-gray pixel whose integer
average is exactly 127. -/
def thresholdRaster : Image := [[⟨255, 255, 255⟩, ⟨0, 0, 0⟩, ⟨127, 127, 128⟩]]

/-- A 1 by 3 raster with the three pixels (200,200,150), (50,50,50) and
(50,200,30). -/
def posterRaster : Image := [[⟨200, 200, 150⟩, ⟨50, 50, 50⟩, ⟨50, 200, 30⟩]]

/-- A 2 by 6 raster, black except for the white pixel in row 1, column 0. -/
def vignetteRaster : Image :=
  [[⟨0, 0, 0⟩, ⟨0, 0, 0⟩, ⟨0, 0, 0⟩, ⟨0, 0, 0⟩, ⟨0, 0, 0⟩, ⟨0, 0, 0⟩],
   [⟨255, 255, 255⟩, ⟨0, 0, 0⟩, ⟨0, 0, 0⟩, ⟨0, 0, 0⟩, ⟨0, 0, 0⟩, ⟨0, 0, 0⟩]]

/-- A raster of one pixel whose channels lie outside [0,255]. -/
def overflowRaster : Image := [[⟨-255, 256, 500⟩]]

/-- A 30 byte file whose start field is `FF FF FF FF`: declared size 3, pixel
array at -1, width 1, height 1, 24 bits per pixel. -/
def negativeStartFile : List Byte :=
  [66, 77, 3, 0, 0, 0, 0, 0, 0, 0, 255, 255, 255, 255, 40, 0, 0, 0,
   1, 0, 0, 0, 1, 0, 0, 0, 1, 0, 24, 0]

/-- A 34 byte file holding a 1 by 1 image of 32 bits per pixel: the pixel array
starts at offset 30 and holds blue 10, green 20, red 30 and the fourth byte
255. -/
def alphaFile : List Byte :=
  [66, 77, 34, 0, 0, 0, 0, 0, 0, 0, 30, 0, 0, 0, 40, 0, 0, 0,
   1, 0, 0, 0, 1, 0, 0, 0, 1, 0, 32, 0, 10, 20, 30, 255]

/-- A 30 byte file of 32 bits per pixel whose pixel array starts at offset 3,
inside the header: declared size 27, width 2, height 3.  The low bytes of the
width and height fields, at offsets 18 and 22, are the fourth bytes of the
pixel slots starting at offsets 15 and 19. -/
def overlapFileA : List Byte :=
  [66, 77, 27, 0, 0, 0, 0, 0, 0, 0, 3, 0, 0, 0, 40, 0, 0, 0,
   2, 0, 0, 0, 3, 0, 0, 0, 1, 0, 32, 0]

/-- The file `overlapFileA` with the bytes at offsets 18 and 22 exchanged:
width 3, height 2. -/
def overlapFileB : List Byte := (overlapFileA.set 18 3).set 22 2

/-- The distance of the specification from the position `(row, col)` to the
centre `(h / 2, w / 2)` of an image of height `h` and width `w`,
`sqrt ((row - h / 2) ^ 2 + (col - w / 2) ^ 2)`, evaluated in `double`
arithmetic with the library function `sqrt`. -/
def centreDistance (sqrt : ℚ → ℚ) (h w row col : Nat) : ℚ :=
  sqrt (fadd
    (fmul (fsub (row : ℚ) (fdiv (h : ℚ) 2)) (fsub (row : ℚ) (fdiv (h : ℚ) 2)))
    (fmul (fsub (col : ℚ) (fdiv (w : ℚ) 2)) (fsub (col : ℚ) (fdiv (w : ℚ) 2))))

/-- The factor `(h - d) / h` of the specification at the position `(row, col)`,
evaluated in `double` arithmetic. -/
def vignetteFactor (sqrt : ℚ → ℚ) (h w row col : Nat) : ℚ :=
  fdiv (fsub (h : ℚ) (centreDistance sqrt h w row col)) (h : ℚ)

/-- A `double` whose truncation toward zero is an `int` value. -/
def FitsInt (d : ℚ) : Prop := -2147483648 ≤ truncate d ∧ truncate d ≤ 2147483647

instance (d : ℚ) : Decidable (FitsInt d) := by
  unfold FitsInt
  infer_instance

/-- The sum `a + b + c`, evaluated from the left in `int`, does not overflow. -/
def SumFits (a b c : Int) : Prop :=
  (-2147483648 ≤ a + b ∧ a + b ≤ 2147483647) ∧
  (-2147483648 ≤ a + b + c ∧ a + b + c ≤ 2147483647)

instance (a b c : Int) : Decidable (SumFits a b c) := by
  unfold SumFits
  infer_instance

/-- The expression `255 - (255 - c) * factor` of the specification, evaluated
in `double` arithmetic. -/
def brighten (c : Int) (factor : ℚ) : ℚ := fsub 255 (fmul ((255 - c : Int) : ℚ) factor)

/-- The `double` nearest to 0.3. -/
def factor03 : ℚ := 5404319552844595 / 18014398509481984

/-- A raster of one pixel with channels 10, 20 and 30. -/
def shadowRaster : Image := [[⟨10, 20, 30⟩]]

/-- A raster of one pixel whose channel sum exceeds the range of `int`. -/
def wrapSumRaster : Image := [[⟨1500000015, 1500000015, 255⟩]]

/-- A raster of one row and no column. -/
def emptyRowRaster : Image := [[]]

/-- A 54 byte file declaring size 50, pixel array at 54, width 1, height -1 and
24 bits per pixel. -/
def negativeHeightFile : List Byte :=
  [66, 77, 50, 0, 0, 0, 0, 0, 0, 0, 54, 0, 0, 0, 40, 0, 0, 0,
   1, 0, 0, 0, 255, 255, 255, 255, 1, 0, 24, 0, 0, 0, 0, 0, 0, 0, 0, 0, 0, 0, 0, 0,
   0, 0, 0, 0, 0, 0, 0, 0, 0, 0, 0, 0]

/-- A raster of three rows of one black pixel. -/
def threeRowRaster : Image := [[Pixel.zero], [Pixel.zero], [Pixel.zero]]

/-- A 58 byte file whose width field is `FF FF FF FF`: declared size 58, pixel
array at 54, width -1, height 1, 24 bits per pixel. -/
def negativeWidthLongFile : List Byte :=
  [66, 77, 58, 0, 0, 0, 0, 0, 0, 0, 54, 0, 0, 0, 40, 0, 0, 0,
   255, 255, 255, 255, 1, 0, 0, 0, 1, 0, 24, 0, 0, 0, 0, 0, 0, 0, 0, 0, 0, 0, 0, 0,
   0, 0, 0, 0, 0, 0, 0, 0, 0, 0, 0, 0, 0, 0, 0, 0]

/-- A one-pixel raster whose red channel is the least `int` and whose green
and blue channels are the greatest `int`. -/
def extremeRaster : Image := [[⟨-2147483648, 2147483647, 2147483647⟩]]

/-- A 30 byte file declaring start 2147483647 and size -2147483645 (bytes
`03 00 00 80`), width 1, height 1 and 24 bits per pixel. -/
def overflowStartFile : List Byte :=
  [66, 77, 3, 0, 0, 128, 0, 0, 0, 0, 255, 255, 255, 127, 40, 0, 0, 0,
   1, 0, 0, 0, 1, 0, 0, 0, 1, 0, 24, 0]
/-! ## Machine integers: lemmas -/

theorem wrap32_eq_add_mul (a : Int) : ∃ k : Int, wrap32 a = a + k * 4294967296 := by
  refine ⟨-((a + 2147483648) / 4294967296), ?_⟩
  unfold wrap32
  omega

theorem wrap32_add_mul (a k : Int) : wrap32 (a + k * 4294967296) = wrap32 a := by
  unfold wrap32
  rw [show a + k * 4294967296 + 2147483648 = a + 2147483648 + k * 4294967296 by ring,
    Int.add_mul_emod_self]

theorem wrap32_of_range {a : Int} (h1 : -2147483648 ≤ a) (h2 : a < 2147483648) :
    wrap32 a = a := by
  unfold wrap32
  omega

theorem wrap32_range (a : Int) : -2147483648 ≤ wrap32 a ∧ wrap32 a < 2147483648 := by
  unfold wrap32
  omega

theorem wrap32_wrap32_add (a b : Int) : wrap32 (wrap32 a + b) = wrap32 (a + b) := by
  obtain ⟨k, hk⟩ := wrap32_eq_add_mul a
  rw [hk, show a + k * 4294967296 + b = a + b + k * 4294967296 by ring, wrap32_add_mul]

theorem wrap32_add_wrap32 (a b : Int) : wrap32 (a + wrap32 b) = wrap32 (a + b) := by
  rw [add_comm, wrap32_wrap32_add, add_comm]

theorem wrap32_mul_wrap32 (a b : Int) : wrap32 (a * wrap32 b) = wrap32 (a * b) := by
  obtain ⟨k, hk⟩ := wrap32_eq_add_mul b
  rw [hk, show a * (b + k * 4294967296) = a * b + (a * k) * 4294967296 by ring,
    wrap32_add_mul]

theorem wrap32_wrap32_mul (a b : Int) : wrap32 (wrap32 a * b) = wrap32 (a * b) := by
  rw [mul_comm, wrap32_mul_wrap32, mul_comm]

theorem wrap32_idem (a : Int) : wrap32 (wrap32 a) = wrap32 a :=
  wrap32_of_range (wrap32_range a).1 (wrap32_range a).2

theorem leValue_succ (data : List Byte) (offset n : Nat) :
    leValue data offset (n + 1) = leValue data offset n + byteAt data (offset + n) * 256 ^ n := by
  simp [leValue, List.range_succ]

theorem get_of_lt (s : FStream) (hf : s.failed = false) (h : s.cur < s.data.length) :
    s.get = (byteAt s.data s.cur, ⟨s.data, s.cur + 1, false⟩) := by
  obtain ⟨data, cur, failed⟩ := s
  simp only at hf h
  subst hf
  simp [FStream.get, byteAt, List.getElem?_eq_getElem h, List.getD_eq_getElem?_getD]

theorem get_int_loop (data : List Byte) (offset : Nat) :
    ∀ n : Nat, offset + n ≤ data.length →
      (List.range n).foldl
        (fun (st : Int × Int × FStream) (_ : Nat) =>
          let c := st.2.2.get
          (iadd st.1 (imul c.1 st.2.1), imul st.2.1 256, c.2))
        (0, 1, ⟨data, offset, false⟩)
      = (wrap32 (leValue data offset n), wrap32 (256 ^ n), ⟨data, offset + n, false⟩) := by
  intro n
  induction n with
  | zero =>
    intro _
    simp [leValue, wrap32]
  | succ n ih =>
    intro h
    rw [List.range_succ, List.foldl_append, ih (by omega)]
    simp only [List.foldl_cons, List.foldl_nil]
    rw [get_of_lt _ rfl (by simp only; omega)]
    simp only [iadd, imul, leValue_succ, wrap32_mul_wrap32, wrap32_wrap32_add, wrap32_add_wrap32,
      wrap32_wrap32_mul, pow_succ, add_assoc]

theorem get_int_eq (s : FStream) (offset n : Nat) (hf : s.failed = false)
    (h : offset + n ≤ s.data.length) :
    get_int s offset n = (wrap32 (leValue s.data offset n), ⟨s.data, offset + n, false⟩) := by
  obtain ⟨data, cur, failed⟩ := s
  simp only at hf h
  subst hf
  have h0 : ¬ ((offset : Int) < 0) := by omega
  have := get_int_loop data offset n h
  dsimp only at this
  simp [get_int, FStream.seekg, h0, this]


/-! ## Header parsing -/

theorem leValue_nonneg (data : List Byte) (offset n : Nat) : 0 ≤ leValue data offset n := by
  induction n with
  | zero => simp [leValue]
  | succ n ih =>
    rw [leValue_succ]
    have : 0 ≤ byteAt data (offset + n) := by simp [byteAt]
    positivity

theorem byteAt_lt (data : List Byte) (k : Nat) : byteAt data k < 256 := by
  unfold byteAt
  have := (data.getD k 0).isLt
  omega

theorem leValue_lt (data : List Byte) (offset n : Nat) : leValue data offset n < 256 ^ n := by
  induction n with
  | zero => simp [leValue]
  | succ n ih =>
    rw [leValue_succ, pow_succ]
    have h1 := byteAt_lt data (offset + n)
    have h2 : (0 : Int) < 256 ^ n := by positivity
    nlinarith

theorem read_header_eq (file : List Byte) (h : 30 ≤ file.length) :
    read_header (FStream.openIn file) =
      (⟨wrap32 (leValue file 2 4), wrap32 (leValue file 10 4), wrap32 (leValue file 18 4),
        wrap32 (leValue file 22 4), leValue file 28 2⟩, ⟨file, 30, false⟩) := by
  have e1 := get_int_eq (FStream.openIn file) 2 4 rfl (by simp [FStream.openIn]; omega)
  have e2 := get_int_eq ⟨file, 2 + 4, false⟩ 10 4 rfl (by simp; omega)
  have e3 := get_int_eq ⟨file, 10 + 4, false⟩ 18 4 rfl (by simp; omega)
  have e4 := get_int_eq ⟨file, 18 + 4, false⟩ 22 4 rfl (by simp; omega)
  have e5 := get_int_eq ⟨file, 22 + 4, false⟩ 28 2 rfl (by simp; omega)
  have l5 := leValue_lt file 28 2
  have n5 := leValue_nonneg file 28 2
  simp only [FStream.openIn] at e1
  simp only [read_header, FStream.openIn]
  simp only [Nat.cast_ofNat] at e1 e2 e3 e4 e5
  rw [e1, e2, e3, e4, e5]
  simp only [Prod.mk.injEq, Header.mk.injEq, true_and, and_true]
  exact wrap32_of_range (by omega) (by norm_num at l5; omega)

/-- C5 (counterexample): on the four bytes `FF FF FF FF` the function `get_int`
returns `-1`, while the little-endian sum of the bytes is `4294967295`. -/
theorem get_int_top_bit_negative :
    (get_int (FStream.openIn [255, 255, 255, 255]) 0 4).1 = -1 ∧
    leValue [255, 255, 255, 255] 0 4 = 4294967295 ∧
    (get_int (FStream.openIn [255, 255, 255, 255]) 0 4).1 ≠ leValue [255, 255, 255, 255] 0 4 := by
  decide

/-- C5 (amended): when the `n` bytes at `offset` are present, `get_int` returns
their little-endian sum reduced to the signed 32-bit range, which is the sum
itself whenever the sum is below `2 ^ 31` (always so for `n ≤ 3`); and on a file
of at least 30 bytes `read_image` takes the file size from the 4 bytes at offset
2, the pixel-array start from the 4 bytes at offset 10, the width from the 4
bytes at offset 18, the height from the 4 bytes at offset 22 and the bits per
pixel from the 2 bytes at offset 28. -/
theorem get_int_little_endian (s : FStream) (offset n : Nat) (hf : s.failed = false)
    (h : offset + n ≤ s.data.length) :
    (get_int s offset n).1 = wrap32 (leValue s.data offset n) ∧
    (leValue s.data offset n < 2147483648 → (get_int s offset n).1 = leValue s.data offset n) ∧
    (n ≤ 3 → (get_int s offset n).1 = leValue s.data offset n) ∧
    (30 ≤ s.data.length →
      headerOf s.data = ⟨wrap32 (leValue s.data 2 4), wrap32 (leValue s.data 10 4),
        wrap32 (leValue s.data 18 4), wrap32 (leValue s.data 22 4), leValue s.data 28 2⟩) := by
  have e := get_int_eq s offset n hf h
  have h0 := leValue_nonneg s.data offset n
  refine ⟨by rw [e], ?_, ?_, ?_⟩
  · intro hlt
    rw [e]
    exact wrap32_of_range (by omega) hlt
  · intro hn
    rw [e]
    have hlt := leValue_lt s.data offset n
    have : (256 : Int) ^ n ≤ 256 ^ 3 := pow_le_pow_right₀ (by norm_num) hn
    exact wrap32_of_range (by omega) (by norm_num at this; omega)
  · intro h30
    rw [headerOf, read_header_eq _ h30]

/-- C5 (amended), instance: the two bytes `24 0` at offset 28 of a 30 byte
header, and the header fields of that file. -/
theorem get_int_little_endian_witness :
    (get_int (FStream.openIn wrongSizeFile) 28 2).1
        = wrap32 (leValue (FStream.openIn wrongSizeFile).data 28 2) ∧
    (get_int (FStream.openIn wrongSizeFile) 28 2).1
        = leValue (FStream.openIn wrongSizeFile).data 28 2 ∧
    headerOf (FStream.openIn wrongSizeFile).data =
      ⟨wrap32 (leValue (FStream.openIn wrongSizeFile).data 2 4),
        wrap32 (leValue (FStream.openIn wrongSizeFile).data 10 4),
        wrap32 (leValue (FStream.openIn wrongSizeFile).data 18 4),
        wrap32 (leValue (FStream.openIn wrongSizeFile).data 22 4),
        leValue (FStream.openIn wrongSizeFile).data 28 2⟩ :=
  have t := get_int_little_endian (FStream.openIn wrongSizeFile) 28 2 rfl (by decide)
  ⟨t.1, t.2.2.1 (by decide), t.2.2.2 (by decide)⟩

/-! ## Rejection of files whose size does not match -/

theorem tmod_four_of_nonneg {s : Int} (h : 0 ≤ s) : Int.tmod s 4 = s % 4 := by
  rw [Int.tmod_eq_emod h (by norm_num)]

theorem padding_eq_specPadding (hd : Header) (h : 0 ≤ hd.scanline_size) :
    hd.padding = specPadding hd.scanline_size := by
  unfold Header.padding specPadding
  rw [tmod_four_of_nonneg h]
  have h1 : 0 ≤ hd.scanline_size % 4 := Int.emod_nonneg _ (by norm_num)
  have h2 : hd.scanline_size % 4 < 4 := Int.emod_lt_of_pos _ (by norm_num)
  rw [Int.tmod_eq_emod (by omega) (by norm_num)]
  split
  · rw [isub, wrap32_of_range (by omega) (by omega)]
    omega
  · omega

theorem read_image_of_mismatch (file : List Byte)
    (h : (headerOf file).file_size ≠ (headerOf file).layout_size) :
    read_image file = some [] := by
  unfold headerOf at h
  simp only [read_image, h, ne_eq, not_false_eq_true, if_true]

theorem specPadding_range (s : Int) (h : 0 ≤ s) : 0 ≤ specPadding s ∧ specPadding s ≤ 3 := by
  unfold specPadding
  rw [tmod_four_of_nonneg h]
  have h1 : 0 ≤ s % 4 := Int.emod_nonneg _ (by norm_num)
  have h2 : s % 4 < 4 := Int.emod_lt_of_pos _ (by norm_num)
  rw [Int.tmod_eq_emod (by omega) (by norm_num)]
  omega

theorem layout_size_eq_spec (hd : Header) (hs : 0 ≤ hd.start) (hw : 0 ≤ hd.width)
    (hh : 0 ≤ hd.height) (hb : 0 ≤ hd.bits_per_pixel)
    (hlt : specLayoutSize hd < 2147483648) :
    hd.layout_size = specLayoutSize hd ∧
      (1 ≤ hd.height → hd.scanline_size = hd.width * Int.tdiv hd.bits_per_pixel 8 ∧
        hd.padding = specPadding (hd.width * Int.tdiv hd.bits_per_pixel 8)) := by
  have hb8 : 0 ≤ Int.tdiv hd.bits_per_pixel 8 := Int.tdiv_nonneg hb (by norm_num)
  have hsc : 0 ≤ hd.width * Int.tdiv hd.bits_per_pixel 8 := mul_nonneg hw hb8
  have hp := specPadding_range _ hsc
  rcases Int.lt_or_le hd.height 1 with h0 | h1
  · have hz : hd.height = 0 := by omega
    refine ⟨?_, fun h => absurd h (by omega)⟩
    unfold specLayoutSize at hlt ⊢
    unfold Header.layout_size
    rw [hz] at hlt ⊢
    simp only [mul_zero, add_zero] at hlt ⊢
    simp only [imul, iadd, mul_zero]
    rw [wrap32_of_range (a := 0) (by norm_num) (by norm_num), add_zero,
      wrap32_of_range (by omega) hlt]
  · unfold specLayoutSize at hlt ⊢
    set s := hd.width * Int.tdiv hd.bits_per_pixel 8 with hsdef
    have hmul : s + specPadding s ≤ (s + specPadding s) * hd.height := by nlinarith
    have hscan : hd.scanline_size = s := by
      unfold Header.scanline_size imul
      exact wrap32_of_range (by omega) (by omega)
    have hpad : hd.padding = specPadding s := by
      rw [padding_eq_specPadding hd (by rw [hscan]; exact hsc), hscan]
    refine ⟨?_, fun _ => ⟨hscan, hpad⟩⟩
    unfold Header.layout_size
    rw [hscan, hpad]
    simp only [iadd, imul]
    rw [wrap32_of_range (a := s + specPadding s) (by omega) (by omega)]
    have hnn : 0 ≤ (s + specPadding s) * hd.height := mul_nonneg (by omega) hh
    rw [wrap32_of_range (a := (s + specPadding s) * hd.height) (by omega) (by omega)]
    exact wrap32_of_range (by omega) hlt

/-- C3 (counterexample): the 30 byte file `negativeWidthFile` declares size 58,
start 54, width -1, height 1 and 24 bits per pixel.  Its declared size differs
from the layout size of the specification (54), yet `read_image` does not
return the empty raster: the code computes padding 7 where the formula gives 3,
accepts the size, and the vector constructor throws on the negative width. -/
theorem read_image_negative_width_throws :
    headerOf negativeWidthFile = ⟨58, 54, -1, 1, 24⟩ ∧
    (headerOf negativeWidthFile).file_size ≠ specLayoutSize (headerOf negativeWidthFile) ∧
    (headerOf negativeWidthFile).padding = 7 ∧
    specPadding (headerOf negativeWidthFile).scanline_size = 3 ∧
    read_image negativeWidthFile = none ∧
    read_image negativeWidthFile ≠ some [] := by
  decide

/-- C3 (amended): for every input byte stream, `read_image` returns the empty
raster, raising no error, when the declared file size differs from
`start + (scanline_size + padding) * height` as the code evaluates it (32-bit
`int` arithmetic, padding 0 if `scanline_size % 4 == 0` and
`4 - scanline_size % 4` otherwise); the branch form of the padding equals
`(4 - scanline_size % 4) % 4` whenever `scanline_size` is not negative; and when
start, width, height and bits per pixel are not negative and the layout size of
the specification is below `2 ^ 31`, a declared size different from that layout
size makes `read_image` return the empty raster. -/
theorem read_image_rejects_size_mismatch (file : List Byte) :
    ((headerOf file).file_size ≠ (headerOf file).layout_size → read_image file = some []) ∧
    (0 ≤ (headerOf file).scanline_size →
      (headerOf file).padding = specPadding (headerOf file).scanline_size) ∧
    (0 ≤ (headerOf file).start → 0 ≤ (headerOf file).width → 0 ≤ (headerOf file).height →
      0 ≤ (headerOf file).bits_per_pixel → specLayoutSize (headerOf file) < 2147483648 →
      (headerOf file).file_size ≠ specLayoutSize (headerOf file) →
      read_image file = some []) := by
  refine ⟨read_image_of_mismatch file, padding_eq_specPadding _, ?_⟩
  intro hs hw hh hb hlt hne
  apply read_image_of_mismatch
  rw [(layout_size_eq_spec _ hs hw hh hb hlt).1]
  exact hne

/-- C3 (amended), instance: `wrongSizeFile` declares 57 bytes for a layout of 58
and is rejected. -/
theorem read_image_rejects_size_mismatch_witness :
    read_image wrongSizeFile = some [] ∧
    (headerOf wrongSizeFile).padding = specPadding (headerOf wrongSizeFile).scanline_size ∧
    (headerOf wrongSizeFile).file_size ≠ specLayoutSize (headerOf wrongSizeFile) :=
  have t := read_image_rejects_size_mismatch wrongSizeFile
  ⟨t.2.2 (by decide) (by decide) (by decide) (by decide) (by decide) (by decide),
    t.2.1 (by decide), by decide⟩

/-! ## Loops and pixel access -/

theorem foldlM_range_inv {σ : Type} (f : σ → Nat → Option σ) (P : Nat → σ → Prop) (s0 : σ) :
    ∀ n : Nat, P 0 s0 →
      (∀ k s, k < n → P k s → ∃ s', f s k = some s' ∧ P (k + 1) s') →
      ∃ s, (List.range n).foldlM f s0 = some s ∧ P n s := by
  intro n
  induction n with
  | zero =>
    intro h0 _
    exact ⟨s0, by simp, h0⟩
  | succ n ih =>
    intro h0 step
    obtain ⟨s, hs, hP⟩ := ih h0 (fun k s hk hp => step k s (by omega) hp)
    obtain ⟨s', hs', hP'⟩ := step n s (by omega) hP
    refine ⟨s', ?_, hP'⟩
    rw [List.range_succ, List.foldlM_append, hs]
    simp [hs']

theorem foldlM_range_reverse_inv {σ : Type} (f : σ → Nat → Option σ) (P : Nat → σ → Prop)
    (s0 : σ) (n : Nat) (h0 : P 0 s0)
    (step : ∀ k s, k < n → P k s → ∃ s', f s (n - 1 - k) = some s' ∧ P (k + 1) s') :
    ∃ s, (List.range n).reverse.foldlM f s0 = some s ∧ P n s := by
  have hrev : (List.range n).reverse = (List.range n).map (fun k => n - 1 - k) := by
    rw [List.range_eq_range', List.reverse_range', ← List.range_eq_range']
    simp
  rw [hrev, List.foldlM_map]
  exact foldlM_range_inv (fun s k => f s (n - 1 - k)) P s0 n h0 step

theorem dims_alloc (h w : Nat) (p : Pixel) :
    Dims (List.replicate h (List.replicate w p)) h w := by
  refine ⟨by simp, ?_⟩
  intro row hrow
  rw [List.eq_of_mem_replicate hrow]
  simp

theorem dims_getElem? {image : Image} {h w : Nat} (hd : Dims image h w) {i : Nat} (hi : i < h) :
    ∃ row, image[i]? = some row ∧ row.length = w := by
  have hlt : i < image.length := by rw [hd.1]; exact hi
  exact ⟨image[i], List.getElem?_eq_getElem hlt, hd.2 _ (List.getElem_mem hlt)⟩

theorem getPixel_of_dims {image : Image} {h w : Nat} (hd : Dims image h w) {i j : Nat}
    (hi : i < h) (hj : j < w) : ∃ p, getPixel image i j = some p := by
  obtain ⟨row, hrow, hlen⟩ := dims_getElem? hd hi
  have hlt : j < row.length := by rw [hlen]; exact hj
  exact ⟨row[j], by simp [getPixel, hrow, List.getElem?_eq_getElem hlt]⟩

theorem setPixel_spec {image : Image} {h w : Nat} (hd : Dims image h w) {i j : Nat}
    (hi : i < h) (hj : j < w) (p : Pixel) :
    ∃ image', setPixel image i j p = some image' ∧ Dims image' h w ∧
      ∀ i' j', getPixel image' i' j' =
        if i' = i ∧ j' = j then some p else getPixel image i' j' := by
  obtain ⟨row, hrow, hlen⟩ := dims_getElem? hd hi
  have hlt : j < row.length := by rw [hlen]; exact hj
  have hil : i < image.length := by rw [hd.1]; exact hi
  refine ⟨image.set i (row.set j p), by simp [setPixel, hrow, hlt], ⟨by simp [hd.1], ?_⟩, ?_⟩
  · intro r hr
    rcases List.mem_or_eq_of_mem_set hr with h1 | h1
    · exact hd.2 r h1
    · rw [h1]; simp [hlen]
  · intro i' j'
    unfold getPixel
    rw [List.getElem?_set]
    by_cases hii : i = i'
    · subst hii
      simp only [hil, if_true, true_and, hrow]
      rw [List.getElem?_set]
      by_cases hjj : j = j'
      · subst hjj
        simp [hlt]
      · simp [hjj, Ne.symm hjj]
    · simp [hii, Ne.symm hii]

theorem image_ext {a b : Image} {h w : Nat} (ha : Dims a h w) (hb : Dims b h w)
    (hp : ∀ i j, i < h → j < w → getPixel a i j = getPixel b i j) : a = b := by
  apply List.ext_getElem (by rw [ha.1, hb.1])
  intro i h1 h2
  have hi : i < h := by rw [← ha.1]; exact h1
  have la : (a[i]).length = w := ha.2 _ (List.getElem_mem h1)
  have lb : (b[i]).length = w := hb.2 _ (List.getElem_mem h2)
  apply List.ext_getElem (by rw [la, lb])
  intro j g1 g2
  have hj : j < w := by rw [← la]; exact g1
  have := hp i j hi hj
  simp only [getPixel, List.getElem?_eq_getElem h1, List.getElem?_eq_getElem h2,
    List.getElem?_eq_getElem g1, List.getElem?_eq_getElem g2, Option.some.injEq] at this
  exact this

/-! ## Layout of the decoded pixels -/

theorem read_pixel_eq (file : List Byte) (bpp : Int) (i j : Nat) (img : Image) (pos : Int)
    (s : FStream) (hs : s.data = file) (hf : s.failed = false) (h0 : 0 ≤ pos)
    (hlen : pos + 2 < file.length) :
    read_pixel bpp i (img, pos, s) j =
      match setPixel img i j (pixelAt file pos) with
      | none => none
      | some image => some (image, iadd pos (Int.tdiv bpp 8), ⟨file, pos.toNat + 3, false⟩) := by
  obtain ⟨data, cur, failed⟩ := s
  simp only at hs hf
  subst hs hf
  have hneg : ¬ pos < 0 := by omega
  have e1 : (FStream.seekg ⟨data, cur, false⟩ pos) = ⟨data, pos.toNat, false⟩ := by
    simp [FStream.seekg, hneg]
  have g1 := get_of_lt ⟨data, pos.toNat, false⟩ rfl (by simp only; omega)
  have g2 := get_of_lt ⟨data, pos.toNat + 1, false⟩ rfl (by simp only; omega)
  have g3 := get_of_lt ⟨data, pos.toNat + 1 + 1, false⟩ rfl (by simp only; omega)
  simp only at g1 g2 g3
  simp only [read_pixel, e1, g1, g2, g3]
  have t1 : (pos + 1).toNat = pos.toNat + 1 := by omega
  have t2 : (pos + 2).toNat = pos.toNat + 1 + 1 := by omega
  simp only [pixelAt, t1, t2]

theorem read_pixels_spec (file : List Byte) (bpp : Int) (H W i : Nat) (img : Image) (p0 : Int)
    (s : FStream) (hs : s.data = file) (hf : s.failed = false) (hd : Dims img H W)
    (hi : i < H) (h0 : 0 ≤ p0) (hb : 3 ≤ Int.tdiv bpp 8)
    (hlen : p0 + W * Int.tdiv bpp 8 ≤ file.length)
    (hlt : p0 + W * Int.tdiv bpp 8 < 2147483648) :
    ∃ st, (List.range W).foldlM (read_pixel bpp i) (img, p0, s) = some st ∧
      st.2.1 = p0 + W * Int.tdiv bpp 8 ∧ st.2.2.data = file ∧ st.2.2.failed = false ∧
      Dims st.1 H W ∧
      (∀ i' j', i' ≠ i → getPixel st.1 i' j' = getPixel img i' j') ∧
      (∀ j, j < W → getPixel st.1 i j = some (pixelAt file (p0 + j * Int.tdiv bpp 8))) := by
  have key := foldlM_range_inv (read_pixel bpp i)
    (fun c st => st.2.1 = p0 + c * Int.tdiv bpp 8 ∧ st.2.2.data = file ∧
      st.2.2.failed = false ∧ Dims st.1 H W ∧
      (∀ i' j', i' ≠ i → getPixel st.1 i' j' = getPixel img i' j') ∧
      (∀ j, j < c → getPixel st.1 i j = some (pixelAt file (p0 + j * Int.tdiv bpp 8))))
    (img, p0, s) W
    ⟨by simp, hs, hf, hd, fun _ _ _ => rfl, fun j hj => absurd hj (by omega)⟩ ?_
  · exact key
  · rintro c ⟨im, pos, st⟩ hc ⟨hpos, hdat, hfl, hdim, hoth, hdone⟩
    simp only at hpos hdat hfl hdim hoth hdone
    have hcW : (c : Int) + 1 ≤ W := by exact_mod_cast hc
    have hmono : ((c : Int) + 1) * Int.tdiv bpp 8 ≤ W * Int.tdiv bpp 8 :=
      mul_le_mul_of_nonneg_right hcW (by omega)
    have hc0 : 0 ≤ (c : Int) * Int.tdiv bpp 8 := mul_nonneg (by omega) (by omega)
    have hexp : ((c : Int) + 1) * Int.tdiv bpp 8 = c * Int.tdiv bpp 8 + Int.tdiv bpp 8 := by ring
    rw [read_pixel_eq file bpp i c im pos st hdat hfl (by omega) (by omega)]
    obtain ⟨im', hset, hdim', hget⟩ := setPixel_spec hdim hi hc (pixelAt file pos)
    rw [hset]
    refine ⟨_, rfl, ?_, rfl, rfl, hdim', ?_, ?_⟩
    · simp only [iadd]
      rw [wrap32_of_range (by omega) (by omega), hpos]
      push_cast
      ring
    · intro i' j' hne
      simp only
      rw [hget, if_neg (by tauto), hoth i' j' hne]
    · intro j hj
      simp only
      rw [hget]
      by_cases hjc : j = c
      · subst hjc
        simp [hpos]
      · rw [if_neg (by tauto)]
        exact hdone j (by omega)

theorem seekgCur_data (s : FStream) (off : Int) : (s.seekgCur off).data = s.data := by
  unfold FStream.seekgCur
  split
  · rfl
  · split <;> rfl

theorem seekgCur_failed (s : FStream) (off : Int) (hf : s.failed = false) (h : 0 ≤ off) :
    (s.seekgCur off).failed = false := by
  have : ¬ ((s.cur : Int) + off < 0) := by omega
  simp [FStream.seekgCur, hf, this]

theorem read_rows_spec (file : List Byte) (bpp width padding start : Int) (H : Nat) (img : Image)
    (s : FStream) (hs : s.data = file) (hf : s.failed = false)
    (hd : Dims img H width.toNat) (hw : 0 ≤ width) (hp : 0 ≤ padding) (h0 : 0 ≤ start)
    (hb : 3 ≤ Int.tdiv bpp 8)
    (hlen : start + (width * Int.tdiv bpp 8 + padding) * H ≤ file.length)
    (hlt : start + (width * Int.tdiv bpp 8 + padding) * H < 2147483648) :
    ∃ st, (List.range H).reverse.foldlM (read_row bpp width padding) (img, start, s) = some st ∧
      Dims st.1 H width.toNat ∧
      ∀ i j, i < H → j < width.toNat → getPixel st.1 i j = some (pixelAt file
        (start + ((H : Int) - 1 - i) * (width * Int.tdiv bpp 8 + padding)
          + j * Int.tdiv bpp 8)) := by
  have hWc : ((width.toNat : Nat) : Int) = width := Int.toNat_of_nonneg hw
  have hstr : 0 ≤ width * Int.tdiv bpp 8 + padding :=
    add_nonneg (mul_nonneg hw (by omega)) hp
  have key := foldlM_range_reverse_inv (read_row bpp width padding)
    (fun k st => st.2.1 = start + k * (width * Int.tdiv bpp 8 + padding) ∧
      st.2.2.data = file ∧ st.2.2.failed = false ∧ Dims st.1 H width.toNat ∧
      (∀ i j, H ≤ i + k → i < H → j < width.toNat → getPixel st.1 i j = some (pixelAt file
        (start + ((H : Int) - 1 - i) * (width * Int.tdiv bpp 8 + padding)
          + j * Int.tdiv bpp 8))))
    (img, start, s) H
    ⟨by simp, hs, hf, hd, fun i j h1 h2 => absurd h1 (by omega)⟩ ?_
  · obtain ⟨st, h1, _, _, _, h4, h5⟩ := key
    exact ⟨st, h1, h4, fun i j hi hj => h5 i j (by omega) hi hj⟩
  · rintro k ⟨im, pos, st⟩ hk ⟨hpos, hdat, hfl, hdim, hdone⟩
    simp only at hpos hdat hfl hdim hdone
    have hkH : (k : Int) + 1 ≤ H := by exact_mod_cast hk
    have hmono : ((k : Int) + 1) * (width * Int.tdiv bpp 8 + padding)
        ≤ H * (width * Int.tdiv bpp 8 + padding) := mul_le_mul_of_nonneg_right hkH hstr
    have hk0 : 0 ≤ (k : Int) * (width * Int.tdiv bpp 8 + padding) :=
      mul_nonneg (by omega) hstr
    have hexp : ((k : Int) + 1) * (width * Int.tdiv bpp 8 + padding)
        = k * (width * Int.tdiv bpp 8 + padding) + width * Int.tdiv bpp 8 + padding := by ring
    have hcomm : (width * Int.tdiv bpp 8 + padding) * H
        = H * (width * Int.tdiv bpp 8 + padding) := by ring
    have hwb : 0 ≤ width * Int.tdiv bpp 8 := mul_nonneg hw (by omega)
    obtain ⟨st', hfold, hpos', hdat', hfl', hdim', hoth, hrow⟩ :=
      read_pixels_spec file bpp H width.toNat (H - 1 - k) im pos st hdat hfl hdim (by omega)
        (by omega) hb (by rw [hWc]; omega) (by rw [hWc]; omega)
    rw [hWc] at hpos'
    simp only [read_row, upTo, hfold]
    refine ⟨_, rfl, ?_, ?_, ?_, hdim', ?_⟩
    · simp only [iadd]
      rw [wrap32_of_range (by omega) (by omega), hpos', hpos]
      push_cast
      ring
    · simp only [seekgCur_data, hdat']
    · exact seekgCur_failed _ _ hfl' hp
    · intro i j h1 h2 h3
      simp only
      by_cases hik : i = H - 1 - k
      · rw [hik, hrow j h3, hpos]
        have : ((H : Int) - 1 - ((H - 1 - k : Nat) : Int)) = k := by omega
        rw [this]
      · rw [hoth i j hik]
        exact hdone i j (by omega) h2 h3

theorem tdiv_eight_of_nonneg {b : Int} (h : 0 ≤ b) : Int.tdiv b 8 = b / 8 := by
  rw [Int.tdiv_eq_ediv h (by norm_num)]

theorem read_header_openIn (file : List Byte) (h30 : 30 ≤ file.length) :
    read_header (FStream.openIn file) = (headerOf file, ⟨file, 30, false⟩) := by
  rw [headerOf, read_header_eq file h30]

theorem headerOf_range (file : List Byte) (h30 : 30 ≤ file.length) :
    (headerOf file).file_size < 2147483648 ∧ (headerOf file).start < 2147483648 ∧
    (headerOf file).width < 2147483648 ∧ (headerOf file).height < 2147483648 := by
  rw [headerOf, read_header_eq file h30]
  exact ⟨(wrap32_range _).2, (wrap32_range _).2, (wrap32_range _).2, (wrap32_range _).2⟩

theorem read_image_layout_aux (file : List Byte) (h30 : 30 ≤ file.length)
    (hsize : (headerOf file).file_size = specLayoutSize (headerOf file))
    (hbpp : 24 ≤ (headerOf file).bits_per_pixel)
    (hs : 0 ≤ (headerOf file).start) (hw : 0 ≤ (headerOf file).width)
    (hh : 0 ≤ (headerOf file).height)
    (hlen : (headerOf file).file_size ≤ file.length) :
    ∃ img, read_image file = some img ∧
      Dims img (headerOf file).height.toNat (headerOf file).width.toNat ∧
      ∀ i j : Nat, (i : Int) < (headerOf file).height → (j : Int) < (headerOf file).width →
        getPixel img i j = some (pixelAt file (pixelOffset (headerOf file) i j)) := by
  obtain ⟨r1, _, _, r4⟩ := headerOf_range file h30
  have hlay := layout_size_eq_spec (headerOf file) hs hw hh (by omega) (by rw [← hsize]; exact r1)
  have hchk : ¬ (headerOf file).file_size ≠ (headerOf file).layout_size := by
    rw [hlay.1, hsize]; simp
  have halloc : allocImage (headerOf file).height (headerOf file).width
      = some (List.replicate (headerOf file).height.toNat
          (List.replicate (headerOf file).width.toNat Pixel.zero)) := by
    have : ¬ ((headerOf file).height < 0 ∨ (headerOf file).width < 0) := by omega
    simp only [allocImage, this, if_false]
  have hb8 : 3 ≤ Int.tdiv (headerOf file).bits_per_pixel 8 := by
    rw [tdiv_eight_of_nonneg (by omega)]; omega
  simp only [read_image, read_header_openIn file h30, hchk, if_false, halloc]
  rcases Int.lt_or_le (headerOf file).height 1 with hz | h1
  · have hz0 : (headerOf file).height = 0 := by omega
    have hdown : downFrom (isub (headerOf file).height 1) = [] := by
      rw [hz0]; decide
    rw [hdown]
    refine ⟨_, rfl, ?_, ?_⟩
    · rw [hz0]; exact dims_alloc _ _ _
    · intro i j hi; omega
  · obtain ⟨hscan, hpad⟩ := hlay.2 h1
    have hdown : downFrom (isub (headerOf file).height 1)
        = (List.range (headerOf file).height.toNat).reverse := by
      unfold downFrom isub
      rw [wrap32_of_range (by omega) (by omega)]
      simp
    have hHc : (((headerOf file).height.toNat : Nat) : Int) = (headerOf file).height :=
      Int.toNat_of_nonneg hh
    have hp := specPadding_range _
      (mul_nonneg hw (show (0 : Int) ≤ Int.tdiv (headerOf file).bits_per_pixel 8 by omega))
    have htot : (headerOf file).start + ((headerOf file).width
        * Int.tdiv (headerOf file).bits_per_pixel 8 + (headerOf file).padding)
        * ((headerOf file).height.toNat : Nat) = (headerOf file).file_size := by
      rw [hsize, hpad, hHc]; rfl
    obtain ⟨st, hfold, hdim, hpix⟩ := read_rows_spec file (headerOf file).bits_per_pixel
      (headerOf file).width (headerOf file).padding (headerOf file).start
      (headerOf file).height.toNat _ ⟨file, 30, false⟩ rfl rfl (dims_alloc _ _ Pixel.zero)
      hw (by rw [hpad]; exact hp.1) hs hb8 (by rw [htot]; exact hlen) (by rw [htot]; exact r1)
    rw [hdown, hfold]
    refine ⟨_, rfl, hdim, ?_⟩
    intro i j hi hj
    rw [hpix i j (by omega) (by omega), hHc, hpad]
    rfl

/-! ## The bytes written by the encoder -/

theorem write_pixels_spec (image : Image) (i : Nat) (row : List Pixel)
    (hrow : image[i]? = some row) (out : List Byte) :
    (List.range row.length).foldlM (write_pixel image i) out
      = some (out ++ (row.map pixelBytes).flatten) := by
  have key := foldlM_range_inv (write_pixel image i)
    (fun c o => o = out ++ ((row.take c).map pixelBytes).flatten) out row.length
    (by simp) ?_
  · obtain ⟨o, h1, h2⟩ := key
    rw [h1, h2, List.take_length]
  · intro c o hc ho
    refine ⟨o ++ pixelBytes row[c], ?_, ?_⟩
    · simp [write_pixel, getPixel, hrow, List.getElem?_eq_getElem hc, pixelBytes]
    · show o ++ pixelBytes row[c] = out ++ ((row.take (c + 1)).map pixelBytes).flatten
      rw [ho, List.take_succ, List.getElem?_eq_getElem hc]
      simp only [Option.toList, List.map_append, List.flatten_append, List.map_cons,
        List.map_nil, List.flatten_cons, List.flatten_nil, List.append_nil, List.append_assoc]


theorem write_rows_spec (image : Image) (h w : Nat) (hd : Dims image h w) (pad : Int)
    (hpad : pad.toNat = rowPadding w) (out : List Byte) :
    (List.range h).reverse.foldlM (write_row image w pad) out
      = some (out ++ specPixelArray image w) := by
  have hp3 : rowPadding w ≤ 3 := by unfold rowPadding; omega
  have key := foldlM_range_reverse_inv (write_row image w pad)
    (fun k o => o = out ++ ((image.reverse.take k).map (rowBytes w)).flatten) out h
    (by simp) ?_
  · obtain ⟨o, h1, h2⟩ := key
    rw [h1, h2, specPixelArray]
    congr 3
    rw [List.take_of_length_le]
    simp [hd.1]
  · intro k o hk ho
    obtain ⟨row, hrow, hlen⟩ := dims_getElem? hd (show h - 1 - k < h by omega)
    have hrev : image.reverse[k]? = some row := by
      rw [List.getElem?_reverse (by rw [hd.1]; exact hk), hd.1, hrow]
    refine ⟨o ++ rowBytes w row, ?_, ?_⟩
    · have := write_pixels_spec image (h - 1 - k) row hrow o
      rw [hlen] at this
      simp only [write_row, upTo, Int.toNat_ofNat, this, hpad, List.take_replicate, rowBytes]
      rw [Nat.min_eq_left hp3, List.append_assoc]
    · show o ++ rowBytes w row
        = out ++ ((image.reverse.take (k + 1)).map (rowBytes w)).flatten
      rw [ho, List.take_succ, hrev]
      simp only [Option.toList, List.map_append, List.flatten_append, List.map_cons,
        List.map_nil, List.flatten_cons, List.flatten_nil, List.append_nil, List.append_assoc]


theorem bmp_header_eq (ab : Int) :
    bmp_header ab =
      storedBytes 1 66 ++ storedBytes 1 77 ++ storedBytes 4 (iadd (iadd 14 40) ab)
        ++ storedBytes 2 0 ++ storedBytes 2 0 ++ storedBytes 4 (iadd 14 40) := by
  rfl


theorem dib_header_eq (wp hp ab : Int) :
    dib_header wp hp ab =
      storedBytes 4 40 ++ storedBytes 4 wp ++ storedBytes 4 hp ++ storedBytes 2 1
        ++ storedBytes 2 24 ++ storedBytes 4 0 ++ storedBytes 4 ab ++ storedBytes 4 2835
        ++ storedBytes 4 2835 ++ storedBytes 4 0 ++ storedBytes 4 0 := by
  simp only [dib_header, set_bytes, storedBytes, List.range_succ, List.range_zero,
    List.nil_append, List.cons_append, List.foldl_cons, List.foldl_nil, List.map_cons,
    List.map_nil, List.replicate, List.set_cons_zero, List.set_cons_succ, Nat.add_zero,
    Nat.reduceAdd, List.append_assoc]

theorem toByte_shift_wrap32 (v : Int) (i : Nat) (hi : i < 4) :
    toByte (wrap32 v >>> (i * 8)) = toByte (v / 256 ^ i) := by
  have key : (wrap32 v >>> (i * 8)) % 256 = (v / 256 ^ i) % 256 := by
    rw [Int.shiftRight_eq_div_pow]
    unfold wrap32
    interval_cases i <;> norm_num <;> omega
  unfold toByte
  congr 1
  rw [key]


theorem storedBytes_wrap32 (n : Nat) (hn : n ≤ 4) (v : Int) :
    storedBytes n (wrap32 v) = leBytes n v := by
  unfold storedBytes leBytes
  apply List.map_congr_left
  intro i hi
  exact toByte_shift_wrap32 v i (by have := List.mem_range.mp hi; omega)


theorem storedBytes_of_range (n : Nat) (hn : n ≤ 4) (v : Int) (h1 : -2147483648 ≤ v)
    (h2 : v < 2147483648) : storedBytes n v = leBytes n v := by
  have := storedBytes_wrap32 n hn v
  rw [wrap32_of_range h1 h2] at this
  exact this


theorem storedBytes_one_66 : storedBytes 1 66 = [66] := by decide
theorem storedBytes_one_77 : storedBytes 1 77 = [77] := by decide
theorem iadd_14_40 : iadd 14 40 = 54 := by decide

theorem header_eq_spec (w h : Nat) (hw : w < 2147483648) (hh : h < 2147483648) :
    bmp_header (wrap32 (arrayBytes w h)) ++ dib_header w h (wrap32 (arrayBytes w h))
      = specHeader w h := by
  have e1 : iadd (iadd 14 40) (wrap32 (arrayBytes w h)) = wrap32 (14 + 40 + arrayBytes w h) := by
    simp only [iadd, wrap32_add_wrap32, wrap32_wrap32_add]
  have s1 := storedBytes_wrap32 4 (by omega) (14 + 40 + (arrayBytes w h : Int))
  have s2 := storedBytes_wrap32 4 (by omega) (arrayBytes w h : Int)
  have s3 := storedBytes_of_range 4 (by omega) (w : Int) (by omega) (by omega)
  have s4 := storedBytes_of_range 4 (by omega) (h : Int) (by omega) (by omega)
  have s5 := storedBytes_of_range 4 (by omega) 54 (by norm_num) (by norm_num)
  have s6 := storedBytes_of_range 4 (by omega) 40 (by norm_num) (by norm_num)
  have s7 := storedBytes_of_range 4 (by omega) 0 (by norm_num) (by norm_num)
  have s8 := storedBytes_of_range 4 (by omega) 2835 (by norm_num) (by norm_num)
  have s9 := storedBytes_of_range 2 (by omega) 0 (by norm_num) (by norm_num)
  have s10 := storedBytes_of_range 2 (by omega) 1 (by norm_num) (by norm_num)
  have s11 := storedBytes_of_range 2 (by omega) 24 (by norm_num) (by norm_num)
  rw [bmp_header_eq, dib_header_eq, e1, iadd_14_40, s1, s2, s3, s4, s5, s6, s7, s8, s9, s10, s11,
    storedBytes_one_66, storedBytes_one_77]
  simp only [specHeader, List.append_assoc, List.cons_append, List.nil_append]

theorem tmod_four_of_neg {a : Int} (h : a < 0) : Int.tmod a 4 = -((-a) % 4) := by
  obtain ⟨n, rfl⟩ := Int.eq_negSucc_of_lt_zero h
  have e1 : Int.tmod (Int.negSucc n) 4 = -(((n + 1) % 4 : Nat) : Int) := rfl
  have e2 : -(Int.negSucc n) = ((n + 1 : Nat) : Int) := rfl
  rw [e1, e2]
  omega

theorem padding_bytes_eq (w : Nat) :
    Int.tmod (isub 4 (Int.tmod (imul w 3) 4)) 4 = (rowPadding w : Int) := by
  have hr := wrap32_range ((w : Int) * 3)
  have hk : ∃ k : Int, wrap32 ((w : Int) * 3) = (w : Int) * 3 + k * 4294967296 :=
    wrap32_eq_add_mul _
  obtain ⟨k, hk⟩ := hk
  unfold imul
  unfold rowPadding
  rcases Int.lt_or_le (wrap32 ((w : Int) * 3)) 0 with hneg | hpos
  · rw [tmod_four_of_neg hneg]
    have h1 : 0 ≤ (-wrap32 ((w : Int) * 3)) % 4 := Int.emod_nonneg _ (by norm_num)
    have h2 : (-wrap32 ((w : Int) * 3)) % 4 < 4 := Int.emod_lt_of_pos _ (by norm_num)
    unfold isub
    rw [wrap32_of_range (by omega) (by omega), Int.tmod_eq_emod (by omega) (by norm_num)]
    omega
  · rw [tmod_four_of_nonneg hpos]
    have h1 : 0 ≤ (wrap32 ((w : Int) * 3)) % 4 := Int.emod_nonneg _ (by norm_num)
    have h2 : (wrap32 ((w : Int) * 3)) % 4 < 4 := Int.emod_lt_of_pos _ (by norm_num)
    unfold isub
    rw [wrap32_of_range (by omega) (by omega), Int.tmod_eq_emod (by omega) (by norm_num)]
    omega

theorem write_image_eq (image : Image) (h w : Nat) (hd : Dims image h w) (hpos : 0 < h)
    (hh : h < 2147483648) (hw : w < 2147483648) :
    write_image image = some (specHeader w h ++ specPixelArray image w) := by
  obtain ⟨row0, hrow0, hlen0⟩ := dims_getElem? hd hpos
  have ew : wrap32 ((w : Nat) : Int) = w := wrap32_of_range (by omega) (by omega)
  have eh : wrap32 ((h : Nat) : Int) = h := wrap32_of_range (by omega) (by omega)
  have hdown : downFrom (isub (h : Int) 1) = (List.range h).reverse := by
    unfold downFrom isub
    rw [wrap32_of_range (by omega) (by omega)]
    simp
  have hab : imul (iadd (imul (w : Int) 3) (rowPadding w : Int)) (h : Int)
      = wrap32 (arrayBytes w h) := by
    simp only [imul, iadd, wrap32_wrap32_add, wrap32_wrap32_mul, arrayBytes]
    push_cast
    rfl
  simp only [write_image, hrow0, hlen0, hd.1, ew, eh, padding_bytes_eq w, hab, hdown]
  rw [header_eq_spec w h hw hh]
  exact write_rows_spec image h w hd _ (by simp) _

theorem byteAt_of_getElem? (data : List Byte) (k : Nat) (x : Int)
    (h : data[k]? = some (toByte x)) : byteAt data k = x % 256 := by
  unfold byteAt
  rw [List.getD_eq_getElem?_getD, h]
  simp only [Option.getD_some, toByte]
  have : 0 ≤ x % 256 := Int.emod_nonneg _ (by norm_num)
  omega

theorem leValue_four (data : List Byte) (off : Nat) (v : Int)
    (h : ∀ i, i < 4 → data[off + i]? = some (toByte (v / 256 ^ i))) :
    leValue data off 4 = v % 4294967296 := by
  have b0 := byteAt_of_getElem? data (off + 0) _ (h 0 (by omega))
  have b1 := byteAt_of_getElem? data (off + 1) _ (h 1 (by omega))
  have b2 := byteAt_of_getElem? data (off + 2) _ (h 2 (by omega))
  have b3 := byteAt_of_getElem? data (off + 3) _ (h 3 (by omega))
  simp only [leValue, List.range_succ, List.range_zero, List.nil_append, List.cons_append,
    List.map_cons, List.map_nil, List.sum_cons, List.sum_nil, b0, b1, b2, b3]
  norm_num
  omega

theorem leValue_two (data : List Byte) (off : Nat) (v : Int)
    (h : ∀ i, i < 2 → data[off + i]? = some (toByte (v / 256 ^ i))) :
    leValue data off 2 = v % 65536 := by
  have b0 := byteAt_of_getElem? data (off + 0) _ (h 0 (by omega))
  have b1 := byteAt_of_getElem? data (off + 1) _ (h 1 (by omega))
  simp only [leValue, List.range_succ, List.range_zero, List.nil_append, List.cons_append,
    List.map_cons, List.map_nil, List.sum_cons, List.sum_nil, b0, b1]
  norm_num
  omega

theorem wrap32_emod (v : Int) : wrap32 (v % 4294967296) = wrap32 v := by
  unfold wrap32
  omega

/-! ## Reading back what the encoder wrote -/

theorem length_flatten_uniform {α : Type} (n : Nat) :
    ∀ L : List (List α), (∀ l ∈ L, l.length = n) → L.flatten.length = L.length * n := by
  intro L
  induction L with
  | nil => intro _; simp
  | cons a L ih =>
    intro h
    rw [List.flatten_cons, List.length_append, ih (fun l hl => h l (List.mem_cons_of_mem _ hl)),
      h a (List.mem_cons_self _ _), List.length_cons]
    ring

theorem getElem?_flatten_uniform {α : Type} (n : Nat) :
    ∀ (L : List (List α)) (k r : Nat), (∀ l ∈ L, l.length = n) → r < n →
      L.flatten[k * n + r]? = (L[k]?).bind (fun l => l[r]?) := by
  intro L
  induction L with
  | nil => intro k r _ _; simp
  | cons a L ih =>
    intro k r h hr
    have ha : a.length = n := h a (List.mem_cons_self _ _)
    cases k with
    | zero =>
      simp only [Nat.zero_mul, Nat.zero_add, List.flatten_cons, List.getElem?_cons_zero,
        Option.some_bind]
      rw [List.getElem?_append_left (by rw [ha]; exact hr)]
    | succ k =>
      simp only [List.flatten_cons, List.getElem?_cons_succ]
      rw [List.getElem?_append_right (by rw [ha, Nat.succ_mul]; omega), ha,
        show (k + 1) * n + r - n = k * n + r by rw [Nat.succ_mul]; omega]
      exact ih k r (fun l hl => h l (List.mem_cons_of_mem _ hl)) hr

theorem length_rowBytes (w : Nat) (row : List Pixel) (h : row.length = w) :
    (rowBytes w row).length = w * 3 + rowPadding w := by
  unfold rowBytes
  rw [List.length_append, List.length_replicate,
    length_flatten_uniform 3 _ (by
      intro l hl
      obtain ⟨p, _, rfl⟩ := List.mem_map.mp hl
      rfl),
    List.length_map, h]

theorem length_specPixelArray (image : Image) (h w : Nat) (hd : Dims image h w) :
    (specPixelArray image w).length = arrayBytes w h := by
  unfold specPixelArray arrayBytes
  rw [length_flatten_uniform (w * 3 + rowPadding w) _ (by
      intro l hl
      obtain ⟨row, hrow, rfl⟩ := List.mem_map.mp hl
      exact length_rowBytes w row (hd.2 row (List.mem_reverse.mp hrow))),
    List.length_map, List.length_reverse, hd.1]
  ring

theorem getElem?_specPixelArray (image : Image) (h w : Nat) (hd : Dims image h w)
    (i j t : Nat) (hi : i < h) (hj : j < w) (ht : t < 3) (p : Pixel)
    (hp : getPixel image i j = some p) :
    (specPixelArray image w)[(h - 1 - i) * (w * 3 + rowPadding w) + (j * 3 + t)]?
      = (pixelBytes p)[t]? := by
  obtain ⟨row, hrow, hlen⟩ := dims_getElem? hd hi
  have hpj : row[j]? = some p := by simpa [getPixel, hrow] using hp
  unfold specPixelArray
  rw [getElem?_flatten_uniform (w * 3 + rowPadding w) _ _ _ (by
      intro l hl
      obtain ⟨row, hrow, rfl⟩ := List.mem_map.mp hl
      exact length_rowBytes w row (hd.2 row (List.mem_reverse.mp hrow))) (by omega)]
  rw [List.getElem?_map, List.getElem?_reverse (by rw [hd.1]; omega), hd.1,
    show h - 1 - (h - 1 - i) = i by omega, hrow]
  simp only [Option.map_some', Option.some_bind, rowBytes]
  have hfl : ((row.map pixelBytes).flatten).length = w * 3 := by
    rw [length_flatten_uniform 3 _ (by
      intro l hl
      obtain ⟨p, _, rfl⟩ := List.mem_map.mp hl
      rfl), List.length_map, hlen]
  rw [List.getElem?_append_left (by rw [hfl]; omega),
    getElem?_flatten_uniform 3 _ _ _ (by
      intro l hl
      obtain ⟨p, _, rfl⟩ := List.mem_map.mp hl
      rfl) ht, List.getElem?_map, hpj]
  rfl

theorem leBytes_four (v : Int) :
    leBytes 4 v = [toByte (v / 256 ^ 0), toByte (v / 256 ^ 1), toByte (v / 256 ^ 2),
      toByte (v / 256 ^ 3)] := by
  simp only [leBytes, List.range_succ, List.range_zero, List.nil_append, List.cons_append,
    List.map_cons, List.map_nil]

theorem leBytes_two (v : Int) :
    leBytes 2 v = [toByte (v / 256 ^ 0), toByte (v / 256 ^ 1)] := by
  simp only [leBytes, List.range_succ, List.range_zero, List.nil_append, List.cons_append,
    List.map_cons, List.map_nil]

theorem leValue_leBytes_four (pre post : List Byte) (off : Nat) (v : Int)
    (hpre : pre.length = off) :
    leValue (pre ++ (leBytes 4 v ++ post)) off 4 = v % 4294967296 := by
  apply leValue_four
  intro i hi
  rw [List.getElem?_append_right (by omega), hpre, Nat.add_sub_cancel_left, leBytes_four]
  interval_cases i <;> simp

theorem leValue_leBytes_two (pre post : List Byte) (off : Nat) (v : Int)
    (hpre : pre.length = off) :
    leValue (pre ++ (leBytes 2 v ++ post)) off 2 = v % 65536 := by
  apply leValue_two
  intro i hi
  rw [List.getElem?_append_right (by omega), hpre, Nat.add_sub_cancel_left, leBytes_two]
  interval_cases i <;> simp

theorem length_leBytes (n : Nat) (v : Int) : (leBytes n v).length = n := by
  simp [leBytes]

theorem length_specHeader (w h : Nat) : (specHeader w h).length = 54 := by
  simp only [specHeader, List.length_append, length_leBytes, List.length_cons, List.length_nil]

theorem headerOf_encoded (w h : Nat) (body : List Byte) :
    headerOf (specHeader w h ++ body)
      = ⟨wrap32 (14 + 40 + arrayBytes w h), 54, wrap32 w, wrap32 h, 24⟩ := by
  have hlen : 30 ≤ (specHeader w h ++ body).length := by
    rw [List.length_append, length_specHeader]
    omega
  rw [headerOf, read_header_eq _ hlen]
  have e1 : leValue (specHeader w h ++ body) 2 4 = (14 + 40 + arrayBytes w h : Int) % 4294967296 := by
    have := leValue_leBytes_four [66, 77]
      (leBytes 2 0 ++ (leBytes 2 0 ++ (leBytes 4 54
        ++ (leBytes 4 40 ++ (leBytes 4 w ++ (leBytes 4 h ++ (leBytes 2 1 ++ (leBytes 2 24
        ++ (leBytes 4 0 ++ (leBytes 4 (arrayBytes w h) ++ (leBytes 4 2835 ++ (leBytes 4 2835
        ++ (leBytes 4 0 ++ (leBytes 4 0 ++ body)))))))))))))) 2 (14 + 40 + arrayBytes w h) rfl
    simpa only [specHeader, List.append_assoc] using this
  have e2 : leValue (specHeader w h ++ body) 10 4 = (54 : Int) % 4294967296 := by
    have := leValue_leBytes_four
      ([66, 77] ++ (leBytes 4 (14 + 40 + arrayBytes w h) ++ (leBytes 2 0 ++ leBytes 2 0)))
      (leBytes 4 40 ++ (leBytes 4 w ++ (leBytes 4 h ++ (leBytes 2 1 ++ (leBytes 2 24
        ++ (leBytes 4 0 ++ (leBytes 4 (arrayBytes w h) ++ (leBytes 4 2835 ++ (leBytes 4 2835
        ++ (leBytes 4 0 ++ (leBytes 4 0 ++ body))))))))))) 10 54
      (by simp only [List.length_append, length_leBytes, List.length_cons, List.length_nil])
    simpa only [specHeader, List.append_assoc] using this
  have e3 : leValue (specHeader w h ++ body) 18 4 = (w : Int) % 4294967296 := by
    have := leValue_leBytes_four
      ([66, 77] ++ (leBytes 4 (14 + 40 + arrayBytes w h) ++ (leBytes 2 0 ++ (leBytes 2 0
        ++ (leBytes 4 54 ++ leBytes 4 40)))))
      (leBytes 4 h ++ (leBytes 2 1 ++ (leBytes 2 24
        ++ (leBytes 4 0 ++ (leBytes 4 (arrayBytes w h) ++ (leBytes 4 2835 ++ (leBytes 4 2835
        ++ (leBytes 4 0 ++ (leBytes 4 0 ++ body))))))))) 18 w
      (by simp only [List.length_append, length_leBytes, List.length_cons, List.length_nil])
    simpa only [specHeader, List.append_assoc] using this
  have e4 : leValue (specHeader w h ++ body) 22 4 = (h : Int) % 4294967296 := by
    have := leValue_leBytes_four
      ([66, 77] ++ (leBytes 4 (14 + 40 + arrayBytes w h) ++ (leBytes 2 0 ++ (leBytes 2 0
        ++ (leBytes 4 54 ++ (leBytes 4 40 ++ leBytes 4 w))))))
      (leBytes 2 1 ++ (leBytes 2 24
        ++ (leBytes 4 0 ++ (leBytes 4 (arrayBytes w h) ++ (leBytes 4 2835 ++ (leBytes 4 2835
        ++ (leBytes 4 0 ++ (leBytes 4 0 ++ body)))))))) 22 h
      (by simp only [List.length_append, length_leBytes, List.length_cons, List.length_nil])
    simpa only [specHeader, List.append_assoc] using this
  have e5 : leValue (specHeader w h ++ body) 28 2 = (24 : Int) % 65536 := by
    have := leValue_leBytes_two
      ([66, 77] ++ (leBytes 4 (14 + 40 + arrayBytes w h) ++ (leBytes 2 0 ++ (leBytes 2 0
        ++ (leBytes 4 54 ++ (leBytes 4 40 ++ (leBytes 4 w ++ (leBytes 4 h ++ leBytes 2 1))))))))
      (leBytes 4 0 ++ (leBytes 4 (arrayBytes w h) ++ (leBytes 4 2835 ++ (leBytes 4 2835
        ++ (leBytes 4 0 ++ (leBytes 4 0 ++ body)))))) 28 24
      (by simp only [List.length_append, length_leBytes, List.length_cons, List.length_nil])
    simpa only [specHeader, List.append_assoc] using this
  rw [e1, e2, e3, e4, e5, wrap32_emod, wrap32_emod, wrap32_emod, wrap32_emod]
  rfl

theorem specPadding_row (w : Nat) : specPadding ((w : Int) * 3) = (rowPadding w : Int) := by
  have h0 : (0 : Int) ≤ (w : Int) * 3 := by omega
  unfold specPadding rowPadding
  rw [tmod_four_of_nonneg h0]
  have h1 : 0 ≤ ((w : Int) * 3) % 4 := Int.emod_nonneg _ (by norm_num)
  have h2 : ((w : Int) * 3) % 4 < 4 := Int.emod_lt_of_pos _ (by norm_num)
  rw [Int.tmod_eq_emod (by omega) (by norm_num)]
  omega

theorem dims_truncImage (image : Image) (h w : Nat) (hd : Dims image h w) :
    Dims (truncImage image) h w := by
  refine ⟨by simp [truncImage, hd.1], ?_⟩
  intro row hrow
  obtain ⟨r, hr, rfl⟩ := List.mem_map.mp hrow
  simp [hd.2 r hr]

theorem getPixel_truncImage (image : Image) (i j : Nat) :
    getPixel (truncImage image) i j = (getPixel image i j).map truncPixel := by
  unfold getPixel truncImage
  rw [List.getElem?_map]
  cases image[i]? with
  | none => rfl
  | some row => simp [List.getElem?_map]

theorem byteAt_encoded (image : Image) (h w : Nat) (hd : Dims image h w)
    (i j t : Nat) (hi : i < h) (hj : j < w) (ht : t < 3) (p : Pixel)
    (hp : getPixel image i j = some p) :
    byteAt (specHeader w h ++ specPixelArray image w)
        (54 + ((h : Int) - 1 - i) * ((w : Int) * 3 + rowPadding w) + (j : Int) * 3 + t).toNat
      = (((pixelBytes p)[t]?.getD 0).val : Int) := by
  have hnat : (54 + ((h : Int) - 1 - i) * ((w : Int) * 3 + rowPadding w) + (j : Int) * 3 + t).toNat
      = 54 + ((h - 1 - i) * (w * 3 + rowPadding w) + (j * 3 + t)) := by
    have e0 : ((h : Int) - 1 - i) = ((h - 1 - i : Nat) : Int) := by omega
    rw [e0]
    have e : (54 : Int) + ((h - 1 - i : Nat) : Int) * ((w : Int) * 3 + rowPadding w)
        + (j : Int) * 3 + t
        = ((54 + ((h - 1 - i) * (w * 3 + rowPadding w) + (j * 3 + t)) : Nat) : Int) := by
      push_cast
      ring
    rw [e, Int.toNat_ofNat]
  rw [hnat]
  unfold byteAt
  rw [List.getD_eq_getElem?_getD,
    List.getElem?_append_right (by rw [length_specHeader]; omega),
    length_specHeader, Nat.add_sub_cancel_left,
    getElem?_specPixelArray image h w hd i j t hi hj ht p hp]

theorem toByte_val (x : Int) : (((toByte x).val : Nat) : Int) = x % 256 := by
  have : 0 ≤ x % 256 := Int.emod_nonneg _ (by norm_num)
  simp only [toByte]
  omega

theorem pixelAt_encoded (image : Image) (h w : Nat) (hd : Dims image h w)
    (i j : Nat) (hi : i < h) (hj : j < w) (p : Pixel) (hp : getPixel image i j = some p) :
    pixelAt (specHeader w h ++ specPixelArray image w)
        (54 + ((h : Int) - 1 - i) * ((w : Int) * 3 + rowPadding w) + (j : Int) * 3)
      = truncPixel p := by
  have h0 := byteAt_encoded image h w hd i j 0 hi hj (by omega) p hp
  have h1 := byteAt_encoded image h w hd i j 1 hi hj (by omega) p hp
  have h2 := byteAt_encoded image h w hd i j 2 hi hj (by omega) p hp
  simp only [Nat.cast_zero, add_zero, Nat.cast_one, Nat.cast_ofNat] at h0 h1 h2
  have b0 : (((pixelBytes p)[0]?.getD 0).val : Int) = p.blue % 256 := by
    simp only [pixelBytes, List.getElem?_cons_zero, Option.getD_some, toByte_val]
  have b1 : (((pixelBytes p)[1]?.getD 0).val : Int) = p.green % 256 := by
    simp only [pixelBytes, List.getElem?_cons_succ, List.getElem?_cons_zero, Option.getD_some,
      toByte_val]
  have b2 : (((pixelBytes p)[2]?.getD 0).val : Int) = p.red % 256 := by
    simp only [pixelBytes, List.getElem?_cons_succ, List.getElem?_cons_zero, Option.getD_some,
      toByte_val]
  unfold pixelAt truncPixel
  rw [h0, h1, h2, b0, b1, b2]

theorem tdiv_24_8 : Int.tdiv 24 8 = 3 := by decide

theorem read_image_of_layout (F : List Byte) (image : Image) (h w A : Nat)
    (hd : Dims image h w) (hA : 54 + A < 2147483648)
    (hAeq : (A : Int) = ((w : Int) * 3 + rowPadding w) * h)
    (hlen : F.length = 54 + A)
    (hhd : headerOf F = ⟨54 + A, 54, w, h, 24⟩)
    (hpa : ∀ i j p, i < h → j < w → getPixel image i j = some p →
      pixelAt F (54 + ((h : Int) - 1 - i) * ((w : Int) * 3 + rowPadding w) + (j : Int) * 3)
        = truncPixel p) :
    read_image F = some (truncImage image) := by
  have f1 : (headerOf F).file_size = 54 + A := by rw [hhd]
  have f2 : (headerOf F).start = 54 := by rw [hhd]
  have f3 : (headerOf F).width = w := by rw [hhd]
  have f4 : (headerOf F).height = h := by rw [hhd]
  have f5 : (headerOf F).bits_per_pixel = 24 := by rw [hhd]
  have hspec : specLayoutSize (headerOf F) = 54 + A := by
    simp only [specLayoutSize, f2, f3, f4, f5, tdiv_24_8, specPadding_row, hAeq]
  have hoff : ∀ i j : Nat, pixelOffset (headerOf F) i j
      = 54 + ((h : Int) - 1 - i) * ((w : Int) * 3 + rowPadding w) + (j : Int) * 3 := by
    intro i j
    simp only [pixelOffset, f2, f3, f4, f5, tdiv_24_8, specPadding_row]
  have c1 : (30 : Nat) ≤ F.length := by omega
  have c2 : (headerOf F).file_size = specLayoutSize (headerOf F) := by rw [hspec, f1]
  have c3 : (24 : Int) ≤ (headerOf F).bits_per_pixel := by rw [f5]
  have c4 : (0 : Int) ≤ (headerOf F).start := by rw [f2]; norm_num
  have c5 : (0 : Int) ≤ (headerOf F).width := by rw [f3]; omega
  have c6 : (0 : Int) ≤ (headerOf F).height := by rw [f4]; omega
  have c7 : (headerOf F).file_size ≤ F.length := by rw [f1, hlen]; omega
  obtain ⟨img, himg, hdim, hpix⟩ := read_image_layout_aux F c1 c2 c3 c4 c5 c6 c7
  rw [f3, f4] at hdim hpix
  rw [Int.toNat_ofNat, Int.toNat_ofNat] at hdim
  rw [himg]
  have key : img = truncImage image := by
    apply image_ext hdim (dims_truncImage image h w hd)
    intro i j hi hj
    obtain ⟨p, hp⟩ := getPixel_of_dims hd hi hj
    rw [hpix i j (by omega) (by omega), getPixel_truncImage, hp, hoff,
      hpa i j p hi hj hp]
    rfl
  rw [key]

theorem read_image_encoded (image : Image) (h w : Nat) (hd : Dims image h w)
    (hh : h < 2147483648) (hw : w < 2147483648) (hsz : encodedSize w h < 2147483648) :
    read_image (specHeader w h ++ specPixelArray image w) = some (truncImage image) := by
  have hlenF : (specHeader w h ++ specPixelArray image w).length = 54 + arrayBytes w h := by
    rw [List.length_append, length_specPixelArray image h w hd, length_specHeader]
  unfold encodedSize at hsz
  have hhd := headerOf_encoded w h (specPixelArray image w)
  have e1 : wrap32 (14 + 40 + (arrayBytes w h : Int)) = 54 + arrayBytes w h := by
    rw [wrap32_of_range (by omega) (by omega)]; ring
  have e2 : wrap32 (w : Int) = w := wrap32_of_range (by omega) (by omega)
  have e3 : wrap32 (h : Int) = h := wrap32_of_range (by omega) (by omega)
  rw [e1, e2, e3] at hhd
  have hAeq : ((arrayBytes w h : Nat) : Int) = ((w : Int) * 3 + rowPadding w) * h := by
    unfold arrayBytes
    push_cast
    ring
  exact read_image_of_layout _ image h w (arrayBytes w h) hd hsz hAeq hlenF hhd
    (fun i j p hi hj hp => pixelAt_encoded image h w hd i j hi hj p hp)

theorem roundtrip_aux (image : Image) (h w : Nat) (hd : Dims image h w) (hpos : 0 < h)
    (hh : h < 2147483648) (hsz : encodedSize w h < 2147483648) :
    (write_image image).bind read_image = some (truncImage image) := by
  have hw : w < 2147483648 := by
    unfold encodedSize arrayBytes at hsz
    have : (w * 3 + rowPadding w) * 1 ≤ (w * 3 + rowPadding w) * h :=
      Nat.mul_le_mul_left _ hpos
    omega
  rw [write_image_eq image h w hd hpos hh hw, Option.some_bind]
  exact read_image_encoded image h w hd hh hw hsz

theorem truncPixel_eq_iff (p : Pixel) :
    truncPixel p = p ↔
      (0 ≤ p.red ∧ p.red ≤ 255) ∧ (0 ≤ p.green ∧ p.green ≤ 255) ∧ (0 ≤ p.blue ∧ p.blue ≤ 255) := by
  obtain ⟨r, g, b⟩ := p
  simp only [truncPixel, Pixel.mk.injEq]
  omega

theorem map_eq_self_iff {α : Type} (f : α → α) (l : List α) :
    l.map f = l ↔ ∀ a ∈ l, f a = a := by
  induction l with
  | nil => simp
  | cons a l ih => simp [ih]

theorem truncImage_eq_iff (image : Image) : truncImage image = image ↔ InRange image := by
  unfold truncImage InRange
  rw [map_eq_self_iff]
  constructor
  · intro h row hrow p hp
    exact (truncPixel_eq_iff p).mp ((map_eq_self_iff _ _).mp (h row hrow) p hp)
  · intro h row hrow
    exact (map_eq_self_iff _ _).mpr (fun p hp => (truncPixel_eq_iff p).mpr (h row hrow p hp))

theorem leValue_size_field (w h : Nat) (body : List Byte) :
    leValue (specHeader w h ++ body) 2 4 = (14 + 40 + arrayBytes w h : Int) % 4294967296 := by
  have := leValue_leBytes_four [66, 77]
    (leBytes 2 0 ++ (leBytes 2 0 ++ (leBytes 4 54
      ++ (leBytes 4 40 ++ (leBytes 4 w ++ (leBytes 4 h ++ (leBytes 2 1 ++ (leBytes 2 24
      ++ (leBytes 4 0 ++ (leBytes 4 (arrayBytes w h) ++ (leBytes 4 2835 ++ (leBytes 4 2835
      ++ (leBytes 4 0 ++ (leBytes 4 0 ++ body)))))))))))))) 2 (14 + 40 + arrayBytes w h) rfl
  simpa only [specHeader, List.append_assoc] using this

theorem dims_single_row (n : Nat) (p : Pixel) : Dims [List.replicate n p] 1 n := by
  refine ⟨rfl, ?_⟩
  intro row hrow
  rw [List.mem_singleton] at hrow
  rw [hrow, List.length_replicate]

theorem inRange_single_zero_row (n : Nat) : InRange [List.replicate n Pixel.zero] := by
  intro row hrow p hp
  rw [List.mem_singleton] at hrow
  rw [hrow] at hp
  rw [List.eq_of_mem_replicate hp]
  decide

theorem rowPadding_mod (w : Nat) : (w * 3 + rowPadding w) % 4 = 0 ∧ rowPadding w ≤ 3 := by
  unfold rowPadding
  omega

/-! ## Nested pixel loops -/

theorem fill_row (H W H' W' : Nat) (step : Image → Nat → Option Image)
    (pos : Nat → Nat → Nat × Nat) (val : Nat → Nat → Pixel) (k : Nat) (hk : k < H)
    (init : Image) (hinit : Dims init H' W')
    (hpos : ∀ r c, r < H → c < W → (pos r c).1 < H' ∧ (pos r c).2 < W')
    (hinj : ∀ r c r' c', r < H → c < W → r' < H → c' < W → pos r c = pos r' c' →
      r = r' ∧ c = c')
    (hstep : ∀ c img, c < W → Dims img H' W' →
      step img c = setPixel img (pos k c).1 (pos k c).2 (val k c))
    (hprev : ∀ r c, r < k → c < W → getPixel init (pos r c).1 (pos r c).2 = some (val r c)) :
    ∃ out, (List.range W).foldlM step init = some out ∧ Dims out H' W' ∧
      ∀ r c, r < k + 1 → c < W → getPixel out (pos r c).1 (pos r c).2 = some (val r c) := by
  have key := foldlM_range_inv step
    (fun n img => Dims img H' W' ∧
      (∀ r c, r < k → c < W → getPixel img (pos r c).1 (pos r c).2 = some (val r c)) ∧
      (∀ c, c < n → getPixel img (pos k c).1 (pos k c).2 = some (val k c)))
    init W ⟨hinit, hprev, fun c hc => absurd hc (by omega)⟩ ?_
  · obtain ⟨out, h1, h2, h3, h4⟩ := key
    refine ⟨out, h1, h2, ?_⟩
    intro r c hr hc
    by_cases hrk : r = k
    · subst hrk; exact h4 c hc
    · exact h3 r c (by omega) hc
  · rintro n img hn ⟨hdim, hold, hrow⟩
    obtain ⟨hp1, hp2⟩ := hpos k n hk hn
    obtain ⟨img', hset, hdim', hget⟩ := setPixel_spec hdim hp1 hp2 (val k n)
    refine ⟨img', by rw [hstep n img hn hdim, hset], hdim', ?_, ?_⟩
    · intro r c hr hc
      rw [hget]
      have hne : ¬ ((pos r c).1 = (pos k n).1 ∧ (pos r c).2 = (pos k n).2) := by
        intro h
        have := hinj r c k n (by omega) hc hk hn (Prod.ext h.1 h.2)
        omega
      rw [if_neg hne]
      exact hold r c hr hc
    · intro c hc
      rw [hget]
      by_cases hcn : c = n
      · subst hcn; simp
      · have hne : ¬ ((pos k c).1 = (pos k n).1 ∧ (pos k c).2 = (pos k n).2) := by
          intro h
          have := hinj k c k n hk (by omega) hk hn (Prod.ext h.1 h.2)
          omega
        rw [if_neg hne]
        exact hrow c (by omega)

theorem fill_loops (H W H' W' : Nat) (step : Nat → Image → Nat → Option Image)
    (pos : Nat → Nat → Nat × Nat) (val : Nat → Nat → Pixel)
    (init : Image) (hinit : Dims init H' W')
    (hpos : ∀ r c, r < H → c < W → (pos r c).1 < H' ∧ (pos r c).2 < W')
    (hinj : ∀ r c r' c', r < H → c < W → r' < H → c' < W → pos r c = pos r' c' →
      r = r' ∧ c = c')
    (hstep : ∀ r c img, r < H → c < W → Dims img H' W' →
      step r img c = setPixel img (pos r c).1 (pos r c).2 (val r c)) :
    ∃ out, (List.range H).foldlM (fun img r => (List.range W).foldlM (step r) img) init
        = some out ∧ Dims out H' W' ∧
      ∀ r c, r < H → c < W → getPixel out (pos r c).1 (pos r c).2 = some (val r c) := by
  have key := foldlM_range_inv (fun img r => (List.range W).foldlM (step r) img)
    (fun k img => Dims img H' W' ∧
      ∀ r c, r < k → c < W → getPixel img (pos r c).1 (pos r c).2 = some (val r c))
    init H ⟨hinit, fun r c hr => absurd hr (by omega)⟩ ?_
  · exact key
  · rintro k img hk ⟨hdim, hold⟩
    obtain ⟨out, h1, h2, h3⟩ := fill_row H W H' W' (step k) pos val k hk img hdim hpos hinj
      (fun c img' hc hd' => hstep k c img' hk hc hd') hold
    exact ⟨out, h1, h2, h3⟩

theorem wrap32_natCast {n : Nat} (h : n < 2147483648) : wrap32 (n : Int) = n :=
  wrap32_of_range (by omega) (by omega)

theorem allocImage_nat (h w : Nat) :
    allocImage (h : Int) (w : Int) = some (List.replicate h (List.replicate w Pixel.zero)) := by
  have : ¬ ((h : Int) < 0 ∨ (w : Int) < 0) := by omega
  simp only [allocImage, this, if_false, Int.toNat_ofNat]

theorem pixel_loops_nat (image : Image) (h w : Nat) (f : Nat → Nat → Pixel → Option Pixel) :
    pixel_loops image h w f =
      (List.range h).foldlM
        (fun new_image row => (List.range w).foldlM (store_pixel image f row) new_image)
        (List.replicate h (List.replicate w Pixel.zero)) := by
  unfold pixel_loops
  rw [allocImage_nat]
  simp only [upTo, Int.toNat_ofNat]

theorem for_each_pixel_unfold (image : Image) (h w : Nat) (hd : Dims image h w) (hpos : 0 < h)
    (hh : h < 2147483648) (hw : w < 2147483648)
    (f : Int → Int → Nat → Nat → Pixel → Option Pixel) :
    for_each_pixel image f =
      (List.range h).foldlM
        (fun new_image row => (List.range w).foldlM (store_pixel image (f h w) row) new_image)
        (List.replicate h (List.replicate w Pixel.zero)) := by
  obtain ⟨row0, hrow0, hlen0⟩ := dims_getElem? hd hpos
  unfold for_each_pixel
  rw [hrow0]
  show pixel_loops image (wrap32 image.length) (wrap32 row0.length)
      (f (wrap32 image.length) (wrap32 row0.length)) = _
  rw [hlen0, hd.1, wrap32_natCast hh, wrap32_natCast hw, pixel_loops_nat]

theorem for_each_pixel_spec (image : Image) (h w : Nat) (hd : Dims image h w) (hpos : 0 < h)
    (hh : h < 2147483648) (hw : w < 2147483648)
    (f : Int → Int → Nat → Nat → Pixel → Option Pixel) (g : Nat → Nat → Pixel → Pixel)
    (hf : ∀ r c p, r < h → c < w → getPixel image r c = some p →
      f h w r c p = some (g r c p)) :
    ∃ out, for_each_pixel image f = some out ∧ Dims out h w ∧
      ∀ r c p, r < h → c < w → getPixel image r c = some p →
        getPixel out r c = some (g r c p) := by
  have key := fill_loops h w h w (store_pixel image (f h w)) (fun r c => (r, c))
    (fun r c => g r c ((getPixel image r c).getD Pixel.zero))
    (List.replicate h (List.replicate w Pixel.zero)) (dims_alloc h w Pixel.zero)
    (fun r c hr hc => ⟨hr, hc⟩)
    (fun r c r' c' _ _ _ _ hp => ⟨congrArg Prod.fst hp, congrArg Prod.snd hp⟩)
    (by
      intro r c img hr hc _
      obtain ⟨p, hp⟩ := getPixel_of_dims hd hr hc
      simp only [store_pixel, hp, hf r c p hr hc hp, Option.getD_some, Option.some_bind])
  obtain ⟨out, h1, h2, h3⟩ := key
  refine ⟨out, ?_, h2, ?_⟩
  · rw [for_each_pixel_unfold image h w hd hpos hh hw]
    exact h1
  · intro r c p hr hc hp
    have := h3 r c hr hc
    simp only [hp, Option.getD_some] at this
    exact this

/-! ## Rotation -/

theorem process_4_spec (image : Image) (h w : Nat) (hd : Dims image h w) (hpos : 0 < h)
    (hh : h < 2147483648) (hw : w < 2147483648) :
    ∃ out, process_4 image = some out ∧ Dims out w h ∧
      ∀ r c p, r < h → c < w → getPixel image r c = some p →
        getPixel out c (h - 1 - r) = some p := by
  obtain ⟨row0, hrow0, hlen0⟩ := dims_getElem? hd hpos
  have key := fill_loops h w w h (process_4_pixel image h) (fun r c => (c, h - 1 - r))
    (fun r c => (getPixel image r c).getD Pixel.zero)
    (List.replicate w (List.replicate h Pixel.zero)) (dims_alloc w h Pixel.zero)
    (fun r c hr hc => ⟨hc, by show h - 1 - r < h; omega⟩)
    (by
      intro r c r' c' hr _ hr' _ hp
      have h1 : c = c' := congrArg Prod.fst hp
      have h2 : h - 1 - r = h - 1 - r' := congrArg Prod.snd hp
      exact ⟨by omega, h1⟩)
    (by
      intro r c img hr hc _
      obtain ⟨p, hp⟩ := getPixel_of_dims hd hr hc
      have hidx : toIndex (isub (isub (h : Int) 1) r) = some (h - 1 - r) := by
        unfold isub
        rw [wrap32_of_range (a := (h : Int) - 1) (by omega) (by omega),
          wrap32_of_range (by omega) (by omega)]
        have : ¬ ((h : Int) - 1 - r < 0) := by omega
        simp only [toIndex, this, if_false, Option.some.injEq]
        omega
      simp only [process_4_pixel, hp, hidx, Option.getD_some, Option.some_bind])
  obtain ⟨out, h1, h2, h3⟩ := key
  refine ⟨out, ?_, h2, ?_⟩
  · unfold process_4
    rw [hrow0]
    show process_4_loops image (wrap32 image.length) (wrap32 row0.length) = _
    rw [hlen0, hd.1, wrap32_natCast hh, wrap32_natCast hw]
    unfold process_4_loops
    rw [allocImage_nat]
    simp only [upTo, Int.toNat_ofNat]
    exact h1
  · intro r c p hr hc hp
    have := h3 r c hr hc
    simp only [hp, Option.getD_some] at this
    exact this

theorem process_4_four_times (image : Image) (h w : Nat) (hd : Dims image h w) (hpos : 0 < h)
    (hwpos : 0 < w) (hh : h < 2147483648) (hw : w < 2147483648) :
    (((process_4 image).bind process_4).bind process_4).bind process_4 = some image := by
  obtain ⟨o1, e1, d1, p1⟩ := process_4_spec image h w hd hpos hh hw
  obtain ⟨o2, e2, d2, p2⟩ := process_4_spec o1 w h d1 hwpos hw hh
  obtain ⟨o3, e3, d3, p3⟩ := process_4_spec o2 h w d2 hpos hh hw
  obtain ⟨o4, e4, d4, p4⟩ := process_4_spec o3 w h d3 hwpos hw hh
  rw [e1, Option.some_bind, e2, Option.some_bind, e3, Option.some_bind, e4]
  congr 1
  apply image_ext d4 hd
  intro r c hr hc
  obtain ⟨p, hp⟩ := getPixel_of_dims hd hr hc
  have q1 := p1 r c p hr hc hp
  have q2 := p2 c (h - 1 - r) p hc (by omega) q1
  have q3 := p3 (h - 1 - r) (w - 1 - c) p (by omega) (by omega) q2
  have q4 := p4 (w - 1 - c) (h - 1 - (h - 1 - r)) p (by omega) (by omega) q3
  have i1 : h - 1 - (h - 1 - r) = r := by omega
  have i2 : w - 1 - (w - 1 - c) = c := by omega
  rw [i1, i2] at q4
  rw [q4, hp]

/-! ## Binary64 rounding -/

theorem roundHalfEven_intCast (m : Int) : roundHalfEven (m : ℚ) = m := by
  unfold roundHalfEven
  simp

theorem roundHalfEven_err (x : ℚ) : |(roundHalfEven x : ℚ) - x| ≤ 1 / 2 := by
  have h1 := Int.floor_le x
  have h2 := Int.lt_floor_add_one x
  unfold roundHalfEven
  split_ifs with a b c
  · rw [abs_le]; constructor <;> linarith
  · rw [abs_le]; push_cast; constructor <;> linarith
  · rw [abs_le]; constructor <;> linarith
  · rw [abs_le]; push_cast; constructor <;> linarith

theorem roundHalfEven_of_near (x : ℚ) (n : Int) (h : |x - n| < 1 / 2) : roundHalfEven x = n := by
  rw [abs_lt] at h
  have h1 := Int.floor_le x
  have h2 := Int.lt_floor_add_one x
  have hfl : ⌊x⌋ = n ∨ ⌊x⌋ = n - 1 := by
    have a1 : (⌊x⌋ : ℚ) < n + 1 := by linarith
    have a2 : ((n : ℚ) - 2) < ⌊x⌋ := by linarith
    have a1' : ⌊x⌋ < n + 1 := by exact_mod_cast a1
    have a2' : n - 2 < ⌊x⌋ := by exact_mod_cast a2
    omega
  unfold roundHalfEven
  rcases hfl with e | e
  · have c1 : x - ⌊x⌋ < 1 / 2 := by rw [e]; linarith
    rw [if_pos c1, e]
  · have e' : (⌊x⌋ : ℚ) = n - 1 := by rw [e]; push_cast; ring
    have c1 : ¬ (x - ⌊x⌋ < 1 / 2) := by rw [e']; linarith
    have c2 : 1 / 2 < x - ⌊x⌋ := by rw [e']; linarith
    rw [if_neg c1, if_pos c2, e]
    ring

theorem int_log_two_eq {x : ℚ} {e : Int} (h0 : 0 < x) (h1 : (2 : ℚ) ^ e ≤ x)
    (h2 : x < (2 : ℚ) ^ (e + 1)) : Int.log 2 x = e := by
  have a : e ≤ Int.log 2 x := (Int.zpow_le_iff_le_log (by norm_num) h0).mp (by exact_mod_cast h1)
  have b : Int.log 2 x < e + 1 := (Int.lt_zpow_iff_log_lt (by norm_num) h0).mp (by exact_mod_cast h2)
  omega

theorem int_log_two_spec {x : ℚ} (h0 : 0 < x) :
    (2 : ℚ) ^ Int.log 2 x ≤ x ∧ x < (2 : ℚ) ^ (Int.log 2 x + 1) := by
  have a := Int.zpow_log_le_self (b := 2) (by norm_num) h0
  have b := Int.lt_zpow_succ_log_self (b := 2) (by norm_num) x
  exact ⟨by exact_mod_cast a, by exact_mod_cast b⟩

theorem round64_zero : round64 0 = 0 := by
  unfold round64
  rw [if_pos rfl]

theorem round64_of_near (x : ℚ) (e n : Int) (h1 : (2 : ℚ) ^ e ≤ |x|)
    (h2 : |x| < (2 : ℚ) ^ (e + 1)) (h3 : |x / 2 ^ (e - 52) - n| < 1 / 2) :
    round64 x = n * 2 ^ (e - 52) := by
  have hpos : 0 < |x| := lt_of_lt_of_le (zpow_pos (by norm_num) e) h1
  have hx : x ≠ 0 := abs_pos.mp hpos
  unfold round64
  rw [if_neg hx, int_log_two_eq hpos h1 h2, roundHalfEven_of_near _ n h3]

theorem round64_err (x : ℚ) : |round64 x - x| ≤ |x| / 9007199254740992 := by
  by_cases hx : x = 0
  · rw [hx, round64_zero]; norm_num
  · have hpos : 0 < |x| := abs_pos.mpr hx
    obtain ⟨h1, _⟩ := int_log_two_spec hpos
    unfold round64
    rw [if_neg hx]
    set e := Int.log 2 |x| with he
    have hq : (0 : ℚ) < 2 ^ (e - 52) := zpow_pos (by norm_num) _
    have hr := roundHalfEven_err (x / 2 ^ (e - 52))
    have e1 : (roundHalfEven (x / 2 ^ (e - 52)) : ℚ) * 2 ^ (e - 52) - x
        = ((roundHalfEven (x / 2 ^ (e - 52)) : ℚ) - x / 2 ^ (e - 52)) * 2 ^ (e - 52) := by
      field_simp
    rw [e1, abs_mul, abs_of_pos hq]
    have e2 : (2 : ℚ) ^ (e - 52) = 2 ^ e / 4503599627370496 := by
      rw [zpow_sub₀ (by norm_num)]
      norm_num
    calc |(roundHalfEven (x / 2 ^ (e - 52)) : ℚ) - x / 2 ^ (e - 52)| * 2 ^ (e - 52)
        ≤ 1 / 2 * 2 ^ (e - 52) := mul_le_mul_of_nonneg_right hr (le_of_lt hq)
      _ = 2 ^ e / 9007199254740992 := by rw [e2]; ring
      _ ≤ |x| / 9007199254740992 := by
          apply div_le_div_of_nonneg_right h1 (by norm_num)

theorem round64_dyadic (n : Int) (k : Nat) (hn : |n| < 9007199254740992) :
    round64 ((n : ℚ) / 2 ^ k) = (n : ℚ) / 2 ^ k := by
  by_cases h0 : n = 0
  · rw [h0]; simp [round64_zero]
  · have hk : (0 : ℚ) < 2 ^ k := pow_pos (by norm_num) k
    have hx : (n : ℚ) / 2 ^ k ≠ 0 := div_ne_zero (by exact_mod_cast h0) (ne_of_gt hk)
    have hpos : 0 < |(n : ℚ) / 2 ^ k| := abs_pos.mpr hx
    obtain ⟨h1, _⟩ := int_log_two_spec hpos
    unfold round64
    rw [if_neg hx]
    set e := Int.log 2 |(n : ℚ) / 2 ^ k| with he
    have habs : |(n : ℚ) / 2 ^ k| = |(n : ℚ)| / 2 ^ k := by
      rw [abs_div, abs_of_pos hk]
    have hnq : |(n : ℚ)| < 2 ^ (53 : Int) := by
      have : ((|n| : Int) : ℚ) < 9007199254740992 := by exact_mod_cast hn
      rw [Int.cast_abs] at this
      norm_num
      exact this
    have hlt : (2 : ℚ) ^ (e + k) < 2 ^ (53 : Int) := by
      rw [zpow_add₀ (by norm_num), zpow_natCast]
      rw [habs, le_div_iff₀ hk] at h1
      exact lt_of_le_of_lt h1 hnq
    have hek : e + k < 53 := (zpow_lt_zpow_iff_right₀ (by norm_num)).mp hlt
    obtain ⟨j, hj⟩ : ∃ j : Nat, (j : Int) = 52 - e - k := ⟨(52 - e - k).toNat, by omega⟩
    have hdiv : (n : ℚ) / 2 ^ k / 2 ^ (e - 52) = ((n * 2 ^ j : Int) : ℚ) := by
      have : (2 : ℚ) ^ (e - 52) = 2 ^ (-(j : Int) - (k : Int)) := by congr 1; omega
      rw [this, zpow_sub₀ (by norm_num), zpow_neg, zpow_natCast, zpow_natCast]
      push_cast
      field_simp
      ring
    rw [hdiv, roundHalfEven_intCast]
    have : (2 : ℚ) ^ (e - 52) = 2 ^ (-(j : Int) - (k : Int)) := by congr 1; omega
    rw [this, zpow_sub₀ (by norm_num), zpow_neg, zpow_natCast, zpow_natCast]
    push_cast
    field_simp
    ring

theorem round64_int (n : Int) (hn : |n| < 9007199254740992) : round64 (n : ℚ) = n := by
  have := round64_dyadic n 0 hn
  simpa using this

theorem round64_exact (x : ℚ) (n : Int) (k : Nat) (hx : x = (n : ℚ) / 2 ^ k)
    (hn : |n| < 9007199254740992) : round64 x = x := by
  subst hx
  exact round64_dyadic n k hn

theorem sqrt64_zero : sqrt64 0 = 0 := by
  unfold sqrt64
  rw [if_pos (le_refl 0)]

theorem sqrt64_of (x : ℚ) (e : Int) (n : Nat) (hn : 1 ≤ n) (h1 : (2 : ℚ) ^ (2 * e) ≤ x)
    (h2 : x < (2 : ℚ) ^ (2 * e + 2))
    (h3 : ((2 * n - 1 : Nat) : ℚ) * ((2 * n - 1 : Nat) : ℚ)
      ≤ 4 * (x / (2 ^ (e - 52) * 2 ^ (e - 52))))
    (h4 : 4 * (x / (2 ^ (e - 52) * 2 ^ (e - 52)))
      < ((2 * n + 1 : Nat) : ℚ) * ((2 * n + 1 : Nat) : ℚ)) :
    sqrt64 x = (n : ℚ) * 2 ^ (e - 52) := by
  have hpos : 0 < x := lt_of_lt_of_le (zpow_pos (by norm_num) _) h1
  have a : 2 * e ≤ Int.log 2 x :=
    (Int.zpow_le_iff_le_log (by norm_num) hpos).mp (by exact_mod_cast h1)
  have b : Int.log 2 x < 2 * e + 2 :=
    (Int.lt_zpow_iff_log_lt (by norm_num) hpos).mp (by exact_mod_cast h2)
  have he : Int.log 2 x / 2 = e := by omega
  unfold sqrt64
  rw [if_neg (not_le.mpr hpos), he]
  have hz : (0 : ℚ) ≤ 4 * (x / (2 ^ (e - 52) * 2 ^ (e - 52))) := by positivity
  have c1 : (2 * n - 1) * (2 * n - 1) ≤ ⌊4 * (x / ((2 : ℚ) ^ (e - 52) * 2 ^ (e - 52)))⌋₊ := by
    apply Nat.le_floor
    push_cast [Nat.cast_mul] at h3 ⊢
    exact_mod_cast h3
  have c2 : ⌊4 * (x / ((2 : ℚ) ^ (e - 52) * 2 ^ (e - 52)))⌋₊ < (2 * n + 1) * (2 * n + 1) := by
    rw [Nat.floor_lt hz]
    exact_mod_cast h4
  have d1 := Nat.le_sqrt.mpr c1
  have d2 := Nat.sqrt_lt.mpr c2
  have hs : (Nat.sqrt ⌊4 * (x / ((2 : ℚ) ^ (e - 52) * 2 ^ (e - 52)))⌋₊ + 1) / 2 = n := by omega
  rw [hs]

theorem sqrt64_nine : sqrt64 9 = 3 := by
  have h := sqrt64_of 9 1 6755399441055744 (by norm_num) (by norm_num)
    (by norm_num) (by norm_num) (by norm_num)
  rw [h]
  norm_num

/-! ## Conversions of `double` values -/

theorem truncate_intCast (k : Int) : truncate (k : ℚ) = k := by
  unfold truncate
  split <;> simp

theorem toInt_intCast (k : Int) (h1 : -2147483648 ≤ k) (h2 : k ≤ 2147483647) :
    toInt (k : ℚ) = k := by
  unfold toInt
  rw [truncate_intCast]
  simp only [h1, h2, and_self, if_true]

theorem toInt_zero : toInt 0 = 0 := by
  have := toInt_intCast 0 (by norm_num) (by norm_num)
  simpa using this

theorem toInt_of_fits {d : ℚ} (h : FitsInt d) : toInt d = truncate d := by
  unfold FitsInt at h
  unfold toInt
  rw [if_pos h]

theorem toInt_of_not_fits {d : ℚ} (h : ¬ FitsInt d) : toInt d = -2147483648 := by
  unfold FitsInt at h
  unfold toInt
  rw [if_neg h]

theorem toInt_range (d : ℚ) : -2147483648 ≤ toInt d ∧ toInt d ≤ 2147483647 := by
  unfold toInt
  split
  · assumption
  · exact ⟨le_refl _, by norm_num⟩

theorem toInt_of_large {d : ℚ} (h : 2147483647 < truncate d) : toInt d = -2147483648 :=
  toInt_of_not_fits (fun hf => absurd hf.2 (not_le.mpr h))

theorem fmul_int (a b : Int) (h : |a * b| < 9007199254740992) :
    fmul (a : ℚ) (b : ℚ) = ((a * b : Int) : ℚ) := by
  unfold fmul
  rw [← Int.cast_mul]
  exact round64_int _ h

theorem fsub_int (a b : Int) (h : |a - b| < 9007199254740992) :
    fsub (a : ℚ) (b : ℚ) = ((a - b : Int) : ℚ) := by
  unfold fsub
  rw [← Int.cast_sub]
  exact round64_int _ h

theorem fmul_zero_left (b : ℚ) : fmul 0 b = 0 := by
  unfold fmul
  rw [zero_mul, round64_zero]

theorem for_each_pixel_single (p : Pixel) (f : Int → Int → Nat → Nat → Pixel → Option Pixel) :
    for_each_pixel [[p]] f = (f 1 1 0 0 p).map (fun q => [[q]]) := by
  rw [for_each_pixel_unfold [[p]] 1 1 (dims_single_row 1 p) (by decide) (by decide) (by decide)]
  have hr : List.range 1 = [0] := rfl
  rw [hr]
  simp only [List.foldlM_cons, List.foldlM_nil, store_pixel, getPixel, List.getElem?_cons_zero,
    Nat.cast_one, Option.some_bind]
  cases f 1 1 0 0 p with
  | none => rfl
  | some q => rfl

/-! ## Rotation by quarter turns -/

theorem process_5_of_nonneg (image : Image) (N : Int) (h0 : 0 ≤ N) (hr : N * 90 < 2147483648) :
    process_5_invalid N = false ∧
    process_5 image N = process_4_times (N % 4).toNat image := by
  have ha : imul N 90 = N * 90 := wrap32_of_range (by omega) hr
  have h90 : Int.tmod (N * 90) 90 = 0 := by
    rw [Int.tmod_eq_emod (by omega) (by norm_num)]
    omega
  have hinv : process_5_invalid N = false := by
    simp only [process_5_invalid, ha, h90, ne_eq, not_true_eq_false, decide_False]
  refine ⟨hinv, ?_⟩
  have h360 : Int.tmod (N * 90) 360 = (N % 4) * 90 := by
    rw [Int.tmod_eq_emod (by omega) (by norm_num)]
    omega
  have hm0 : 0 ≤ N % 4 := Int.emod_nonneg _ (by norm_num)
  have hm4 : N % 4 < 4 := Int.emod_lt_of_pos _ (by norm_num)
  simp only [process_5, hinv, ha, h360, Bool.false_eq_true, if_false]
  have hcases : N % 4 = 0 ∨ N % 4 = 1 ∨ N % 4 = 2 ∨ N % 4 = 3 := by omega
  rcases hcases with h | h | h | h <;> rw [h] <;> norm_num <;> rfl

theorem tmod_of_neg {a b : Int} (ha : a < 0) (hb : 0 < b) : Int.tmod a b = -((-a) % b) := by
  obtain ⟨n, rfl⟩ := Int.eq_negSucc_of_lt_zero ha
  obtain ⟨m, rfl⟩ : ∃ m : Nat, b = ((m + 1 : Nat) : Int) := ⟨(b - 1).toNat, by omega⟩
  have e1 : Int.tmod (Int.negSucc n) ((m + 1 : Nat) : Int)
      = -(((n + 1) % (m + 1) : Nat) : Int) := rfl
  have e2 : -(Int.negSucc n) = ((n + 1 : Nat) : Int) := rfl
  rw [e1, e2, Int.natCast_mod]

/-! ## Enlargement -/

theorem idiv_natCast (r s : Nat) (hs : 0 < s) : idiv (r : Int) (s : Int) = some ((r / s : Nat) : Int) := by
  have hne : ¬ ((s : Int) = 0) := by omega
  simp only [idiv, hne, if_false, Option.some.injEq]
  rw [Int.tdiv_eq_ediv (by omega) (by omega)]
  exact (Int.natCast_div r s).symm

theorem toIndex_natCast (k : Nat) : toIndex (k : Int) = some k := by
  have : ¬ ((k : Int) < 0) := by omega
  simp only [toIndex, this, if_false, Int.toNat_ofNat]

theorem process_6_spec (image : Image) (h w xs ys : Nat) (hd : Dims image h w) (hpos : 0 < h)
    (hxs : 0 < xs) (hys : 0 < ys) (hH : h * ys < 2147483648) (hW : w * xs < 2147483648) :
    ∃ out, process_6 image xs ys = some out ∧ Dims out (h * ys) (w * xs) ∧
      ∀ row col, row < h * ys → col < w * xs →
        getPixel out row col = getPixel image (row / ys) (col / xs) := by
  obtain ⟨row0, hrow0, hlen0⟩ := dims_getElem? hd hpos
  have hh : h < 2147483648 := lt_of_le_of_lt (Nat.le_mul_of_pos_right h hys) hH
  have hw : w < 2147483648 := lt_of_le_of_lt (Nat.le_mul_of_pos_right w hxs) hW
  have key := fill_loops (h * ys) (w * xs) (h * ys) (w * xs) (process_6_pixel image xs ys)
    (fun r c => (r, c))
    (fun r c => (getPixel image (r / ys) (c / xs)).getD Pixel.zero)
    (List.replicate (h * ys) (List.replicate (w * xs) Pixel.zero))
    (dims_alloc (h * ys) (w * xs) Pixel.zero)
    (fun r c hr hc => ⟨hr, hc⟩)
    (fun r c r' c' _ _ _ _ hp => ⟨congrArg Prod.fst hp, congrArg Prod.snd hp⟩)
    (by
      intro r c img hr hc _
      have hr' : r / ys < h := (Nat.div_lt_iff_lt_mul hys).mpr hr
      have hc' : c / xs < w := (Nat.div_lt_iff_lt_mul hxs).mpr hc
      obtain ⟨p, hp⟩ := getPixel_of_dims hd hr' hc'
      simp only [process_6_pixel, idiv_natCast r ys hys, idiv_natCast c xs hxs, toIndex_natCast,
        hp, Option.some_bind, Option.getD_some])
  obtain ⟨out, h1, h2, h3⟩ := key
  refine ⟨out, ?_, h2, ?_⟩
  · unfold process_6
    rw [hrow0]
    show process_6_loops image xs ys (imul ys (wrap32 image.length))
      (imul xs (wrap32 row0.length)) = _
    have er : imul (ys : Int) (wrap32 image.length) = ((h * ys : Nat) : Int) := by
      rw [hd.1, wrap32_natCast hh]
      unfold imul
      have e : (ys : Int) * (h : Int) = ((h * ys : Nat) : Int) := by push_cast; ring
      rw [e]
      exact wrap32_natCast hH
    have ec : imul (xs : Int) (wrap32 row0.length) = ((w * xs : Nat) : Int) := by
      rw [hlen0, wrap32_natCast hw]
      unfold imul
      have e : (xs : Int) * (w : Int) = ((w * xs : Nat) : Int) := by push_cast; ring
      rw [e]
      exact wrap32_natCast hW
    rw [er, ec]
    unfold process_6_loops
    rw [allocImage_nat]
    simp only [upTo, Int.toNat_ofNat]
    exact h1
  · intro r c hr hc
    have hr' : r / ys < h := (Nat.div_lt_iff_lt_mul hys).mpr hr
    have hc' : c / xs < w := (Nat.div_lt_iff_lt_mul hxs).mpr hc
    obtain ⟨p, hp⟩ := getPixel_of_dims hd hr' hc'
    have := h3 r c hr hc
    simp only [hp, Option.getD_some] at this
    rw [this, hp]

theorem process_6_one_one (image : Image) (h w : Nat) (hd : Dims image h w) (hpos : 0 < h)
    (hh : h < 2147483648) (hw : w < 2147483648) : process_6 image 1 1 = some image := by
  obtain ⟨out, h1, h2, h3⟩ := process_6_spec image h w 1 1 hd hpos (by norm_num) (by norm_num)
    (by omega) (by omega)
  rw [Nat.mul_one, Nat.mul_one] at h2 h3
  have e : process_6 image 1 1 = process_6 image ((1 : Nat) : Int) ((1 : Nat) : Int) := rfl
  rw [e, h1]
  congr 1
  apply image_ext h2 hd
  intro i j hi hj
  rw [h3 i j hi hj, Nat.div_one, Nat.div_one]


/-! ## Pixel rules of the integer transforms -/

theorem inRange_getPixel {image : Image} (hr : InRange image) {r c : Nat} {p : Pixel}
    (hp : getPixel image r c = some p) :
    (0 ≤ p.red ∧ p.red ≤ 255) ∧ (0 ≤ p.green ∧ p.green ≤ 255) ∧ (0 ≤ p.blue ∧ p.blue ≤ 255) := by
  unfold getPixel at hp
  cases hrow : image[r]? with
  | none => rw [hrow] at hp; exact absurd hp (by simp)
  | some row =>
    rw [hrow] at hp
    simp only at hp
    exact hr row (List.getElem?_mem hrow) p (List.getElem?_mem hp)

theorem iadd_channels (p : Pixel)
    (hp : (0 ≤ p.red ∧ p.red ≤ 255) ∧ (0 ≤ p.green ∧ p.green ≤ 255) ∧
      (0 ≤ p.blue ∧ p.blue ≤ 255)) :
    iadd (iadd p.red p.green) p.blue = p.red + p.green + p.blue := by
  unfold iadd
  rw [wrap32_of_range (a := p.red + p.green) (by omega) (by omega),
    wrap32_of_range (by omega) (by omega)]

theorem iadd_of_sumFits (a b c : Int) (h : SumFits a b c) : iadd (iadd a b) c = a + b + c := by
  obtain ⟨⟨h1, h2⟩, h3, h4⟩ := h
  unfold iadd
  rw [wrap32_of_range (a := a + b) h1 (by omega), wrap32_of_range h3 (by omega)]

theorem process_7_pixel_eq (p : Pixel)
    (hp : (0 ≤ p.red ∧ p.red ≤ 255) ∧ (0 ≤ p.green ∧ p.green ≤ 255) ∧
      (0 ≤ p.blue ∧ p.blue ≤ 255)) :
    process_7_pixel p = some (if (p.red + p.green + p.blue) / 3 ≥ 127 then ⟨255, 255, 255⟩
      else ⟨0, 0, 0⟩) := by
  unfold process_7_pixel
  rw [iadd_channels p hp, Int.tdiv_eq_ediv (by omega) (by norm_num),
    show Int.tdiv 255 2 = 127 by decide]
  simp only
  split <;> rfl

theorem process_10_pixel_eq (p : Pixel) (hp : SumFits p.red p.green p.blue) :
    process_10_pixel p = some
      (if p.red + p.green + p.blue ≥ 550 then ⟨255, 255, 255⟩
       else if p.red + p.green + p.blue ≤ 150 then ⟨0, 0, 0⟩
       else if p.red ≥ p.green ∧ p.red ≥ p.blue then ⟨255, 0, 0⟩
       else if p.green ≥ p.blue then ⟨0, 255, 0⟩
       else ⟨0, 0, 255⟩) := by
  unfold process_10_pixel
  rw [iadd_of_sumFits _ _ _ hp]
  simp only
  by_cases h1 : p.red + p.green + p.blue ≥ 550
  · simp only [h1, if_true]
  · by_cases h2 : p.red + p.green + p.blue ≤ 150
    · simp only [h1, h2, if_true, if_false]
    · simp only [h1, h2, if_false]
      by_cases hg : p.green > p.red
      · by_cases hb : p.blue > p.green
        · have c1 : ¬ (p.red ≥ p.green ∧ p.red ≥ p.blue) := by omega
          have c2 : ¬ (p.green ≥ p.blue) := by omega
          have c3 : ¬ (p.blue = p.red) := by omega
          have c4 : ¬ (p.blue = p.green) := by omega
          simp only [hg, hb, if_true, c1, c2, c3, c4, if_false]
        · have c1 : ¬ (p.red ≥ p.green ∧ p.red ≥ p.blue) := by omega
          have c2 : p.green ≥ p.blue := by omega
          have c3 : ¬ (p.green = p.red) := by omega
          simp only [hg, hb, if_true, c1, c2, c3, if_false]
      · by_cases hb : p.blue > p.red
        · have c1 : ¬ (p.red ≥ p.green ∧ p.red ≥ p.blue) := by omega
          have c2 : ¬ (p.green ≥ p.blue) := by omega
          have c3 : ¬ (p.blue = p.red) := by omega
          have c4 : ¬ (p.blue = p.green) := by omega
          simp only [hg, hb, if_true, c1, c2, c3, c4, if_false]
        · have c1 : p.red ≥ p.green ∧ p.red ≥ p.blue := by omega
          simp only [hg, hb, if_true, c1, and_self, if_false]

/-! ## Transforms that map every pixel on its own -/

theorem pixel_map_spec (image : Image) (h w : Nat) (hd : Dims image h w) (hpos : 0 < h)
    (hh : h < 2147483648) (hw : w < 2147483648) (hr : InRange image)
    (f : Pixel → Option Pixel) (g : Pixel → Pixel)
    (hf : ∀ p : Pixel, ((0 ≤ p.red ∧ p.red ≤ 255) ∧ (0 ≤ p.green ∧ p.green ≤ 255) ∧
      (0 ≤ p.blue ∧ p.blue ≤ 255)) → f p = some (g p)) :
    ∃ out, for_each_pixel image (fun _ _ _ _ => f) = some out ∧ Dims out h w ∧
      ∀ r c p, r < h → c < w → getPixel image r c = some p →
        getPixel out r c = some (g p) :=
  for_each_pixel_spec image h w hd hpos hh hw (fun _ _ _ _ => f) (fun _ _ => g)
    (fun _ _ p _ _ hp => hf p (inRange_getPixel hr hp))

theorem pixel_map_exact (image : Image) (h w : Nat) (hd : Dims image h w) (hpos : 0 < h)
    (hh : h < 2147483648) (hw : w < 2147483648) (f : Pixel → Option Pixel)
    (hf : ∀ r c p, r < h → c < w → getPixel image r c = some p → ∃ q, f p = some q) :
    ∃ out, for_each_pixel image (fun _ _ _ _ => f) = some out ∧ Dims out h w ∧
      ∀ r c p, r < h → c < w → getPixel image r c = some p → getPixel out r c = f p := by
  obtain ⟨out, h1, h2, h3⟩ := for_each_pixel_spec image h w hd hpos hh hw (fun _ _ _ _ => f)
    (fun _ _ p => (f p).getD Pixel.zero)
    (by
      intro r c p hr hc hp
      obtain ⟨q, hq⟩ := hf r c p hr hc hp
      simp only [hq, Option.getD_some])
  refine ⟨out, h1, h2, ?_⟩
  intro r c p hr hc hp
  obtain ⟨q, hq⟩ := hf r c p hr hc hp
  rw [h3 r c p hr hc hp, hq]
  rfl

theorem pixel_map_fixed (image : Image) (h w : Nat) (hd : Dims image h w) (hpos : 0 < h)
    (hh : h < 2147483648) (hw : w < 2147483648) (f : Pixel → Option Pixel)
    (hf : ∀ r c p, r < h → c < w → getPixel image r c = some p → f p = some p) :
    for_each_pixel image (fun _ _ _ _ => f) = some image := by
  obtain ⟨out, h1, h2, h3⟩ := pixel_map_exact image h w hd hpos hh hw f
    (fun r c p hr hc hp => ⟨p, hf r c p hr hc hp⟩)
  rw [h1]
  congr 1
  apply image_ext h2 hd
  intro r c hr hc
  obtain ⟨p, hp⟩ := getPixel_of_dims hd hr hc
  rw [h3 r c p hr hc hp, hf r c p hr hc hp, hp]

theorem process_7_pixel_total (p : Pixel) : ∃ q, process_7_pixel p = some q := by
  unfold process_7_pixel
  simp only
  split
  · exact ⟨_, rfl⟩
  · exact ⟨_, rfl⟩

theorem process_10_pixel_total (p : Pixel) : ∃ q, process_10_pixel p = some q := by
  unfold process_10_pixel
  simp only
  split_ifs <;> exact ⟨_, rfl⟩

theorem process_7_spec (image : Image) (h w : Nat) (hd : Dims image h w) (hpos : 0 < h)
    (hh : h < 2147483648) (hw : w < 2147483648) (hr : InRange image) :
    ∃ out, process_7 image = some out ∧ Dims out h w ∧
      ∀ r c p, r < h → c < w → getPixel image r c = some p →
        getPixel out r c = some (if (p.red + p.green + p.blue) / 3 ≥ 127 then ⟨255, 255, 255⟩
          else ⟨0, 0, 0⟩) :=
  pixel_map_spec image h w hd hpos hh hw hr process_7_pixel _ process_7_pixel_eq

theorem process_10_spec (image : Image) (h w : Nat) (hd : Dims image h w) (hpos : 0 < h)
    (hh : h < 2147483648) (hw : w < 2147483648) :
    ∃ out, process_10 image = some out ∧ Dims out h w ∧
      ∀ r c p, r < h → c < w → getPixel image r c = some p →
        SumFits p.red p.green p.blue →
        getPixel out r c = some
          (if p.red + p.green + p.blue ≥ 550 then ⟨255, 255, 255⟩
           else if p.red + p.green + p.blue ≤ 150 then ⟨0, 0, 0⟩
           else if p.red ≥ p.green ∧ p.red ≥ p.blue then ⟨255, 0, 0⟩
           else if p.green ≥ p.blue then ⟨0, 255, 0⟩
           else ⟨0, 0, 255⟩) := by
  obtain ⟨out, h1, h2, h3⟩ := pixel_map_exact image h w hd hpos hh hw process_10_pixel
    (fun _ _ p _ _ _ => process_10_pixel_total p)
  refine ⟨out, h1, h2, ?_⟩
  intro r c p hr hc hp hs
  rw [h3 r c p hr hc hp, process_10_pixel_eq p hs]

/-! ## Conversions of scaled channels -/

theorem truncate_div_three (s : Int) (hs : 0 ≤ s) : truncate ((s : ℚ) / 3) = s / 3 := by
  have h0 : (0 : ℚ) ≤ (s : ℚ) / 3 := by
    have : (0 : ℚ) ≤ (s : ℚ) := by exact_mod_cast hs
    positivity
  unfold truncate
  rw [if_pos h0]
  have := Rat.floor_intCast_div_natCast s 3
  simpa using this

theorem round64_near (x : ℚ) (hx : |x| ≤ 4294967296) : |round64 x - x| < 1 / 3 := by
  have h := round64_err x
  have : |x| / 9007199254740992 < 1 / 3 := by
    rw [div_lt_iff₀ (by norm_num)]
    linarith
  linarith

theorem fdiv_three_ge (s k : Int) (hs : |s| ≤ 4294967296) :
    (k : ℚ) ≤ fdiv (s : ℚ) 3 ↔ 3 * k ≤ s := by
  have hsq : |(s : ℚ)| ≤ 4294967296 := by
    have : ((|s| : Int) : ℚ) ≤ 4294967296 := by exact_mod_cast hs
    rwa [Int.cast_abs] at this
  have hx : |(s : ℚ) / 3| ≤ 4294967296 := by
    rw [abs_div, abs_of_pos (show (0 : ℚ) < 3 by norm_num)]
    rw [div_le_iff₀ (by norm_num)]
    linarith [abs_nonneg (s : ℚ)]
  have hn := abs_lt.mp (round64_near ((s : ℚ) / 3) hx)
  unfold fdiv
  constructor
  · intro h
    by_contra hlt
    have h1 : s ≤ 3 * k - 1 := by omega
    have h2 : (s : ℚ) ≤ 3 * k - 1 := by exact_mod_cast h1
    linarith [hn.2]
  · intro h
    rcases eq_or_lt_of_le h with he | hl
    · have e : (s : ℚ) / 3 = ((k : Int) : ℚ) := by
        rw [← he]
        push_cast
        ring
      have hk : |k| < 9007199254740992 := by
        rw [abs_le] at hs
        rw [abs_lt]
        omega
      rw [e, round64_int k hk]
    · have h1 : 3 * k + 1 ≤ s := by omega
      have h2 : (3 : ℚ) * k + 1 ≤ s := by exact_mod_cast h1
      linarith [hn.1]

theorem fdiv_three_lt (s k : Int) (hs : |s| ≤ 4294967296) :
    fdiv (s : ℚ) 3 < (k : ℚ) ↔ s < 3 * k := by
  rw [← not_le, fdiv_three_ge s k hs]
  omega

theorem toInt_fdiv_three (s : Int) (h0 : 0 ≤ s) (h1 : s ≤ 2147483647) :
    toInt (fdiv (s : ℚ) 3) = s / 3 := by
  have hs : |s| ≤ 4294967296 := by
    rw [abs_le]
    omega
  have a := (fdiv_three_ge s (s / 3) hs).mpr (by omega)
  have b := (fdiv_three_lt s (s / 3 + 1) hs).mpr (by omega)
  have hnn : (0 : ℚ) ≤ fdiv (s : ℚ) 3 := by
    have : (0 : ℚ) ≤ ((s / 3 : Int) : ℚ) := by exact_mod_cast (show (0 : Int) ≤ s / 3 by omega)
    linarith
  have ht : truncate (fdiv (s : ℚ) 3) = s / 3 := by
    unfold truncate
    rw [if_pos hnn, Int.floor_eq_iff]
    push_cast at b ⊢
    exact ⟨a, b⟩
  rw [toInt_of_fits (by unfold FitsInt; rw [ht]; omega), ht]

theorem clamp_channel_eq (v : Int) : clamp_channel v = max 0 (min 255 v) := by
  unfold clamp_channel
  simp only
  split <;> split <;> omega

theorem clamp_channel_range (v : Int) : 0 ≤ clamp_channel v ∧ clamp_channel v ≤ 255 := by
  rw [clamp_channel_eq]
  omega

theorem process_3_pixel_eq (p : Pixel)
    (hp : (0 ≤ p.red ∧ p.red ≤ 255) ∧ (0 ≤ p.green ∧ p.green ≤ 255) ∧
      (0 ≤ p.blue ∧ p.blue ≤ 255)) :
    process_3_pixel p = some ⟨(p.red + p.green + p.blue) / 3, (p.red + p.green + p.blue) / 3,
      (p.red + p.green + p.blue) / 3⟩ := by
  unfold process_3_pixel
  rw [iadd_channels p hp]
  simp only [toInt_fdiv_three (p.red + p.green + p.blue) (by omega) (by omega)]

theorem process_3_spec (image : Image) (h w : Nat) (hd : Dims image h w) (hpos : 0 < h)
    (hh : h < 2147483648) (hw : w < 2147483648) (hr : InRange image) :
    ∃ out, process_3 image = some out ∧ Dims out h w ∧
      ∀ r c p, r < h → c < w → getPixel image r c = some p →
        getPixel out r c = some ⟨(p.red + p.green + p.blue) / 3, (p.red + p.green + p.blue) / 3,
          (p.red + p.green + p.blue) / 3⟩ :=
  pixel_map_spec image h w hd hpos hh hw hr process_3_pixel _ process_3_pixel_eq


theorem getPixel_lt_of_dims {image : Image} {h w : Nat} (hd : Dims image h w) {r c : Nat}
    {q : Pixel} (hq : getPixel image r c = some q) : r < h ∧ c < w := by
  unfold getPixel at hq
  cases hrow : image[r]? with
  | none => rw [hrow] at hq; exact absurd hq (by simp)
  | some row =>
    rw [hrow] at hq
    simp only at hq
    obtain ⟨hr, _⟩ := List.getElem?_eq_some_iff.mp hrow
    obtain ⟨hc, _⟩ := List.getElem?_eq_some_iff.mp hq
    rw [← hd.1, ← hd.2 row (List.getElem?_mem hrow)]
    exact ⟨hr, hc⟩

theorem inRange_of_getPixel {image : Image}
    (H : ∀ r c q, getPixel image r c = some q →
      (0 ≤ q.red ∧ q.red ≤ 255) ∧ (0 ≤ q.green ∧ q.green ≤ 255) ∧ (0 ≤ q.blue ∧ q.blue ≤ 255)) :
    InRange image := by
  intro row hrow p hp
  obtain ⟨r, hr⟩ := List.mem_iff_getElem?.mp hrow
  obtain ⟨c, hc⟩ := List.mem_iff_getElem?.mp hp
  apply H r c p
  unfold getPixel
  rw [hr]
  exact hc

theorem process_9_pixel_eq (f : ℚ) (p : Pixel) :
    process_9_pixel f p = some ⟨clamp_channel (toInt (fmul (p.red : ℚ) f)),
      clamp_channel (toInt (fmul (p.green : ℚ) f)),
      clamp_channel (toInt (fmul (p.blue : ℚ) f))⟩ := rfl

theorem process_9_spec (image : Image) (h w : Nat) (hd : Dims image h w) (hpos : 0 < h)
    (hh : h < 2147483648) (hw : w < 2147483648) (f : ℚ) :
    ∃ out, process_9 image f = some out ∧ Dims out h w ∧
      ∀ r c p, r < h → c < w → getPixel image r c = some p →
        getPixel out r c = some ⟨clamp_channel (toInt (fmul (p.red : ℚ) f)),
          clamp_channel (toInt (fmul (p.green : ℚ) f)),
          clamp_channel (toInt (fmul (p.blue : ℚ) f))⟩ := by
  obtain ⟨out, h1, h2, h3⟩ := pixel_map_exact image h w hd hpos hh hw (process_9_pixel f)
    (fun _ _ p _ _ _ => ⟨_, process_9_pixel_eq f p⟩)
  refine ⟨out, h1, h2, ?_⟩
  intro r c p hr hc hp
  rw [h3 r c p hr hc hp, process_9_pixel_eq]

theorem clamp_toInt_of_fits {d : ℚ} (h : FitsInt d) :
    clamp_channel (toInt d) = max 0 (min 255 (truncate d)) := by
  rw [toInt_of_fits h, clamp_channel_eq]

theorem process_9_clamped_aux (image : Image) (h w : Nat) (hd : Dims image h w) (hpos : 0 < h)
    (hh : h < 2147483648) (hw : w < 2147483648) (f : ℚ) :
    ∃ out, process_9 image f = some out ∧ Dims out h w ∧ InRange out ∧
      ∀ r c p, r < h → c < w → getPixel image r c = some p →
        ∃ q, getPixel out r c = some q ∧
          (FitsInt (fmul (p.red : ℚ) f) →
            q.red = max 0 (min 255 (truncate (fmul (p.red : ℚ) f)))) ∧
          (FitsInt (fmul (p.green : ℚ) f) →
            q.green = max 0 (min 255 (truncate (fmul (p.green : ℚ) f)))) ∧
          (FitsInt (fmul (p.blue : ℚ) f) →
            q.blue = max 0 (min 255 (truncate (fmul (p.blue : ℚ) f)))) := by
  obtain ⟨out, ho, hdo, hpx⟩ := process_9_spec image h w hd hpos hh hw f
  refine ⟨out, ho, hdo, ?_, ?_⟩
  · apply inRange_of_getPixel
    intro r c q hq
    obtain ⟨hr', hc⟩ := getPixel_lt_of_dims hdo hq
    obtain ⟨p, hp⟩ := getPixel_of_dims hd hr' hc
    have := hpx r c p hr' hc hp
    rw [hq] at this
    rw [Option.some.inj this]
    exact ⟨clamp_channel_range _, clamp_channel_range _, clamp_channel_range _⟩
  · intro r c p hr hc hp
    exact ⟨_, hpx r c p hr hc hp, fun hf => clamp_toInt_of_fits hf,
      fun hf => clamp_toInt_of_fits hf, fun hf => clamp_toInt_of_fits hf⟩

theorem process_9_white_large : process_9 whiteRaster 100000000 = some [[⟨0, 0, 0⟩]] := by
  have hm : fmul ((255 : Int) : ℚ) 100000000 = ((25500000000 : Int) : ℚ) := by
    have := fmul_int 255 100000000 (by norm_num)
    simpa using this
  have ht : toInt (fmul ((255 : Int) : ℚ) 100000000) = -2147483648 := by
    rw [hm]
    apply toInt_of_large
    rw [truncate_intCast]
    norm_num
  have hp : process_9_pixel 100000000 ⟨255, 255, 255⟩ = some ⟨0, 0, 0⟩ := by
    rw [process_9_pixel_eq]
    simp only [ht]
    rfl
  unfold process_9 whiteRaster
  rw [for_each_pixel_single, hp]
  rfl

theorem round64_10_factor03 : round64 (10 * factor03) = 3 := by
  have h := round64_of_near (10 * factor03) 1 6755399441055744
    (by unfold factor03; norm_num [abs_of_pos]) (by unfold factor03; norm_num [abs_of_pos])
    (by unfold factor03; norm_num [abs_lt])
  rw [h]
  norm_num

theorem round64_20_factor03 : round64 (20 * factor03) = 6 := by
  have h := round64_of_near (20 * factor03) 2 6755399441055744
    (by unfold factor03; norm_num [abs_of_pos]) (by unfold factor03; norm_num [abs_of_pos])
    (by unfold factor03; norm_num [abs_lt])
  rw [h]
  norm_num

theorem round64_30_factor03 : round64 (30 * factor03) = 9 := by
  have h := round64_of_near (30 * factor03) 3 5066549580791808
    (by unfold factor03; norm_num [abs_of_pos]) (by unfold factor03; norm_num [abs_of_pos])
    (by unfold factor03; norm_num [abs_lt])
  rw [h]
  norm_num

theorem toInt_small_int (k : Int) (h1 : -2147483648 ≤ k) (h2 : k ≤ 2147483647) (d : ℚ)
    (hd : d = (k : ℚ)) : toInt d = k := by
  rw [hd]
  exact toInt_intCast k h1 h2

theorem darken_shadow :
    toInt (fmul ((10 : Int) : ℚ) factor03) = 3 ∧ toInt (fmul ((20 : Int) : ℚ) factor03) = 6 ∧
    toInt (fmul ((30 : Int) : ℚ) factor03) = 9 := by
  unfold fmul
  refine ⟨?_, ?_, ?_⟩
  · exact toInt_small_int 3 (by norm_num) (by norm_num) _
      (by rw [show (((10 : Int) : ℚ)) = 10 by norm_num, round64_10_factor03]; norm_num)
  · exact toInt_small_int 6 (by norm_num) (by norm_num) _
      (by rw [show (((20 : Int) : ℚ)) = 20 by norm_num, round64_20_factor03]; norm_num)
  · exact toInt_small_int 9 (by norm_num) (by norm_num) _
      (by rw [show (((30 : Int) : ℚ)) = 30 by norm_num, round64_30_factor03]; norm_num)

theorem process_9_shadow : process_9 shadowRaster factor03 = some [[⟨3, 6, 9⟩]] := by
  have hp : process_9_pixel factor03 ⟨10, 20, 30⟩ = some ⟨3, 6, 9⟩ := by
    rw [process_9_pixel_eq]
    simp only [darken_shadow.1, darken_shadow.2.1, darken_shadow.2.2]
    rfl
  unfold process_9 shadowRaster
  rw [for_each_pixel_single, hp]
  rfl

theorem truncate_shadow :
    truncate (10 * factor03) = 2 ∧ truncate (20 * factor03) = 5 ∧
    truncate (30 * factor03) = 8 := by
  unfold truncate factor03
  refine ⟨?_, ?_, ?_⟩
  · rw [if_pos (by norm_num), Int.floor_eq_iff]
    norm_num
  · rw [if_pos (by norm_num), Int.floor_eq_iff]
    norm_num
  · rw [if_pos (by norm_num), Int.floor_eq_iff]
    norm_num

/-! ## Clarendon -/

theorem isub_255_of_int (c : Int) (h : -2147483392 ≤ c ∧ c ≤ 2147483647) :
    isub 255 c = 255 - c := by
  unfold isub
  rw [wrap32_of_range (by omega) (by omega)]

theorem sumFits_abs {a b c : Int} (h : SumFits a b c) : |a + b + c| ≤ 4294967296 := by
  obtain ⟨_, h3, h4⟩ := h
  rw [abs_le]
  omega

theorem process_2_pixel_total (f : ℚ) (p : Pixel) : ∃ q, process_2_pixel f p = some q := by
  unfold process_2_pixel
  simp only
  split_ifs <;> exact ⟨_, rfl⟩

theorem div_three_ge (s k : Int) : (k : ℚ) ≤ (s : ℚ) / 3 ↔ 3 * k ≤ s := by
  rw [le_div_iff₀ (by norm_num)]
  constructor
  · intro h
    have : ((3 * k : Int) : ℚ) ≤ (s : ℚ) := by
      push_cast
      linarith
    exact_mod_cast this
  · intro h
    have : ((3 * k : Int) : ℚ) ≤ (s : ℚ) := by exact_mod_cast h
    push_cast at this
    linarith

theorem div_three_lt (s k : Int) : (s : ℚ) / 3 < (k : ℚ) ↔ s < 3 * k := by
  rw [div_lt_iff₀ (by norm_num)]
  constructor
  · intro h
    have : (s : ℚ) < ((3 * k : Int) : ℚ) := by
      push_cast
      linarith
    exact_mod_cast this
  · intro h
    have : (s : ℚ) < ((3 * k : Int) : ℚ) := by exact_mod_cast h
    push_cast at this
    linarith

theorem process_2_pixel_eq (f : ℚ) (p : Pixel) (hp : SumFits p.blue p.red p.green) :
    process_2_pixel f p = some
      (if 170 ≤ ((p.red + p.green + p.blue : Int) : ℚ) / 3 then
        ⟨toInt (fsub 255 (fmul ((isub 255 p.red : Int) : ℚ) f)),
         toInt (fsub 255 (fmul ((isub 255 p.green : Int) : ℚ) f)),
         toInt (fsub 255 (fmul ((isub 255 p.blue : Int) : ℚ) f))⟩
       else if ((p.red + p.green + p.blue : Int) : ℚ) / 3 < 90 then
        ⟨toInt (fmul (p.red : ℚ) f), toInt (fmul (p.green : ℚ) f), toInt (fmul (p.blue : ℚ) f)⟩
       else p) := by
  have es : p.blue + p.red + p.green = p.red + p.green + p.blue := by ring
  have habs : |p.red + p.green + p.blue| ≤ 4294967296 := by
    rw [← es]
    exact sumFits_abs hp
  have c1 : (fdiv ((p.red + p.green + p.blue : Int) : ℚ) 3 ≥ 170)
      ↔ 170 ≤ ((p.red + p.green + p.blue : Int) : ℚ) / 3 := by
    have a := fdiv_three_ge (p.red + p.green + p.blue) 170 habs
    have b := div_three_ge (p.red + p.green + p.blue) 170
    rw [Int.cast_ofNat] at a b
    exact a.trans b.symm
  have c2 : (fdiv ((p.red + p.green + p.blue : Int) : ℚ) 3 < 90)
      ↔ ((p.red + p.green + p.blue : Int) : ℚ) / 3 < 90 := by
    have a := fdiv_three_lt (p.red + p.green + p.blue) 90 habs
    have b := div_three_lt (p.red + p.green + p.blue) 90
    rw [Int.cast_ofNat] at a b
    exact a.trans b.symm
  unfold process_2_pixel
  rw [iadd_of_sumFits _ _ _ hp, es]
  simp only [c1, c2]
  split_ifs <;> rfl

theorem process_2_spec (image : Image) (h w : Nat) (hd : Dims image h w) (hpos : 0 < h)
    (hh : h < 2147483648) (hw : w < 2147483648) (f : ℚ) :
    ∃ out, process_2 image f = some out ∧ Dims out h w ∧
      ∀ r c p, r < h → c < w → getPixel image r c = some p →
        getPixel out r c = process_2_pixel f p :=
  pixel_map_exact image h w hd hpos hh hw (process_2_pixel f)
    (fun _ _ p _ _ _ => process_2_pixel_total f p)

theorem process_2_clarendon_aux (image : Image) (h w : Nat) (hd : Dims image h w)
    (hpos : 0 < h) (hh : h < 2147483648) (hw : w < 2147483648) (f : ℚ) :
    ∃ out, process_2 image f = some out ∧ Dims out h w ∧
      ∀ r c p, r < h → c < w → getPixel image r c = some p →
        SumFits p.blue p.red p.green →
        ∃ q, getPixel out r c = some q ∧
          (170 ≤ ((p.red + p.green + p.blue : Int) : ℚ) / 3 →
            ((-2147483392 ≤ p.red ∧ p.red ≤ 2147483647) → FitsInt (brighten p.red f) →
              q.red = truncate (brighten p.red f)) ∧
            ((-2147483392 ≤ p.green ∧ p.green ≤ 2147483647) → FitsInt (brighten p.green f) →
              q.green = truncate (brighten p.green f)) ∧
            ((-2147483392 ≤ p.blue ∧ p.blue ≤ 2147483647) → FitsInt (brighten p.blue f) →
              q.blue = truncate (brighten p.blue f))) ∧
          (((p.red + p.green + p.blue : Int) : ℚ) / 3 < 90 →
            (FitsInt (fmul (p.red : ℚ) f) → q.red = truncate (fmul (p.red : ℚ) f)) ∧
            (FitsInt (fmul (p.green : ℚ) f) → q.green = truncate (fmul (p.green : ℚ) f)) ∧
            (FitsInt (fmul (p.blue : ℚ) f) → q.blue = truncate (fmul (p.blue : ℚ) f))) ∧
          (90 ≤ ((p.red + p.green + p.blue : Int) : ℚ) / 3 →
            ((p.red + p.green + p.blue : Int) : ℚ) / 3 < 170 → q = p) := by
  obtain ⟨out, ho, hdo, hpx⟩ := process_2_spec image h w hd hpos hh hw f
  refine ⟨out, ho, hdo, ?_⟩
  intro r c p hr hc hp hs
  have hq := hpx r c p hr hc hp
  rw [process_2_pixel_eq f p hs] at hq
  refine ⟨_, hq, ?_, ?_, ?_⟩
  · intro havg
    rw [if_pos havg]
    refine ⟨?_, ?_, ?_⟩
    · intro hc' hf
      show toInt _ = _
      rw [isub_255_of_int _ hc']
      exact toInt_of_fits hf
    · intro hc' hf
      show toInt _ = _
      rw [isub_255_of_int _ hc']
      exact toInt_of_fits hf
    · intro hc' hf
      show toInt _ = _
      rw [isub_255_of_int _ hc']
      exact toInt_of_fits hf
  · intro havg
    have hn : ¬ (170 ≤ ((p.red + p.green + p.blue : Int) : ℚ) / 3) := by linarith
    rw [if_neg hn, if_pos havg]
    exact ⟨fun hf => toInt_of_fits hf, fun hf => toInt_of_fits hf, fun hf => toInt_of_fits hf⟩
  · intro h90 h170
    rw [if_neg (by linarith), if_neg (by linarith)]

theorem process_2_pixel_dark (f : ℚ) :
    process_2_pixel f ⟨50, 50, 50⟩ = some ⟨toInt (fmul ((50 : Int) : ℚ) f),
      toInt (fmul ((50 : Int) : ℚ) f), toInt (fmul ((50 : Int) : ℚ) f)⟩ := by
  rw [process_2_pixel_eq f ⟨50, 50, 50⟩ (by unfold SumFits; norm_num)]
  rw [if_neg (by norm_num), if_pos (by norm_num)]

theorem process_2_dark_large :
    process_2 darkRaster 100000000
      = some [[⟨-2147483648, -2147483648, -2147483648⟩]] := by
  have hm : fmul ((50 : Int) : ℚ) 100000000 = ((5000000000 : Int) : ℚ) := by
    have := fmul_int 50 100000000 (by norm_num)
    simpa using this
  have ht : toInt (fmul ((50 : Int) : ℚ) 100000000) = -2147483648 := by
    rw [hm]
    apply toInt_of_large
    rw [truncate_intCast]
    norm_num
  unfold process_2 darkRaster
  rw [for_each_pixel_single, process_2_pixel_dark, ht]
  rfl

theorem process_2_shadow : process_2 shadowRaster factor03 = some [[⟨3, 6, 9⟩]] := by
  have hp : process_2_pixel factor03 ⟨10, 20, 30⟩ = some ⟨3, 6, 9⟩ := by
    rw [process_2_pixel_eq factor03 ⟨10, 20, 30⟩ (by unfold SumFits; norm_num)]
    rw [if_neg (by norm_num), if_pos (by norm_num)]
    simp only [darken_shadow.1, darken_shadow.2.1, darken_shadow.2.2]
  unfold process_2 shadowRaster
  rw [for_each_pixel_single, hp]
  rfl

theorem process_2_wrapSum : process_2 wrapSumRaster 0 = some [[⟨0, 0, 0⟩]] := by
  have hs : iadd (iadd (255 : Int) 1500000015) 1500000015 = -1294967011 := by decide
  have c1 : ¬ (fdiv ((-1294967011 : Int) : ℚ) 3 ≥ 170) := by
    have a := fdiv_three_ge (-1294967011) 170 (by norm_num)
    rw [Int.cast_ofNat] at a
    rw [ge_iff_le, a]
    norm_num
  have c2 : fdiv ((-1294967011 : Int) : ℚ) 3 < 90 := by
    have a := fdiv_three_lt (-1294967011) 90 (by norm_num)
    rw [Int.cast_ofNat] at a
    rw [a]
    norm_num
  have z : ∀ c : ℚ, toInt (fmul c 0) = 0 := by
    intro c
    show toInt (round64 (c * 0)) = 0
    rw [mul_zero, round64_zero, toInt_zero]
  have hp : process_2_pixel 0 ⟨1500000015, 1500000015, 255⟩ = some ⟨0, 0, 0⟩ := by
    unfold process_2_pixel
    simp only [hs, if_neg c1, if_pos c2, z]
  unfold process_2 wrapSumRaster
  rw [for_each_pixel_single, hp]
  rfl

theorem toInt_half_2147483903 : toInt (2147483903 / 2) = 1073741951 := by
  have e : truncate (2147483903 / 2) = 1073741951 := by
    unfold truncate
    rw [if_pos (by norm_num), Int.floor_eq_iff]
    norm_num
  rw [toInt_of_fits (by unfold FitsInt; rw [e]; norm_num), e]

theorem process_2_extreme :
    process_2 extremeRaster (1 / 2) = some [[⟨1073741951, 1073741951, 1073741951⟩]] := by
  have i1 : isub 255 (-2147483648) = -2147483393 := by decide
  have i2 : isub 255 2147483647 = -2147483392 := by decide
  have m1 : fmul ((-2147483393 : Int) : ℚ) (1 / 2) = -2147483393 / 2 :=
    (round64_exact _ (-2147483393) 1 (by norm_num) (by norm_num)).trans (by norm_num)
  have s1 : fsub 255 (-2147483393 / 2) = 2147483903 / 2 :=
    (round64_exact (255 - -2147483393 / 2) 2147483903 1 (by norm_num) (by norm_num)).trans
      (by norm_num)
  have m2 : fmul ((-2147483392 : Int) : ℚ) (1 / 2) = -1073741696 :=
    (round64_exact _ (-1073741696) 0 (by norm_num) (by norm_num)).trans (by norm_num)
  have s2 : fsub 255 (-1073741696) = ((1073741951 : Int) : ℚ) :=
    (round64_exact (255 - -1073741696) 1073741951 0 (by norm_num) (by norm_num)).trans
      (by norm_num)
  have t2 : toInt ((1073741951 : Int) : ℚ) = 1073741951 :=
    toInt_intCast _ (by norm_num) (by norm_num)
  have hp : process_2_pixel (1 / 2) ⟨-2147483648, 2147483647, 2147483647⟩
      = some ⟨1073741951, 1073741951, 1073741951⟩ := by
    rw [process_2_pixel_eq _ _ (by unfold SumFits; norm_num)]
    rw [if_pos (by norm_num)]
    simp only [i1, i2, m1, s1, m2, s2, t2, toInt_half_2147483903]
  unfold process_2 extremeRaster
  rw [for_each_pixel_single, hp]
  rfl

theorem truncate_clarendon_samples :
    truncate ((50 : ℚ) * 100000000) = 5000000000 ∧
    truncate ((255 : ℚ) - (255 - 1500000015) * 0) = 255 ∧
    truncate ((255 : ℚ) - (255 - -2147483648) * (1 / 2)) = -1073741696 := by
  refine ⟨?_, ?_, ?_⟩
  · rw [show (50 : ℚ) * 100000000 = ((5000000000 : Int) : ℚ) by norm_num, truncate_intCast]
  · rw [show (255 : ℚ) - (255 - 1500000015) * 0 = ((255 : Int) : ℚ) by norm_num,
      truncate_intCast]
  · unfold truncate
    rw [if_neg (by norm_num), Int.ceil_eq_iff]
    norm_num

theorem clamp_white_large : max 0 (min 255 (truncate ((255 : ℚ) * 100000000))) = 255 := by
  rw [show (255 : ℚ) * 100000000 = ((25500000000 : Int) : ℚ) by norm_num, truncate_intCast]
  decide

/-! ## Transforms without clamping -/

theorem process_1_pixel_black (sqrt : ℚ → ℚ) (num_rows num_columns : Int) (row col : Nat) :
    process_1_pixel sqrt num_rows num_columns row col ⟨0, 0, 0⟩ = some ⟨0, 0, 0⟩ := by
  simp only [process_1_pixel, Int.cast_zero, fmul_zero_left, toInt_zero]

theorem truncate_neg_half_255 : truncate ((255 : ℚ) * ((2 - 3) / 2)) = -127 := by
  unfold truncate
  rw [if_neg (by norm_num), Int.ceil_eq_iff]
  norm_num

theorem toInt_neg_half_255 : toInt (-255 / 2) = -127 := by
  have e : truncate (-255 / 2) = -127 := by
    unfold truncate
    rw [if_neg (by norm_num), Int.ceil_eq_iff]
    norm_num
  rw [toInt_of_fits (by unfold FitsInt; rw [e]; norm_num), e]

theorem process_1_pixel_corner (sqrt : ℚ → ℚ) (hs : sqrt 9 = 3) :
    process_1_pixel sqrt ((2 : Nat) : Int) ((6 : Nat) : Int) 1 0 ⟨255, 255, 255⟩
      = some ⟨-127, -127, -127⟩ := by
  have h1 : fdiv 6 2 = 3 :=
    (round64_exact (6 / 2) 3 0 (by norm_num) (by norm_num)).trans (by norm_num)
  have h2 : fsub 0 3 = -3 :=
    (round64_exact (0 - 3) (-3) 0 (by norm_num) (by norm_num)).trans (by norm_num)
  have h3 : fmul (-3) (-3) = 9 :=
    (round64_exact (-3 * -3) 9 0 (by norm_num) (by norm_num)).trans (by norm_num)
  have h4 : fdiv 2 2 = 1 :=
    (round64_exact (2 / 2) 1 0 (by norm_num) (by norm_num)).trans (by norm_num)
  have h5 : fsub 1 1 = 0 := by
    show round64 (1 - 1) = 0
    rw [sub_self, round64_zero]
  have h6 : fmul 0 0 = 0 := fmul_zero_left 0
  have h7 : fadd 9 0 = 9 :=
    (round64_exact (9 + 0) 9 0 (by norm_num) (by norm_num)).trans (by norm_num)
  have h8 : fsub 2 3 = -1 :=
    (round64_exact (2 - 3) (-1) 0 (by norm_num) (by norm_num)).trans (by norm_num)
  have h9 : fdiv (-1) 2 = -1 / 2 :=
    round64_exact (-1 / 2) (-1) 1 (by norm_num) (by norm_num)
  have h10 : fmul 255 (-1 / 2) = -255 / 2 :=
    (round64_exact (255 * (-1 / 2)) (-255) 1 (by norm_num) (by norm_num)).trans (by norm_num)
  simp only [process_1_pixel, Nat.cast_ofNat, Int.cast_ofNat, Nat.cast_zero, Nat.cast_one,
    h1, h2, h3, h4, h5, h6, h7, hs, h8, h9, h10, toInt_neg_half_255]

theorem vignetteRaster_pixels (r c : Nat) (p : Pixel) (hr : r < 2) (hc : c < 6)
    (hp : getPixel vignetteRaster r c = some p) :
    (r = 1 ∧ c = 0 ∧ p = ⟨255, 255, 255⟩) ∨ (¬ (r = 1 ∧ c = 0) ∧ p = ⟨0, 0, 0⟩) := by
  interval_cases r <;> interval_cases c <;>
    first
    | exact Or.inl ⟨rfl, rfl, Option.some.inj (hp.symm.trans rfl)⟩
    | exact Or.inr ⟨by decide, Option.some.inj (hp.symm.trans rfl)⟩

theorem process_1_vignetteRaster (sqrt : ℚ → ℚ) (hs : sqrt 9 = 3) :
    ∃ out, process_1 sqrt vignetteRaster = some out ∧
      getPixel out 1 0 = some ⟨-127, -127, -127⟩ := by
  obtain ⟨out, ho, _, hpx⟩ := for_each_pixel_spec vignetteRaster 2 6 (by decide) (by decide)
    (by decide) (by decide) (process_1_pixel sqrt)
    (fun r c _ => if r = 1 ∧ c = 0 then ⟨-127, -127, -127⟩ else ⟨0, 0, 0⟩)
    (by
      intro r c p hr hc hp
      rcases vignetteRaster_pixels r c p hr hc hp with ⟨h1, h2, h3⟩ | ⟨h1, h2⟩
      · subst h1 h2 h3
        rw [process_1_pixel_corner sqrt hs]
        rfl
      · subst h2
        rw [process_1_pixel_black]
        show some _ = some (if r = 1 ∧ c = 0 then _ else _)
        rw [if_neg h1])
  refine ⟨out, ho, ?_⟩
  have := hpx 1 0 ⟨255, 255, 255⟩ (by decide) (by decide) rfl
  rw [this]
  rfl

theorem process_2_darkRaster : process_2 darkRaster 10 = some [[⟨500, 500, 500⟩]] := by
  have hm : fmul ((50 : Int) : ℚ) 10 = ((500 : Int) : ℚ) := by
    have := fmul_int 50 10 (by norm_num)
    simpa using this
  have ht : toInt (fmul ((50 : Int) : ℚ) 10) = 500 := by
    rw [hm]
    exact toInt_intCast _ (by norm_num) (by norm_num)
  unfold process_2 darkRaster
  rw [for_each_pixel_single, process_2_pixel_dark, ht]
  rfl

theorem lighten_zero_two : lighten 0 2 = -255 := by
  have hm : fmul ((255 : Int) : ℚ) 2 = ((510 : Int) : ℚ) := by
    have := fmul_int 255 2 (by norm_num)
    simpa using this
  have hb : fsub 255 ((510 : Int) : ℚ) = ((-255 : Int) : ℚ) := by
    have := fsub_int 255 510 (by norm_num)
    simpa using this
  unfold lighten
  rw [show isub 255 0 = 255 by decide, hm, hb]
  exact toInt_intCast _ (by norm_num) (by norm_num)

theorem process_8_blackRaster : process_8 blackRaster 2 = some [[⟨-255, -255, -255⟩]] := by
  have hp : process_8_pixel 2 ⟨0, 0, 0⟩ = some ⟨-255, -255, -255⟩ := by
    simp only [process_8_pixel, lighten_zero_two]
  unfold process_8 blackRaster
  rw [for_each_pixel_single, hp]
  rfl

theorem truncate_500 : truncate ((50 : ℚ) * 10) = 500 := by
  have e : (50 : ℚ) * 10 = ((500 : Int) : ℚ) := by norm_num
  rw [e, truncate_intCast]

theorem truncate_neg_255 : truncate ((255 : ℚ) - (255 - 0) * 2) = -255 := by
  have e : (255 : ℚ) - (255 - 0) * 2 = ((-255 : Int) : ℚ) := by norm_num
  rw [e, truncate_intCast]


/-! ## Repeated quarter turns -/

theorem process_4_times_add (m n : Nat) (image : Image) :
    process_4_times (m + n) image = (process_4_times m image).bind (process_4_times n) := by
  induction n with
  | zero =>
    have e : process_4_times 0 = some := rfl
    rw [e, Option.bind_some]
    rfl
  | succ n ih =>
    show (process_4_times (m + n) image).bind process_4 = _
    rw [ih, Option.bind_assoc]
    rfl

theorem process_4_times_total (image : Image) (h w : Nat) (hd : Dims image h w) (hpos : 0 < h)
    (hwpos : 0 < w) (hh : h < 2147483648) (hw : w < 2147483648) (n : Nat) :
    ∃ out, process_4_times n image = some out ∧
      ((n % 2 = 0 ∧ Dims out h w) ∨ (n % 2 = 1 ∧ Dims out w h)) := by
  induction n with
  | zero => exact ⟨image, rfl, Or.inl ⟨rfl, hd⟩⟩
  | succ n ih =>
    obtain ⟨o, ho, hdo⟩ := ih
    show ∃ out, (process_4_times n image).bind process_4 = some out ∧ _
    rw [ho, Option.some_bind]
    rcases hdo with ⟨hn, hdo⟩ | ⟨hn, hdo⟩
    · obtain ⟨o', ho', hdo', _⟩ := process_4_spec o h w hdo hpos hh hw
      exact ⟨o', ho', Or.inr ⟨by omega, hdo'⟩⟩
    · obtain ⟨o', ho', hdo', _⟩ := process_4_spec o w h hdo hwpos hw hh
      exact ⟨o', ho', Or.inl ⟨by omega, hdo'⟩⟩

theorem process_4_times_four (image : Image) (h w : Nat) (hd : Dims image h w) (hpos : 0 < h)
    (hwpos : 0 < w) (hh : h < 2147483648) (hw : w < 2147483648) :
    process_4_times 4 image = some image :=
  process_4_four_times image h w hd hpos hwpos hh hw

theorem process_4_times_mod (image : Image) (h w : Nat) (hd : Dims image h w) (hpos : 0 < h)
    (hwpos : 0 < w) (hh : h < 2147483648) (hw : w < 2147483648) (n : Nat) :
    process_4_times n image = process_4_times (n % 4) image := by
  induction n using Nat.strong_induction_on with
  | _ n ih =>
    rcases Nat.lt_or_ge n 4 with hlt | hge
    · rw [Nat.mod_eq_of_lt hlt]
    · have e : n = 4 + (n - 4) := by omega
      have hm : n % 4 = (n - 4) % 4 := by omega
      rw [hm, ← ih (n - 4) (by omega)]
      conv_lhs => rw [e]
      rw [process_4_times_add, process_4_times_four image h w hd hpos hwpos hh hw,
        Option.some_bind]

theorem process_5_add (image : Image) (h w : Nat) (hd : Dims image h w) (hpos : 0 < h)
    (hwpos : 0 < w) (hh : h < 2147483648) (hw : w < 2147483648) (a b : Int)
    (ha : 0 ≤ a) (hb : 0 ≤ b) (hab : (a + b) * 90 < 2147483648) :
    (process_5 image a).bind (fun rotated => process_5 rotated b) = process_5 image (a + b) ∧
    ∃ out, process_5 image (a + b) = some out := by
  have e1 := (process_5_of_nonneg image a ha (by omega)).2
  have e3 := (process_5_of_nonneg image (a + b) (by omega) hab).2
  have e2 : (fun rotated => process_5 rotated b) = process_4_times (b % 4).toNat := by
    funext rotated
    exact (process_5_of_nonneg rotated b hb (by omega)).2
  rw [e1, e2, e3, ← process_4_times_add,
    process_4_times_mod image h w hd hpos hwpos hh hw ((a % 4).toNat + (b % 4).toNat)]
  have hm : ((a % 4).toNat + (b % 4).toNat) % 4 = ((a + b) % 4).toNat := by omega
  rw [hm]
  obtain ⟨out, ho, _⟩ := process_4_times_total image h w hd hpos hwpos hh hw
    ((a + b) % 4).toNat
  exact ⟨rfl, out, ho⟩

theorem getPixel_reverse (image : Image) (h w : Nat) (hd : Dims image h w) (r c : Nat)
    (hr : r < h) (hc : c < w) :
    getPixel (image.reverse.map List.reverse) r c = getPixel image (h - 1 - r) (w - 1 - c) := by
  obtain ⟨row, hrow, hlen⟩ := dims_getElem? hd (show h - 1 - r < h by omega)
  have e1 : (image.reverse.map List.reverse)[r]? = some row.reverse := by
    rw [List.getElem?_map, List.getElem?_reverse (by rw [hd.1]; exact hr), hd.1, hrow]
    rfl
  unfold getPixel
  rw [e1, hrow]
  show row.reverse[c]? = row[w - 1 - c]?
  rw [List.getElem?_reverse (by rw [hlen]; exact hc), hlen]

theorem dims_reverse (image : Image) (h w : Nat) (hd : Dims image h w) :
    Dims (image.reverse.map List.reverse) h w := by
  refine ⟨by simp [hd.1], ?_⟩
  intro row hrow
  obtain ⟨r, hr, rfl⟩ := List.mem_map.mp hrow
  rw [List.length_reverse]
  exact hd.2 r (List.mem_reverse.mp hr)

theorem process_5_two (image : Image) (h w : Nat) (hd : Dims image h w) (hpos : 0 < h)
    (hwpos : 0 < w) (hh : h < 2147483648) (hw : w < 2147483648) :
    ∃ out, process_5 image 2 = some out ∧ Dims out h w ∧
      (∀ row col, row < h → col < w →
        getPixel out row col = getPixel image (h - 1 - row) (w - 1 - col)) ∧
      out = image.reverse.map List.reverse := by
  obtain ⟨o1, e1, d1, p1⟩ := process_4_spec image h w hd hpos hh hw
  obtain ⟨o2, e2, d2, p2⟩ := process_4_spec o1 w h d1 hwpos hw hh
  have e5 : process_5 image 2 = (process_4 image).bind process_4 :=
    (process_5_of_nonneg image 2 (by norm_num) (by norm_num)).2
  have hpix : ∀ row col, row < h → col < w →
      getPixel o2 row col = getPixel image (h - 1 - row) (w - 1 - col) := by
    intro row col hr hc
    obtain ⟨p, hp⟩ := getPixel_of_dims hd (show h - 1 - row < h by omega)
      (show w - 1 - col < w by omega)
    have q1 := p1 (h - 1 - row) (w - 1 - col) p (by omega) (by omega) hp
    have q2 := p2 (w - 1 - col) (h - 1 - (h - 1 - row)) p (by omega) (by omega) q1
    have i1 : h - 1 - (h - 1 - row) = row := by omega
    have i2 : w - 1 - (w - 1 - col) = col := by omega
    rw [i1, i2] at q2
    rw [q2, hp]
  refine ⟨o2, by rw [e5, e1, Option.some_bind, e2], d2, hpix, ?_⟩
  apply image_ext d2 (dims_reverse image h w hd)
  intro r c hr hc
  rw [hpix r c hr hc, getPixel_reverse image h w hd r c hr hc]

theorem process_5_guard (N : Int) (h1 : -2147483648 ≤ N * 90) (h2 : N * 90 < 2147483648) :
    imul N 90 = N * 90 ∧ Int.tmod (imul N 90) 90 = 0 ∧ process_5_invalid N = false := by
  have ha : imul N 90 = N * 90 := wrap32_of_range h1 h2
  have h90 : Int.tmod (N * 90) 90 = 0 := by
    rcases Int.lt_or_le N 0 with hn | hn
    · rw [tmod_of_neg (by omega) (by norm_num)]
      omega
    · rw [Int.tmod_eq_emod (by omega) (by norm_num)]
      omega
  refine ⟨ha, by rw [ha]; exact h90, ?_⟩
  simp only [process_5_invalid, ha, h90, ne_eq, not_true_eq_false, decide_False]


/-! ## Enlargement with scales that are not negative -/

theorem wrap32_le_of_nonneg {a : Int} (h0 : 0 ≤ a) (h1 : 0 ≤ wrap32 a) : wrap32 a ≤ a := by
  unfold wrap32 at h1 ⊢
  omega

theorem process_6_source (d : Nat) (scale : Int) (hs : 0 ≤ scale) (hsz : d < 2147483648)
    (k : Nat) (hk : (k : Int) < imul scale (wrap32 d)) :
    0 < scale.toNat ∧ scale = (scale.toNat : Int) ∧ k / scale.toNat < d := by
  rw [wrap32_natCast hsz] at hk
  have hne : scale ≠ 0 := by
    intro h0
    rw [h0] at hk
    have : imul 0 (d : Int) = 0 := by unfold imul; rw [Int.zero_mul]; rfl
    omega
  have hpos : 0 < scale.toNat := by omega
  have hcast : scale = (scale.toNat : Int) := (Int.toNat_of_nonneg hs).symm
  refine ⟨hpos, hcast, ?_⟩
  have hP : 0 ≤ scale * (d : Int) := mul_nonneg hs (by omega)
  have hle : imul scale (d : Int) ≤ scale * (d : Int) :=
    wrap32_le_of_nonneg hP (by unfold imul at hk; omega)
  have hlt : (k : Int) < ((d * scale.toNat : Nat) : Int) := by
    push_cast
    rw [← hcast, mul_comm]
    omega
  exact (Nat.div_lt_iff_lt_mul hpos).mpr (by exact_mod_cast hlt)

theorem process_6_of_nonneg (image : Image) (h w : Nat) (hd : Dims image h w) (hpos : 0 < h)
    (hh : h < 2147483648) (hw : w < 2147483648) (x_scale y_scale : Int)
    (hx : 0 ≤ x_scale) (hy : 0 ≤ y_scale)
    (hR : 0 ≤ imul y_scale (wrap32 h)) (hC : 0 ≤ imul x_scale (wrap32 w)) :
    ∃ out, process_6 image x_scale y_scale = some out ∧
      Dims out (imul y_scale (wrap32 h)).toNat (imul x_scale (wrap32 w)).toNat ∧
      ∀ row col, row < (imul y_scale (wrap32 h)).toNat → col < (imul x_scale (wrap32 w)).toNat →
        getPixel out row col = getPixel image (row / y_scale.toNat) (col / x_scale.toNat) := by
  obtain ⟨row0, hrow0, hlen0⟩ := dims_getElem? hd hpos
  generalize hRd : (imul y_scale (wrap32 h)).toNat = R
  generalize hCd : (imul x_scale (wrap32 w)).toNat = C
  have hsrc : ∀ r c, r < R → c < C →
      (0 < y_scale.toNat ∧ y_scale = (y_scale.toNat : Int) ∧ r / y_scale.toNat < h) ∧
      (0 < x_scale.toNat ∧ x_scale = (x_scale.toNat : Int) ∧ c / x_scale.toNat < w) := by
    intro r c hr hc
    exact ⟨process_6_source h y_scale hy hh r (by omega),
      process_6_source w x_scale hx hw c (by omega)⟩
  have key := fill_loops R C R C (process_6_pixel image x_scale y_scale)
    (fun r c => (r, c))
    (fun r c => (getPixel image (r / y_scale.toNat) (c / x_scale.toNat)).getD Pixel.zero)
    (List.replicate R (List.replicate C Pixel.zero))
    (dims_alloc R C Pixel.zero)
    (fun r c hr hc => ⟨hr, hc⟩)
    (fun r c r' c' _ _ _ _ hp => ⟨congrArg Prod.fst hp, congrArg Prod.snd hp⟩)
    (by
      intro r c img hr hc _
      obtain ⟨⟨hy1, hy2, hy3⟩, ⟨hx1, hx2, hx3⟩⟩ := hsrc r c hr hc
      obtain ⟨p, hp⟩ := getPixel_of_dims hd hy3 hx3
      have e1 : idiv (r : Int) y_scale = some ((r / y_scale.toNat : Nat) : Int) := by
        conv_lhs => rw [hy2]
        exact idiv_natCast r _ hy1
      have e2 : idiv (c : Int) x_scale = some ((c / x_scale.toNat : Nat) : Int) := by
        conv_lhs => rw [hx2]
        exact idiv_natCast c _ hx1
      simp only [process_6_pixel, e1, e2, toIndex_natCast, hp, Option.some_bind,
        Option.getD_some])
  obtain ⟨out, h1, h2, h3⟩ := key
  refine ⟨out, ?_, h2, ?_⟩
  · unfold process_6
    rw [hrow0]
    show process_6_loops image x_scale y_scale (imul y_scale (wrap32 image.length))
      (imul x_scale (wrap32 row0.length)) = _
    rw [hlen0, hd.1]
    have eR : imul y_scale (wrap32 h) = (R : Int) := by omega
    have eC : imul x_scale (wrap32 w) = (C : Int) := by omega
    rw [eR, eC]
    unfold process_6_loops
    rw [allocImage_nat]
    simp only [upTo, Int.toNat_ofNat]
    exact h1
  · intro r c hr hc
    obtain ⟨⟨_, _, hy3⟩, ⟨_, _, hx3⟩⟩ := hsrc r c hr hc
    obtain ⟨p, hp⟩ := getPixel_of_dims hd hy3 hx3
    have := h3 r c hr hc
    simp only [hp, Option.getD_some] at this
    rw [this, hp]

theorem process_6_bad_alloc (image : Image) (h w : Nat) (hd : Dims image h w) (hpos : 0 < h)
    (x_scale y_scale : Int)
    (hneg : imul y_scale (wrap32 h) < 0 ∨ imul x_scale (wrap32 w) < 0) :
    process_6 image x_scale y_scale = none := by
  obtain ⟨row0, hrow0, hlen0⟩ := dims_getElem? hd hpos
  unfold process_6
  rw [hrow0]
  show process_6_loops image x_scale y_scale (imul y_scale (wrap32 image.length))
    (imul x_scale (wrap32 row0.length)) = _
  rw [hlen0, hd.1]
  unfold process_6_loops allocImage
  rw [if_pos hneg]

theorem process_6_in_bounds (image : Image) (h w : Nat) (hd : Dims image h w) (hpos : 0 < h)
    (hh : h < 2147483648) (hw : w < 2147483648) (x_scale y_scale : Int)
    (hx : 0 ≤ x_scale) (hy : 0 ≤ y_scale) :
    (∀ row col : Nat, (row : Int) < imul y_scale (wrap32 h) →
      (col : Int) < imul x_scale (wrap32 w) →
      ∃ i j : Nat, idiv row y_scale = some (i : Int) ∧ idiv col x_scale = some (j : Int) ∧
        i < h ∧ j < w ∧ ∃ p, getPixel image i j = some p) ∧
    (0 ≤ imul y_scale (wrap32 h) → 0 ≤ imul x_scale (wrap32 w) →
      ∃ out, process_6 image x_scale y_scale = some out ∧
        Dims out (imul y_scale (wrap32 h)).toNat (imul x_scale (wrap32 w)).toNat ∧
        (∀ row col, row < (imul y_scale (wrap32 h)).toNat →
          col < (imul x_scale (wrap32 w)).toNat →
          getPixel out row col = getPixel image (row / y_scale.toNat) (col / x_scale.toNat)) ∧
        (x_scale = 0 ∨ y_scale = 0 → ∀ row col, getPixel out row col = none)) ∧
    (imul y_scale (wrap32 h) < 0 ∨ imul x_scale (wrap32 w) < 0 →
      process_6 image x_scale y_scale = none) := by
  refine ⟨?_, ?_, process_6_bad_alloc image h w hd hpos x_scale y_scale⟩
  · intro row col hr hc
    obtain ⟨hy1, hy2, hy3⟩ := process_6_source h y_scale hy hh row hr
    obtain ⟨hx1, hx2, hx3⟩ := process_6_source w x_scale hx hw col hc
    refine ⟨row / y_scale.toNat, col / x_scale.toNat, ?_, ?_, hy3, hx3,
      getPixel_of_dims hd hy3 hx3⟩
    · conv_lhs => rw [hy2]
      exact idiv_natCast row _ hy1
    · conv_lhs => rw [hx2]
      exact idiv_natCast col _ hx1
  · intro hR hC
    obtain ⟨out, h1, h2, h3⟩ := process_6_of_nonneg image h w hd hpos hh hw x_scale y_scale
      hx hy hR hC
    refine ⟨out, h1, h2, h3, ?_⟩
    intro hzero row col
    cases hq : getPixel out row col with
    | none => rfl
    | some q =>
      obtain ⟨hr, hc⟩ := getPixel_lt_of_dims h2 hq
      have z : ∀ a : Int, imul 0 a = 0 := by
        intro a
        unfold imul
        rw [Int.zero_mul]
        rfl
      rcases hzero with h0 | h0
      · rw [h0, z] at hc
        exact absurd hc (Nat.not_lt_zero col)
      · rw [h0, z] at hr
        exact absurd hr (Nat.not_lt_zero row)


/-! ## Further properties of the codec -/

theorem roundtrip_wideRaster : (write_image wideRaster).bind read_image = some [] := by
  have hd : Dims wideRaster 1 715827883 := dims_single_row _ _
  have hw := write_image_eq wideRaster 1 715827883 hd (by norm_num) (by norm_num) (by norm_num)
  have hhd := headerOf_encoded 715827883 1 (specPixelArray wideRaster 715827883)
  rw [hw, Option.some_bind]
  apply read_image_of_mismatch
  rw [hhd]
  decide

theorem roundtrip_mod_256 (image : Image) (h w : Nat) (hd : Dims image h w) (hpos : 0 < h)
    (hh : h < 2147483648) (hsz : encodedSize w h < 2147483648) :
    ∃ out, (write_image image).bind read_image = some out ∧ Dims out h w ∧
      ∀ i j p, getPixel image i j = some p →
        getPixel out i j = some ⟨p.red % 256, p.green % 256, p.blue % 256⟩ ∧
        (0 ≤ p.red % 256 ∧ p.red % 256 ≤ 255) ∧ (0 ≤ p.green % 256 ∧ p.green % 256 ≤ 255) ∧
        (0 ≤ p.blue % 256 ∧ p.blue % 256 ≤ 255) := by
  refine ⟨truncImage image, roundtrip_aux image h w hd hpos hh hsz,
    dims_truncImage image h w hd, ?_⟩
  intro i j p hp
  refine ⟨?_, by omega, by omega, by omega⟩
  rw [getPixel_truncImage, hp]
  rfl

theorem byteAt_nonneg (data : List Byte) (k : Nat) : 0 ≤ byteAt data k := by
  unfold byteAt
  omega

theorem read_image_well_formed (file : List Byte) (h30 : 30 ≤ file.length)
    (hchk : (headerOf file).file_size = (headerOf file).layout_size)
    (hlt : specLayoutSize (headerOf file) < 2147483648)
    (hbpp : 24 ≤ (headerOf file).bits_per_pixel)
    (hs : 0 ≤ (headerOf file).start) (hw : 1 ≤ (headerOf file).width)
    (hh : 1 ≤ (headerOf file).height)
    (hlen : (headerOf file).file_size ≤ file.length) :
    ∃ img, read_image file = some img ∧
      Dims img (headerOf file).height.toNat (headerOf file).width.toNat ∧ InRange img := by
  have hsize : (headerOf file).file_size = specLayoutSize (headerOf file) := by
    rw [hchk]
    exact (layout_size_eq_spec _ hs (by omega) (by omega) (by omega) hlt).1
  obtain ⟨img, h1, h2, h3⟩ := read_image_layout_aux file h30 hsize hbpp hs (by omega) (by omega)
    hlen
  refine ⟨img, h1, h2, ?_⟩
  apply inRange_of_getPixel
  intro r c q hq
  obtain ⟨hr, hc⟩ := getPixel_lt_of_dims h2 hq
  have := h3 r c (by omega) (by omega)
  rw [hq] at this
  rw [Option.some.inj this]
  unfold pixelAt
  have b1 := byteAt_lt file (pixelOffset (headerOf file) r c + 2).toNat
  have b2 := byteAt_lt file (pixelOffset (headerOf file) r c + 1).toNat
  have b3 := byteAt_lt file (pixelOffset (headerOf file) r c).toNat
  have n1 := byteAt_nonneg file (pixelOffset (headerOf file) r c + 2).toNat
  have n2 := byteAt_nonneg file (pixelOffset (headerOf file) r c + 1).toNat
  have n3 := byteAt_nonneg file (pixelOffset (headerOf file) r c).toNat
  simp only
  omega


/-! ## The fourth byte of a 32-bit pixel -/

theorem byteAt_congr (F G : List Byte) (k : Nat) (h : F[k]? = G[k]?) :
    byteAt F k = byteAt G k := by
  unfold byteAt
  rw [List.getD_eq_getElem?_getD, List.getD_eq_getElem?_getD, h]

theorem leValue_congr (F G : List Byte) (off n : Nat)
    (h : ∀ i, i < n → F[off + i]? = G[off + i]?) : leValue F off n = leValue G off n := by
  unfold leValue
  congr 1
  apply List.map_congr_left
  intro i hi
  rw [byteAt_congr F G (off + i) (h i (List.mem_range.mp hi))]

theorem headerOf_congr (F G : List Byte) (hF : 30 ≤ F.length) (hG : 30 ≤ G.length)
    (h : ∀ k, k < 30 → F[k]? = G[k]?) : headerOf G = headerOf F := by
  unfold headerOf
  rw [read_header_eq F hF, read_header_eq G hG,
    leValue_congr F G 2 4 (fun i hi => h _ (by omega)),
    leValue_congr F G 10 4 (fun i hi => h _ (by omega)),
    leValue_congr F G 18 4 (fun i hi => h _ (by omega)),
    leValue_congr F G 22 4 (fun i hi => h _ (by omega)),
    leValue_congr F G 28 2 (fun i hi => h _ (by omega))]

theorem specPadding_mul_four (w : Int) (hw : 0 ≤ w) : specPadding (w * 4) = 0 := by
  unfold specPadding
  have e : Int.tmod (w * 4) 4 = 0 := by
    rw [tmod_four_of_nonneg (mul_nonneg hw (by norm_num))]
    omega
  rw [e]
  decide

theorem pixelOffset_32 (hd : Header) (hb : hd.bits_per_pixel = 32) (hw : 0 ≤ hd.width)
    (i j : Nat) :
    pixelOffset hd i j = hd.start + 4 * ((hd.height - 1 - i) * hd.width + j) := by
  unfold pixelOffset
  rw [hb, show Int.tdiv 32 8 = 4 by decide, specPadding_mul_four hd.width hw]
  ring

theorem read_image_alpha (F G : List Byte) (h30 : 30 ≤ F.length) (hFG : G.length = F.length)
    (hbpp : (headerOf F).bits_per_pixel = 32)
    (hsize : (headerOf F).file_size = specLayoutSize (headerOf F))
    (hs : 30 ≤ (headerOf F).start) (hw : 0 ≤ (headerOf F).width)
    (hh : 0 ≤ (headerOf F).height)
    (hlen : (headerOf F).file_size ≤ F.length)
    (hdiff : ∀ k : Nat, F[k]? ≠ G[k]? →
      ∃ i j : Nat, (i : Int) < (headerOf F).height ∧ (j : Int) < (headerOf F).width ∧
        (k : Int) = pixelOffset (headerOf F) i j + 3) :
    read_image G = read_image F ∧
    ∃ img, read_image F = some img ∧
      Dims img (headerOf F).height.toNat (headerOf F).width.toNat ∧
      ∀ i j : Nat, (i : Int) < (headerOf F).height → (j : Int) < (headerOf F).width →
        getPixel img i j = some (pixelAt F
          ((headerOf F).start + 4 * (((headerOf F).height - 1 - i) * (headerOf F).width + j))) := by
  have hoff : ∀ i j : Nat, (i : Int) < (headerOf F).height → (j : Int) < (headerOf F).width →
      0 ≤ ((headerOf F).height - 1 - i) * (headerOf F).width + j := by
    intro i j hi hj
    have : 0 ≤ ((headerOf F).height - 1 - i) * (headerOf F).width :=
      mul_nonneg (by omega) hw
    omega
  have hsame : ∀ k : Nat, (∀ i j : Nat, (i : Int) < (headerOf F).height →
      (j : Int) < (headerOf F).width → (k : Int) ≠ pixelOffset (headerOf F) i j + 3) →
      F[k]? = G[k]? := by
    intro k hk
    by_contra hne
    obtain ⟨i, j, hi, hj, e⟩ := hdiff k hne
    exact hk i j hi hj e
  have hhead : headerOf G = headerOf F := by
    apply headerOf_congr F G h30 (by omega)
    intro k hk
    apply hsame
    intro i j hi hj
    rw [pixelOffset_32 _ hbpp hw]
    have := hoff i j hi hj
    omega
  obtain ⟨a, ha, da, pa⟩ := read_image_layout_aux F h30 hsize (by omega) (by omega) hw hh hlen
  obtain ⟨b, hb, db, pb⟩ := read_image_layout_aux G (by omega) (by rw [hhead]; exact hsize)
    (by rw [hhead]; omega) (by rw [hhead]; omega) (by rw [hhead]; exact hw)
    (by rw [hhead]; exact hh) (by rw [hhead, hFG]; exact hlen)
  rw [hhead] at db pb
  have hpx : ∀ i j : Nat, (i : Int) < (headerOf F).height → (j : Int) < (headerOf F).width →
      pixelAt G (pixelOffset (headerOf F) i j) = pixelAt F (pixelOffset (headerOf F) i j) := by
    intro i j hi hj
    have hp := pixelOffset_32 (headerOf F) hbpp hw i j
    have h0 := hoff i j hi hj
    have key : ∀ c : Nat, c < 3 →
        byteAt G (pixelOffset (headerOf F) i j + c).toNat
          = byteAt F (pixelOffset (headerOf F) i j + c).toNat := by
      intro c hc
      symm
      apply byteAt_congr
      apply hsame
      intro i' j' hi' hj'
      rw [pixelOffset_32 _ hbpp hw i' j']
      have h0' := hoff i' j' hi' hj'
      rw [Int.toNat_of_nonneg (by omega), hp]
      omega
    unfold pixelAt
    have k0 := key 0 (by omega)
    have k1 := key 1 (by omega)
    have k2 := key 2 (by omega)
    simp only [Nat.cast_zero, add_zero, Nat.cast_one, Nat.cast_ofNat] at k0 k1 k2
    rw [k0, k1, k2]
  have hab : b = a := by
    apply image_ext db da
    intro i j hi hj
    rw [pa i j (by omega) (by omega), pb i j (by omega) (by omega),
      hpx i j (by omega) (by omega)]
  refine ⟨by rw [hb, ha, hab], a, ha, da, ?_⟩
  intro i j hi hj
  rw [pa i j hi hj, pixelOffset_32 _ hbpp hw]


/-! ## Vignette -/

theorem fadd_comm (a b : ℚ) : fadd a b = fadd b a := by
  unfold fadd
  rw [add_comm]

theorem process_1_pixel_eq (sqrt : ℚ → ℚ) (h w row col : Nat) (p : Pixel) :
    process_1_pixel sqrt (h : Int) (w : Int) row col p
      = some ⟨toInt (fmul (p.red : ℚ) (vignetteFactor sqrt h w row col)),
          toInt (fmul (p.green : ℚ) (vignetteFactor sqrt h w row col)),
          toInt (fmul (p.blue : ℚ) (vignetteFactor sqrt h w row col))⟩ := by
  unfold process_1_pixel vignetteFactor centreDistance
  simp only [Int.cast_natCast]
  rw [fadd_comm]

theorem process_1_spec (sqrt : ℚ → ℚ) (image : Image) (h w : Nat) (hd : Dims image h w)
    (hpos : 0 < h) (hh : h < 2147483648) (hw : w < 2147483648) :
    ∃ out, process_1 sqrt image = some out ∧ Dims out h w ∧
      ∀ row col p, row < h → col < w → getPixel image row col = some p →
        getPixel out row col
          = some ⟨toInt (fmul (p.red : ℚ) (vignetteFactor sqrt h w row col)),
              toInt (fmul (p.green : ℚ) (vignetteFactor sqrt h w row col)),
              toInt (fmul (p.blue : ℚ) (vignetteFactor sqrt h w row col))⟩ :=
  for_each_pixel_spec image h w hd hpos hh hw (process_1_pixel sqrt)
    (fun row col p => ⟨toInt (fmul (p.red : ℚ) (vignetteFactor sqrt h w row col)),
      toInt (fmul (p.green : ℚ) (vignetteFactor sqrt h w row col)),
      toInt (fmul (p.blue : ℚ) (vignetteFactor sqrt h w row col))⟩)
    (fun row col p _ _ _ => process_1_pixel_eq sqrt h w row col p)

theorem pixel_map_total (image : Image) (h w : Nat) (hd : Dims image h w) (hpos : 0 < h)
    (hh : h < 2147483648) (hw : w < 2147483648) (f : Pixel → Option Pixel)
    (hf : ∀ p, ∃ q, f p = some q) :
    ∃ out, for_each_pixel image (fun _ _ _ _ => f) = some out ∧ Dims out h w := by
  obtain ⟨out, h1, h2, _⟩ := for_each_pixel_spec image h w hd hpos hh hw (fun _ _ _ _ => f)
    (fun _ _ p => (f p).getD Pixel.zero)
    (by
      intro r c p _ _ _
      obtain ⟨q, hq⟩ := hf p
      simp only [hq, Option.getD_some])
  exact ⟨out, h1, h2⟩

theorem process_3_pixel_total (p : Pixel) : ∃ q, process_3_pixel p = some q :=
  ⟨_, rfl⟩

theorem process_8_pixel_total (f : ℚ) (p : Pixel) : ∃ q, process_8_pixel f p = some q :=
  ⟨_, rfl⟩

theorem process_9_pixel_total (f : ℚ) (p : Pixel) : ∃ q, process_9_pixel f p = some q :=
  ⟨_, rfl⟩

theorem process_4_dims (image : Image) (h w : Nat) (hd : Dims image h w)
    (hh : h < 2147483648) (hw : w < 2147483648) (out : Image)
    (ho : process_4 image = some out) : 0 < h ∧ Dims out w h := by
  rcases Nat.eq_zero_or_pos h with h0 | hpos
  · have hnil : image = [] := List.eq_nil_of_length_eq_zero (by rw [hd.1, h0])
    rw [hnil] at ho
    exact absurd ho (by simp [process_4])
  · obtain ⟨o, e, d, _⟩ := process_4_spec image h w hd hpos hh hw
    rw [e] at ho
    rw [← Option.some.inj ho]
    exact ⟨hpos, d⟩

theorem process_5_dims (image : Image) (h w : Nat) (hd : Dims image h w)
    (hh : h < 2147483648) (hw : w < 2147483648) (N : Int) (out : Image)
    (ho : process_5 image N = some out) : Dims out h w ∨ Dims out w h := by
  unfold process_5 at ho
  simp only at ho
  split at ho
  · rw [← Option.some.inj ho]; exact Or.inl hd
  · split at ho
    · rw [← Option.some.inj ho]; exact Or.inl hd
    · split at ho
      · exact Or.inr (process_4_dims image h w hd hh hw out ho).2
      · split at ho
        · obtain ⟨o1, e1, ho⟩ := Option.bind_eq_some.mp ho
          have d1 := (process_4_dims image h w hd hh hw o1 e1).2
          exact Or.inl (process_4_dims o1 w h d1 hw hh out ho).2
        · obtain ⟨o2, e2, ho⟩ := Option.bind_eq_some.mp ho
          obtain ⟨o1, e1, e2⟩ := Option.bind_eq_some.mp e2
          have d1 := (process_4_dims image h w hd hh hw o1 e1).2
          have d2 := (process_4_dims o1 w h d1 hw hh o2 e2).2
          exact Or.inr (process_4_dims o2 h w d2 hh hw out ho).2

theorem process_5_total (image : Image) (h w : Nat) (hd : Dims image h w) (hpos : 0 < h)
    (hwpos : 0 < w) (hh : h < 2147483648) (hw : w < 2147483648) (N : Int) :
    ∃ out, process_5 image N = some out := by
  obtain ⟨o1, e1, d1, _⟩ := process_4_spec image h w hd hpos hh hw
  obtain ⟨o2, e2, d2, _⟩ := process_4_spec o1 w h d1 hwpos hw hh
  obtain ⟨o3, e3, _, _⟩ := process_4_spec o2 h w d2 hpos hh hw
  unfold process_5
  simp only
  split
  · exact ⟨_, rfl⟩
  · split
    · exact ⟨_, rfl⟩
    · split
      · exact ⟨o1, e1⟩
      · split
        · exact ⟨o2, by rw [e1, Option.some_bind, e2]⟩
        · exact ⟨o3, by rw [e1, Option.some_bind, e2, Option.some_bind, e3]⟩

theorem process_6_total (image : Image) (h w : Nat) (hd : Dims image h w) (hpos : 0 < h)
    (hh : h < 2147483648) (hw : w < 2147483648) (x_scale y_scale : Int)
    (hx : 0 ≤ x_scale) (hy : 0 ≤ y_scale)
    (hR : y_scale * h < 2147483648) (hC : x_scale * w < 2147483648) :
    ∃ out, process_6 image x_scale y_scale = some out ∧
      Dims out (y_scale * h).toNat (x_scale * w).toNat := by
  have eR : imul y_scale (wrap32 h) = y_scale * h := by
    rw [wrap32_natCast hh]
    exact wrap32_of_range (by have := mul_nonneg hy (Int.natCast_nonneg h); omega) hR
  have eC : imul x_scale (wrap32 w) = x_scale * w := by
    rw [wrap32_natCast hw]
    exact wrap32_of_range (by have := mul_nonneg hx (Int.natCast_nonneg w); omega) hC
  obtain ⟨out, h1, h2, _⟩ := process_6_of_nonneg image h w hd hpos hh hw x_scale y_scale hx hy
    (by rw [eR]; exact mul_nonneg hy (Int.natCast_nonneg h))
    (by rw [eC]; exact mul_nonneg hx (Int.natCast_nonneg w))
  rw [eR, eC] at h2
  exact ⟨out, h1, h2⟩

theorem transforms_total_aux (sqrt : ℚ → ℚ) (image : Image) (h w : Nat) (hd : Dims image h w)
    (hpos : 0 < h) (hh : h < 2147483648) (hw : w < 2147483648) :
    (∃ out, process_1 sqrt image = some out ∧ Dims out h w) ∧
    (∀ f : ℚ, ∃ out, process_2 image f = some out ∧ Dims out h w) ∧
    (∃ out, process_3 image = some out ∧ Dims out h w) ∧
    (∃ out, process_4 image = some out ∧ Dims out w h) ∧
    (0 < w → ∀ N : Int, ∃ out, process_5 image N = some out ∧
      (Dims out h w ∨ Dims out w h)) ∧
    (∀ x_scale y_scale : Int, 0 ≤ x_scale → 0 ≤ y_scale →
      y_scale * h < 2147483648 → x_scale * w < 2147483648 →
      ∃ out, process_6 image x_scale y_scale = some out ∧
        Dims out (y_scale * h).toNat (x_scale * w).toNat) ∧
    (∃ out, process_7 image = some out ∧ Dims out h w) ∧
    (∀ f : ℚ, ∃ out, process_8 image f = some out ∧ Dims out h w) ∧
    (∀ f : ℚ, ∃ out, process_9 image f = some out ∧ Dims out h w) ∧
    (∃ out, process_10 image = some out ∧ Dims out h w) := by
  refine ⟨?_, ?_, ?_, ?_, ?_, ?_, ?_, ?_, ?_, ?_⟩
  · obtain ⟨out, h1, h2, _⟩ := process_1_spec sqrt image h w hd hpos hh hw
    exact ⟨out, h1, h2⟩
  · intro f
    exact pixel_map_total image h w hd hpos hh hw (process_2_pixel f) (process_2_pixel_total f)
  · exact pixel_map_total image h w hd hpos hh hw process_3_pixel process_3_pixel_total
  · obtain ⟨out, h1, h2, _⟩ := process_4_spec image h w hd hpos hh hw
    exact ⟨out, h1, h2⟩
  · intro hwpos N
    obtain ⟨out, h1⟩ := process_5_total image h w hd hpos hwpos hh hw N
    exact ⟨out, h1, process_5_dims image h w hd hh hw N out h1⟩
  · intro x_scale y_scale hx hy hR hC
    exact process_6_total image h w hd hpos hh hw x_scale y_scale hx hy hR hC
  · exact pixel_map_total image h w hd hpos hh hw process_7_pixel process_7_pixel_total
  · intro f
    exact pixel_map_total image h w hd hpos hh hw (process_8_pixel f) (process_8_pixel_total f)
  · intro f
    exact pixel_map_total image h w hd hpos hh hw (process_9_pixel f) (process_9_pixel_total f)
  · exact pixel_map_total image h w hd hpos hh hw process_10_pixel process_10_pixel_total

theorem transforms_shape_aux (sqrt : ℚ → ℚ) (image : Image) (h w : Nat) (hd : Dims image h w)
    (hpos : 0 < h) (hh : h < 2147483648) (hw : w < 2147483648) :
    (∃ out, process_1 sqrt image = some out ∧ Dims out h w) ∧
    (∀ f : ℚ, ∃ out, process_2 image f = some out ∧ Dims out h w) ∧
    (∃ out, process_3 image = some out ∧ Dims out h w) ∧
    (∃ out, process_4 image = some out ∧ Dims out w h) ∧
    ((∀ (N : Int) out, process_5 image N = some out → Dims out h w ∨ Dims out w h) ∧
      (0 < w → ∀ N : Int, ∃ out, process_5 image N = some out)) ∧
    (∀ x_scale y_scale : Nat, 0 < x_scale → 0 < y_scale →
      h * y_scale < 2147483648 → w * x_scale < 2147483648 →
      ∃ out, process_6 image x_scale y_scale = some out ∧
        Dims out (h * y_scale) (w * x_scale)) ∧
    (∃ out, process_7 image = some out ∧ Dims out h w) ∧
    (∀ f : ℚ, ∃ out, process_8 image f = some out ∧ Dims out h w) ∧
    (∀ f : ℚ, ∃ out, process_9 image f = some out ∧ Dims out h w) ∧
    (∃ out, process_10 image = some out ∧ Dims out h w) := by
  obtain ⟨t1, t2, t3, t4, _, _, t7, t8, t9, t10⟩ :=
    transforms_total_aux sqrt image h w hd hpos hh hw
  refine ⟨t1, t2, t3, t4, ⟨?_, ?_⟩, ?_, t7, t8, t9, t10⟩
  · intro N out ho
    exact process_5_dims image h w hd hh hw N out ho
  · intro hwpos N
    exact process_5_total image h w hd hpos hwpos hh hw N
  · intro x_scale y_scale hx hy hR hC
    obtain ⟨out, h1, h2, _⟩ := process_6_spec image h w x_scale y_scale hd hpos hx hy hR hC
    exact ⟨out, h1, h2⟩


/-! ## Composition of transforms -/

theorem process_10_pixel_palette (p q : Pixel) (hq : process_10_pixel p = some q) :
    (q = ⟨255, 255, 255⟩ ∨ q = ⟨0, 0, 0⟩ ∨ q = ⟨255, 0, 0⟩ ∨ q = ⟨0, 255, 0⟩ ∨
      q = ⟨0, 0, 255⟩) ∧ process_10_pixel q = some q := by
  unfold process_10_pixel at hq
  simp only at hq
  split_ifs at hq <;> rw [← Option.some.inj hq] <;> decide

theorem process_10_twice (image : Image) (h w : Nat) (hd : Dims image h w) (hpos : 0 < h)
    (hh : h < 2147483648) (hw : w < 2147483648) :
    ∃ out, process_10 image = some out ∧ Dims out h w ∧
      (∀ r c q, getPixel out r c = some q →
        q = ⟨255, 255, 255⟩ ∨ q = ⟨0, 0, 0⟩ ∨ q = ⟨255, 0, 0⟩ ∨ q = ⟨0, 255, 0⟩ ∨
          q = ⟨0, 0, 255⟩) ∧
      process_10 out = some out ∧
      (process_10 image).bind process_10 = process_10 image := by
  obtain ⟨out, h1, h2, h3⟩ := pixel_map_exact image h w hd hpos hh hw process_10_pixel
    (fun _ _ p _ _ _ => process_10_pixel_total p)
  have hpal : ∀ r c q, getPixel out r c = some q →
      (q = ⟨255, 255, 255⟩ ∨ q = ⟨0, 0, 0⟩ ∨ q = ⟨255, 0, 0⟩ ∨ q = ⟨0, 255, 0⟩ ∨
        q = ⟨0, 0, 255⟩) ∧ process_10_pixel q = some q := by
    intro r c q hq
    obtain ⟨hr, hc⟩ := getPixel_lt_of_dims h2 hq
    obtain ⟨p, hp⟩ := getPixel_of_dims hd hr hc
    have := h3 r c p hr hc hp
    rw [hq] at this
    exact process_10_pixel_palette p q this.symm
  have hfix : process_10 out = some out :=
    pixel_map_fixed out h w h2 hpos hh hw process_10_pixel
      (fun r c q _ _ hq => (hpal r c q hq).2)
  have h1' : process_10 image = some out := h1
  refine ⟨out, h1', h2, fun r c q hq => (hpal r c q hq).1, hfix, ?_⟩
  rw [h1', Option.some_bind, hfix]

theorem process_3_pixel_gray (g : Int) (h0 : 0 ≤ g) (h1 : g ≤ 255) :
    process_3_pixel ⟨g, g, g⟩ = some ⟨g, g, g⟩ := by
  rw [process_3_pixel_eq ⟨g, g, g⟩ ⟨⟨h0, h1⟩, ⟨h0, h1⟩, ⟨h0, h1⟩⟩]
  have e : (g + g + g) / 3 = g := by omega
  simp only [e]

theorem process_3_twice (image : Image) (h w : Nat) (hd : Dims image h w) (hpos : 0 < h)
    (hh : h < 2147483648) (hw : w < 2147483648) (hr : InRange image) :
    ∃ out, process_3 image = some out ∧ Dims out h w ∧ process_3 out = some out ∧
      (process_3 image).bind process_3 = process_3 image := by
  obtain ⟨out, h1, h2, h3⟩ := process_3_spec image h w hd hpos hh hw hr
  have hfix : process_3 out = some out := by
    apply pixel_map_fixed out h w h2 hpos hh hw process_3_pixel
    intro r c q hr' hc hq
    obtain ⟨p, hp⟩ := getPixel_of_dims hd hr' hc
    have hb := inRange_getPixel hr hp
    have := h3 r c p hr' hc hp
    rw [hq] at this
    rw [Option.some.inj this]
    exact process_3_pixel_gray _ (by omega) (by omega)
  refine ⟨out, h1, h2, hfix, ?_⟩
  rw [h1, Option.some_bind, hfix]

theorem process_6_twice (image : Image) (h w a b c d : Nat) (hd : Dims image h w)
    (hpos : 0 < h) (ha : 0 < a) (hb : 0 < b) (hc : 0 < c) (hdp : 0 < d)
    (hH : h * b * d < 2147483648) (hW : w * a * c < 2147483648) :
    ∃ out, process_6 image ((a : Int) * c) ((b : Int) * d) = some out ∧
      Dims out (h * b * d) (w * a * c) ∧
      (process_6 image a b).bind (fun enlarged => process_6 enlarged c d)
        = process_6 image ((a : Int) * c) ((b : Int) * d) := by
  have hHb : h * b < 2147483648 := lt_of_le_of_lt (Nat.le_mul_of_pos_right _ hdp) hH
  have hWa : w * a < 2147483648 := lt_of_le_of_lt (Nat.le_mul_of_pos_right _ hc) hW
  obtain ⟨o1, e1, d1, p1⟩ := process_6_spec image h w a b hd hpos ha hb hHb hWa
  obtain ⟨o2, e2, d2, p2⟩ := process_6_spec o1 (h * b) (w * a) c d d1 (Nat.mul_pos hpos hb)
    hc hdp hH hW
  obtain ⟨o3, e3, d3, p3⟩ := process_6_spec image h w (a * c) (b * d) hd hpos
    (Nat.mul_pos ha hc) (Nat.mul_pos hb hdp) (by rw [← Nat.mul_assoc]; exact hH)
    (by rw [← Nat.mul_assoc]; exact hW)
  rw [← Nat.mul_assoc, ← Nat.mul_assoc] at d3 p3
  have ecast : process_6 image ((a : Int) * c) ((b : Int) * d)
      = process_6 image ((a * c : Nat) : Int) ((b * d : Nat) : Int) := by
    rw [Nat.cast_mul, Nat.cast_mul]
  have e23 : o2 = o3 := by
    apply image_ext d2 d3
    intro r k hr hk
    have hr1 : r / d < h * b := (Nat.div_lt_iff_lt_mul hdp).mpr hr
    have hk1 : k / c < w * a := (Nat.div_lt_iff_lt_mul hc).mpr hk
    rw [p2 r k hr hk, p1 (r / d) (k / c) hr1 hk1, p3 r k hr hk, Nat.div_div_eq_div_mul,
      Nat.div_div_eq_div_mul, Nat.mul_comm d b, Nat.mul_comm c a]
  refine ⟨o3, by rw [ecast, e3], d3, ?_⟩
  rw [e1, Option.some_bind, e2, ecast, e3, e23]


/-! ## Claims on the codec -/

/-- C1 (counterexample): `wideRaster`, one row of 715827883 black pixels, is a
valid raster (non-empty, rectangular, width at least 1, channels in [0,255]),
but `read_image` returns the empty raster on the bytes `write_image` emits for
it: `width * 3` leaves the range of `int`, the encoder pads the row with 3
bytes and the decoder expects 7. -/
theorem roundtrip_fails_on_wideRaster :
    Dims wideRaster 1 715827883 ∧ InRange wideRaster ∧
    (write_image wideRaster).bind read_image = some [] ∧
    (write_image wideRaster).bind read_image ≠ some wideRaster := by
  have hd : Dims wideRaster 1 715827883 := dims_single_row _ _
  have hw := write_image_eq wideRaster 1 715827883 hd (by norm_num) (by norm_num) (by norm_num)
  have hhd := headerOf_encoded 715827883 1 (specPixelArray wideRaster 715827883)
  have hr : (write_image wideRaster).bind read_image = some [] := by
    rw [hw, Option.some_bind]
    apply read_image_of_mismatch
    rw [hhd]
    decide
  refine ⟨hd, inRange_single_zero_row _, hr, ?_⟩
  rw [hr]
  intro h
  have := Option.some.inj h
  exact absurd this.symm (List.cons_ne_nil _ _)

/-- C1 (amended): for every valid raster (non-empty, rectangular of width at
least 1, every channel in [0,255]) whose encoded size
`54 + (width * 3 + padding) * height` is below `2 ^ 31`, `read_image` applied to
the bytes written by `write_image` returns the raster itself. -/
theorem roundtrip_valid (image : Image) (h w : Nat) (hd : Dims image h w) (hpos : 0 < h)
    (hw : 1 ≤ w) (hr : InRange image) (hsz : encodedSize w h < 2147483648) :
    (write_image image).bind read_image = some image := by
  have hh : h < 2147483648 := by
    unfold encodedSize arrayBytes at hsz
    have : 1 * h ≤ (w * 3 + rowPadding w) * h := Nat.mul_le_mul_right _ (by omega)
    omega
  rw [roundtrip_aux image h w hd hpos hh hsz, (truncImage_eq_iff image).mpr hr]

/-- C1 (amended), instance: the 2 by 2 raster of the specification. -/
theorem roundtrip_valid_witness : (write_image sampleRaster).bind read_image = some sampleRaster :=
  roundtrip_valid sampleRaster 2 2 (by decide) (by decide) (by decide) (by decide) (by decide)

/-- C4 (counterexample): four files pass the size check of `read_image` with
24 bits per pixel and hold at least as many bytes as they declare, yet no raster
as described comes back.  `negativeHeightFile` declares height -1
(`54 + (3 + 1) * -1 = 50`) and `negativeWidthLongFile` declares width -1
(`54 + (-3 + 7) * 1 = 58`): the vector constructor rejects the negative size and
`read_image` returns nothing.  `negativeStartFile` declares start -1: the offset
`p` of pixel (0, 0) is -1, where the file has no byte, and the channels read
are -1.  `overflowStartFile` declares start 2147483647 and size -2147483645:
`start + 4` leaves the range of `int` and the check passes by wrap-around,
although the layout size is 2147483651; the offset `p` of pixel (0, 0) lies
beyond the file and the channels read are -1. -/
theorem read_image_negative_height :
    (headerOf negativeHeightFile = ⟨50, 54, 1, -1, 24⟩ ∧
      (headerOf negativeHeightFile).file_size = (headerOf negativeHeightFile).layout_size ∧
      (headerOf negativeHeightFile).file_size ≤ negativeHeightFile.length ∧
      read_image negativeHeightFile = none) ∧
    (headerOf negativeWidthLongFile = ⟨58, 54, -1, 1, 24⟩ ∧
      (headerOf negativeWidthLongFile).file_size
        = (headerOf negativeWidthLongFile).layout_size ∧
      (headerOf negativeWidthLongFile).file_size ≤ negativeWidthLongFile.length ∧
      read_image negativeWidthLongFile = none) ∧
    (headerOf negativeStartFile = ⟨3, -1, 1, 1, 24⟩ ∧
      (headerOf negativeStartFile).file_size = (headerOf negativeStartFile).layout_size ∧
      (headerOf negativeStartFile).file_size ≤ negativeStartFile.length ∧
      pixelOffset (headerOf negativeStartFile) 0 0 = -1 ∧
      read_image negativeStartFile = some [[⟨-1, -1, -1⟩]]) ∧
    (headerOf overflowStartFile = ⟨-2147483645, 2147483647, 1, 1, 24⟩ ∧
      (headerOf overflowStartFile).file_size = (headerOf overflowStartFile).layout_size ∧
      (headerOf overflowStartFile).file_size ≤ overflowStartFile.length ∧
      specLayoutSize (headerOf overflowStartFile) = 2147483651 ∧
      pixelOffset (headerOf overflowStartFile) 0 0 = 2147483647 ∧
      read_image overflowStartFile = some [[⟨-1, -1, -1⟩]]) := by
  refine ⟨⟨by decide, by decide, by decide, by decide⟩,
    ⟨by decide, by decide, by decide, by decide⟩,
    ⟨by decide, by decide, by decide, by decide, by decide⟩,
    ⟨by decide, by decide, by decide, by decide, by decide, by decide⟩⟩

/-- C4 (amended): on a file of at least 30 bytes whose declared size equals the
layout size `start + (width * (bits_per_pixel / 8) + padding) * height` (in
exact arithmetic), with at least 24 bits per pixel, start, width and height not
negative, and at least as many bytes as the declared size, `read_image` returns
a raster of exactly `height` rows and `width` columns whose pixel `(i, j)` has
blue, green and red equal to the bytes at offsets `p`, `p + 1`, `p + 2`, where
`p = start + (height - 1 - i) * (width * (bits_per_pixel / 8) + padding)
  + j * (bits_per_pixel / 8)`: the first stored scanline is the bottom row and
the padding bytes after each row are skipped. -/
theorem read_image_layout (file : List Byte) (h30 : 30 ≤ file.length)
    (hsize : (headerOf file).file_size = specLayoutSize (headerOf file))
    (hbpp : 24 ≤ (headerOf file).bits_per_pixel)
    (hs : 0 ≤ (headerOf file).start) (hw : 0 ≤ (headerOf file).width)
    (hh : 0 ≤ (headerOf file).height)
    (hlen : (headerOf file).file_size ≤ file.length) :
    ∃ img, read_image file = some img ∧
      Dims img (headerOf file).height.toNat (headerOf file).width.toNat ∧
      ∀ i j : Nat, (i : Int) < (headerOf file).height → (j : Int) < (headerOf file).width →
        getPixel img i j = some (pixelAt file (pixelOffset (headerOf file) i j)) :=
  read_image_layout_aux file h30 hsize hbpp hs hw hh hlen

/-- C4 (amended), instance: the 70 byte file `sampleFile`. -/
theorem read_image_layout_witness :
    ∃ img, read_image sampleFile = some img ∧
      Dims img (headerOf sampleFile).height.toNat (headerOf sampleFile).width.toNat ∧
      ∀ i j : Nat, (i : Int) < (headerOf sampleFile).height →
        (j : Int) < (headerOf sampleFile).width →
        getPixel img i j = some (pixelAt sampleFile (pixelOffset (headerOf sampleFile) i j)) :=
  read_image_layout sampleFile (by decide) (by decide) (by decide) (by decide) (by decide)
    (by decide) (by decide)

/-- C7: for every non-empty rectangular raster (dimensions below `2 ^ 31`), the
bytes written by `write_image` after offset 54 are the rows in bottom-to-top
order, each row being its pixels from left to right as the three bytes blue,
green, red, followed by exactly `(4 - (width * 3) % 4) % 4` zero bytes. -/
theorem write_image_pixel_array (image : Image) (h w : Nat) (hd : Dims image h w)
    (hpos : 0 < h) (hh : h < 2147483648) (hw : w < 2147483648) :
    ∃ out, write_image image = some out ∧
      out.drop 54 = (image.reverse.map (fun row =>
        (row.map (fun p => [toByte p.blue, toByte p.green, toByte p.red])).flatten
          ++ List.replicate ((4 - (w * 3) % 4) % 4) 0)).flatten := by
  refine ⟨_, write_image_eq image h w hd hpos hh hw, ?_⟩
  rw [List.drop_left' (length_specHeader w h)]
  rfl

/-- C7, instance: the 2 by 2 raster of the specification. -/
theorem write_image_pixel_array_witness :
    ∃ out, write_image sampleRaster = some out ∧
      out.drop 54 = (sampleRaster.reverse.map (fun row =>
        (row.map (fun p => [toByte p.blue, toByte p.green, toByte p.red])).flatten
          ++ List.replicate ((4 - (2 * 3) % 4) % 4) 0)).flatten :=
  write_image_pixel_array sampleRaster 2 2 (by decide) (by decide) (by decide) (by decide)

/-- C8 (counterexample): for `hugeRaster`, one row of 1431655765 pixels,
`write_image` emits `54 + 2 ^ 32` bytes while the total-size field at bytes 2-5
holds 54. -/
theorem write_image_size_field_wraps :
    Dims hugeRaster 1 1431655765 ∧
    ∃ out, write_image hugeRaster = some out ∧ out.length = 54 + 4294967296 ∧
      leValue out 2 4 = 54 ∧ (out.length : Int) ≠ leValue out 2 4 := by
  have hd : Dims hugeRaster 1 1431655765 := dims_single_row _ _
  have hw := write_image_eq hugeRaster 1 1431655765 hd (by norm_num) (by norm_num) (by norm_num)
  have hlen : (specHeader 1431655765 1 ++ specPixelArray hugeRaster 1431655765).length
      = 54 + 4294967296 := by
    rw [List.length_append, length_specPixelArray hugeRaster 1 1431655765 hd, length_specHeader]
    decide
  have hval : leValue (specHeader 1431655765 1 ++ specPixelArray hugeRaster 1431655765) 2 4
      = 54 := by
    rw [leValue_size_field]
    decide
  refine ⟨hd, _, hw, hlen, hval, ?_⟩
  rw [hlen, hval]
  decide

/-- C8 (amended): for every non-empty rectangular raster with fewer than
`2 ^ 31` rows whose encoded size `54 + (width * 3 + padding) * height` is below
`2 ^ 32`, the number of bytes `write_image` emits equals the value of the
total-size field at bytes 2-5, namely that encoded size; every emitted scanline
has `width * 3 + padding` bytes, a multiple of 4, with `0 ≤ padding ≤ 3`. -/
theorem write_image_size_consistent (image : Image) (h w : Nat) (hd : Dims image h w)
    (hpos : 0 < h) (hh : h < 2147483648) (hsz : encodedSize w h < 4294967296) :
    ∃ out, write_image image = some out ∧ out.length = encodedSize w h ∧
      leValue out 2 4 = encodedSize w h ∧
      (∀ row ∈ image, (rowBytes w row).length = w * 3 + rowPadding w) ∧
      (w * 3 + rowPadding w) % 4 = 0 ∧ rowPadding w ≤ 3 := by
  have hw : w < 2147483648 := by
    unfold encodedSize arrayBytes at hsz
    have : (w * 3 + rowPadding w) * 1 ≤ (w * 3 + rowPadding w) * h :=
      Nat.mul_le_mul_left _ hpos
    omega
  refine ⟨_, write_image_eq image h w hd hpos hh hw, ?_, ?_, ?_, rowPadding_mod w⟩
  · rw [List.length_append, length_specPixelArray image h w hd, length_specHeader]
    rfl
  · rw [leValue_size_field]
    unfold encodedSize at hsz ⊢
    omega
  · intro row hrow
    exact length_rowBytes w row (hd.2 row hrow)

/-- C8 (amended), instance: the 2 by 2 raster of the specification. -/
theorem write_image_size_consistent_witness :
    ∃ out, write_image sampleRaster = some out ∧ out.length = encodedSize 2 2 ∧
      leValue out 2 4 = encodedSize 2 2 ∧
      (∀ row ∈ sampleRaster, (rowBytes 2 row).length = 2 * 3 + rowPadding 2) ∧
      (2 * 3 + rowPadding 2) % 4 = 0 ∧ rowPadding 2 ≤ 3 :=
  write_image_size_consistent sampleRaster 2 2 (by decide) (by decide) (by decide) (by decide)

/-- C2 (counterexample): `process_8` with factor 2 turns the valid one-pixel
raster `blackRaster` into the raster with channels -255, which `write_image`
stores as the bytes 1, so that `read_image` returns channels 1 and not -255. -/
theorem roundtrip_fails_after_process_8 :
    Dims blackRaster 1 1 ∧ InRange blackRaster ∧
    process_8 blackRaster 2 = some [[⟨-255, -255, -255⟩]] ∧
    (write_image [[⟨-255, -255, -255⟩]]).bind read_image = some [[⟨1, 1, 1⟩]] ∧
    (write_image [[⟨-255, -255, -255⟩]]).bind read_image ≠ some [[⟨-255, -255, -255⟩]] := by
  have hrt : (write_image [[⟨-255, -255, -255⟩]]).bind read_image = some [[⟨1, 1, 1⟩]] := by
    rw [roundtrip_aux [[⟨-255, -255, -255⟩]] 1 1 (by decide) (by decide) (by decide) (by decide)]
    decide
  exact ⟨by decide, by decide, process_8_blackRaster, hrt, by rw [hrt]; decide⟩

/-- C2 (amended): for every non-empty rectangular raster, in particular one
produced by `read_image` or by a transform, with fewer than `2 ^ 31` rows and an
encoded size below `2 ^ 31`, `read_image` of the bytes written by `write_image`
returns the raster with every channel reduced modulo 256; it reproduces the
raster exactly if and only if every channel lies in [0,255]. -/
theorem roundtrip_iff_in_range (image : Image) (h w : Nat) (hd : Dims image h w)
    (hpos : 0 < h) (hh : h < 2147483648) (hsz : encodedSize w h < 2147483648) :
    (write_image image).bind read_image = some (truncImage image) ∧
    ((write_image image).bind read_image = some image ↔ InRange image) := by
  have hr := roundtrip_aux image h w hd hpos hh hsz
  refine ⟨hr, ?_⟩
  rw [hr, Option.some.injEq]
  exact truncImage_eq_iff image

/-- C2 (amended), instance: the 2 by 2 raster of the specification. -/
theorem roundtrip_iff_in_range_witness :
    (write_image sampleRaster).bind read_image = some (truncImage sampleRaster) ∧
    ((write_image sampleRaster).bind read_image = some sampleRaster ↔ InRange sampleRaster) :=
  roundtrip_iff_in_range sampleRaster 2 2 (by decide) (by decide) (by decide) (by decide)

/-- C9 (counterexample): the raster `[[]]` has one row and no column;
`process_4` turns it into the raster without rows, on which `process_4` reads
`image[0]` outside the vector, so four applications do not return `[[]]`. -/
theorem process_4_four_times_fails :
    Dims [[]] 1 0 ∧ process_4 [[]] = some [] ∧ process_4 [] = none ∧
    (((process_4 [[]]).bind process_4).bind process_4).bind process_4 ≠ some [[]] := by
  decide

/-- C9 (amended): for every non-empty rectangular raster of width at least 1
(dimensions below `2 ^ 31`), `process_4` applied four times in succession
returns the raster itself. -/
theorem process_4_order_four (image : Image) (h w : Nat) (hd : Dims image h w) (hpos : 0 < h)
    (hwpos : 0 < w) (hh : h < 2147483648) (hw : w < 2147483648) :
    (((process_4 image).bind process_4).bind process_4).bind process_4 = some image :=
  process_4_four_times image h w hd hpos hwpos hh hw

/-- C9 (amended), instance: the 2 by 2 raster of the specification. -/
theorem process_4_order_four_witness :
    (((process_4 sampleRaster).bind process_4).bind process_4).bind process_4
      = some sampleRaster :=
  process_4_order_four sampleRaster 2 2 (by decide) (by decide) (by decide) (by decide)
    (by decide)

/-- C10: for every non-empty rectangular raster of height `h` and width `w`
(both below `2 ^ 31`), `process_4` returns a raster of height `w` and width `h`
in which, for every `row < h` and `col < w`, the pixel at `(col, h - 1 - row)`
equals the input pixel at `(row, col)`. -/
theorem process_4_rotates (image : Image) (h w : Nat) (hd : Dims image h w) (hpos : 0 < h)
    (hh : h < 2147483648) (hw : w < 2147483648) :
    ∃ out, process_4 image = some out ∧ Dims out w h ∧
      ∀ row col, row < h → col < w →
        getPixel out col (h - 1 - row) = getPixel image row col := by
  obtain ⟨out, h1, h2, h3⟩ := process_4_spec image h w hd hpos hh hw
  refine ⟨out, h1, h2, ?_⟩
  intro row col hr hc
  obtain ⟨p, hp⟩ := getPixel_of_dims hd hr hc
  rw [h3 row col p hr hc hp, hp]

/-- C10, instance: the 2 by 2 raster of the specification. -/
theorem process_4_rotates_witness :
    ∃ out, process_4 sampleRaster = some out ∧ Dims out 2 2 ∧
      ∀ row col, row < 2 → col < 2 →
        getPixel out col (2 - 1 - row) = getPixel sampleRaster row col :=
  process_4_rotates sampleRaster 2 2 (by decide) (by decide) (by decide) (by decide)

/-- C11: for every raster and every non-negative `N` with `N * 90` representable
as an `int`, `process_5` equals `process_4` applied `N mod 4` times; in
particular `process_5(R, 0) = R`, `process_5(R, 4) = process_5(R, 0)` and
`process_5(R, 1) = process_4(R)`. -/
theorem process_5_quarter_turns (image : Image) (N : Int) (h0 : 0 ≤ N)
    (hr : N * 90 < 2147483648) :
    process_5 image N = process_4_times (N % 4).toNat image ∧
    process_5 image 0 = some image ∧
    process_5 image 4 = process_5 image 0 ∧
    process_5 image 1 = process_4 image := by
  have e0 := (process_5_of_nonneg image 0 (by norm_num) (by norm_num)).2
  have e4 := (process_5_of_nonneg image 4 (by norm_num) (by norm_num)).2
  have e1 := (process_5_of_nonneg image 1 (by norm_num) (by norm_num)).2
  refine ⟨(process_5_of_nonneg image N h0 hr).2, ?_, ?_, ?_⟩
  · rw [e0]; rfl
  · rw [e0, e4]; rfl
  · rw [e1]; rfl

/-- C11, instance: six quarter turns of the 2 by 2 raster of the specification. -/
theorem process_5_quarter_turns_witness :
    process_5 sampleRaster 6 = process_4_times (6 % 4 : Int).toNat sampleRaster :=
  (process_5_quarter_turns sampleRaster 6 (by decide) (by decide)).1

/-- C12 (counterexample): on the raster `twoPixelRaster`, `process_5` with
`N = -2` differs from `process_5` with `N = 2`: the remainder of -180 by 360 is
-180 in C++, which selects the last branch and three quarter turns. -/
theorem process_5_negative_two :
    process_5 twoPixelRaster (-2) = some [[⟨4, 5, 6⟩], [⟨1, 2, 3⟩]] ∧
    process_5 twoPixelRaster 2 = some [[⟨4, 5, 6⟩, ⟨1, 2, 3⟩]] ∧
    process_5 twoPixelRaster (-2) ≠ process_5 twoPixelRaster (-2 + 4) := by
  decide

/-- C12 (amended): for every raster `R` and every integer `N >= 0` with
`(N + 4) * 90` representable as an `int`, `process_5` does not reject `N`, and
`process_5(R, N)` is the rotation by `N * 90` modulo 360, that is `process_4`
applied `N % 4` times, so that `process_5(R, N) = process_5(R, N + 4)`. -/
theorem process_5_period (image : Image) (N : Int) (h0 : 0 ≤ N)
    (h4 : (N + 4) * 90 < 2147483648) :
    process_5_invalid N = false ∧
    process_5 image N = process_4_times (N % 4).toNat image ∧
    process_5 image N = process_5 image (N + 4) := by
  have e := process_5_of_nonneg image N h0 (by omega)
  refine ⟨e.1, e.2, ?_⟩
  rw [e.2, (process_5_of_nonneg image (N + 4) (by omega) h4).2]
  congr 2
  omega

/-- C12 (amended), instance: `N = 2` on `twoPixelRaster`. -/
theorem process_5_period_witness :
    process_5_invalid 2 = false ∧
    process_5 twoPixelRaster 2 = process_4_times ((2 : Int) % 4).toNat twoPixelRaster ∧
    process_5 twoPixelRaster 2 = process_5 twoPixelRaster (2 + 4) :=
  process_5_period twoPixelRaster 2 (by decide) (by decide)


/-- C13 (counterexample): for the raster `twoRowRaster` of height 2 and the
positive scales `x_scale = 1`, `y_scale = 1073741824`, `process_6` returns no
raster: `y_scale * num_rows` wraps to a negative `int` and the vector
constructor throws. -/
theorem process_6_height_overflows :
    Dims twoRowRaster 2 1 ∧ process_6 twoRowRaster 1 1073741824 = none := by
  decide

/-- C13 (amended): for every non-empty rectangular raster of height `h` and
width `w` and all positive integers `x_scale`, `y_scale` with `h * y_scale` and
`w * x_scale` below `2 ^ 31`, `process_6` returns a raster of height
`h * y_scale` and width `w * x_scale` whose pixel at `(row, col)` equals the
input pixel at `(row / y_scale, col / x_scale)` under integer division. -/
theorem process_6_enlarges (image : Image) (h w x_scale y_scale : Nat) (hd : Dims image h w)
    (hpos : 0 < h) (hxs : 0 < x_scale) (hys : 0 < y_scale)
    (hH : h * y_scale < 2147483648) (hW : w * x_scale < 2147483648) :
    ∃ out, process_6 image x_scale y_scale = some out ∧
      Dims out (h * y_scale) (w * x_scale) ∧
      ∀ row col, row < h * y_scale → col < w * x_scale →
        getPixel out row col = getPixel image (row / y_scale) (col / x_scale) :=
  process_6_spec image h w x_scale y_scale hd hpos hxs hys hH hW

/-- C13 (amended), instance: the 2 by 2 raster of the specification enlarged
by 3 horizontally and 2 vertically. -/
theorem process_6_enlarges_witness :
    ∃ out, process_6 sampleRaster (3 : Nat) (2 : Nat) = some out ∧ Dims out (2 * 2) (2 * 3) ∧
      ∀ row col, row < 2 * 2 → col < 2 * 3 →
        getPixel out row col = getPixel sampleRaster (row / 2) (col / 3) :=
  process_6_enlarges sampleRaster 2 2 3 2 (by decide) (by decide) (by decide) (by decide)
    (by decide) (by decide)

/-- C14: for every non-empty rectangular raster (dimensions below `2 ^ 31`),
`process_6` with both scales 1 returns the raster itself. -/
theorem process_6_identity (image : Image) (h w : Nat) (hd : Dims image h w) (hpos : 0 < h)
    (hh : h < 2147483648) (hw : w < 2147483648) : process_6 image 1 1 = some image :=
  process_6_one_one image h w hd hpos hh hw

/-- C14, instance: the 2 by 2 raster of the specification. -/
theorem process_6_identity_witness : process_6 sampleRaster 1 1 = some sampleRaster :=
  process_6_identity sampleRaster 2 2 (by decide) (by decide) (by decide) (by decide)


/-- C17: for every non-empty rectangular raster with channels in [0,255] (and
dimensions that are `int` values), `process_7` returns a raster of the same
dimensions in which each pixel is (255,255,255) if the integer quotient
`(r + g + b) / 3` is at least 127 and (0,0,0) otherwise; hence a white pixel
stays white, a black pixel stays black, an all-white raster gives an all-white
raster, an all-black raster an all-black one, and a pixel whose integer average
is exactly 127 becomes white. -/
theorem process_7_threshold (image : Image) (h w : Nat) (hd : Dims image h w) (hpos : 0 < h)
    (hh : h < 2147483648) (hw : w < 2147483648) (hr : InRange image) :
    ∃ out, process_7 image = some out ∧ Dims out h w ∧
      (∀ r c p, r < h → c < w → getPixel image r c = some p →
        getPixel out r c = some (if (p.red + p.green + p.blue) / 3 ≥ 127 then ⟨255, 255, 255⟩
          else ⟨0, 0, 0⟩)) ∧
      ((∀ r c, r < h → c < w → getPixel image r c = some ⟨255, 255, 255⟩) →
        ∀ r c, r < h → c < w → getPixel out r c = some ⟨255, 255, 255⟩) ∧
      ((∀ r c, r < h → c < w → getPixel image r c = some ⟨0, 0, 0⟩) →
        ∀ r c, r < h → c < w → getPixel out r c = some ⟨0, 0, 0⟩) ∧
      (∀ r c p, r < h → c < w → getPixel image r c = some p →
        (p.red + p.green + p.blue) / 3 = 127 → getPixel out r c = some ⟨255, 255, 255⟩) := by
  obtain ⟨out, ho, hdo, hpx⟩ := process_7_spec image h w hd hpos hh hw hr
  refine ⟨out, ho, hdo, hpx, ?_, ?_, ?_⟩
  · intro hall r c hr' hc
    rw [hpx r c _ hr' hc (hall r c hr' hc)]
    rfl
  · intro hall r c hr' hc
    rw [hpx r c _ hr' hc (hall r c hr' hc)]
    rfl
  · intro r c p hr' hc hp havg
    rw [hpx r c p hr' hc hp, havg]
    rfl

/-- C17, instance: the raster `thresholdRaster` with a white pixel, a black
pixel and the pixel (127,127,128) of integer average 127 becomes white, black,
white. -/
theorem process_7_threshold_witness :
    ∃ out, process_7 thresholdRaster = some out ∧ Dims out 1 3 ∧
      (∀ r c p, r < 1 → c < 3 → getPixel thresholdRaster r c = some p →
        getPixel out r c = some (if (p.red + p.green + p.blue) / 3 ≥ 127 then ⟨255, 255, 255⟩
          else ⟨0, 0, 0⟩)) ∧
      ((∀ r c, r < 1 → c < 3 → getPixel thresholdRaster r c = some ⟨255, 255, 255⟩) →
        ∀ r c, r < 1 → c < 3 → getPixel out r c = some ⟨255, 255, 255⟩) ∧
      ((∀ r c, r < 1 → c < 3 → getPixel thresholdRaster r c = some ⟨0, 0, 0⟩) →
        ∀ r c, r < 1 → c < 3 → getPixel out r c = some ⟨0, 0, 0⟩) ∧
      (∀ r c p, r < 1 → c < 3 → getPixel thresholdRaster r c = some p →
        (p.red + p.green + p.blue) / 3 = 127 → getPixel out r c = some ⟨255, 255, 255⟩) :=
  process_7_threshold thresholdRaster 1 3 (by decide) (by decide) (by decide) (by decide)
    (by decide)

/-- C18 (counterexample): the pixel (1500000015, 1500000015, 255) of the
one-pixel raster `wrapSumRaster` has `r + g + b = 3000000285 >= 550`, yet
`process_10` maps it to black: the `int` sum wraps to -1294967011, which is at
most 150. -/
theorem process_10_sum_wraps :
    Dims wrapSumRaster 1 1 ∧
    (1500000015 + 1500000015 + 255 : Int) ≥ 550 ∧
    iadd (iadd 1500000015 1500000015) 255 = -1294967011 ∧
    process_10 wrapSumRaster = some [[⟨0, 0, 0⟩]] := by
  refine ⟨by decide, by decide, by decide, by decide⟩

/-- C18 (amended): for every non-empty rectangular raster (dimensions that are
`int` values), `process_10` returns a raster of the same dimensions in which
each pixel (r,g,b) whose sums `r + g` and `r + g + b` are `int` values is mapped
to white if `r + g + b >= 550`, to black if `r + g + b <= 150`, and otherwise to
(255,0,0) if `r >= g` and `r >= b`, else to (0,255,0) if `g >= b`, else to
(0,0,255); so a pixel (200,200,150) gives white, (50,50,50) gives black and
(50,200,30) gives (0,255,0). -/
theorem process_10_dominance (image : Image) (h w : Nat) (hd : Dims image h w) (hpos : 0 < h)
    (hh : h < 2147483648) (hw : w < 2147483648) :
    ∃ out, process_10 image = some out ∧ Dims out h w ∧
      (∀ r c p, r < h → c < w → getPixel image r c = some p →
        SumFits p.red p.green p.blue →
        getPixel out r c = some
          (if p.red + p.green + p.blue ≥ 550 then ⟨255, 255, 255⟩
           else if p.red + p.green + p.blue ≤ 150 then ⟨0, 0, 0⟩
           else if p.red ≥ p.green ∧ p.red ≥ p.blue then ⟨255, 0, 0⟩
           else if p.green ≥ p.blue then ⟨0, 255, 0⟩
           else ⟨0, 0, 255⟩)) ∧
      (∀ r c, r < h → c < w → getPixel image r c = some ⟨200, 200, 150⟩ →
        getPixel out r c = some ⟨255, 255, 255⟩) ∧
      (∀ r c, r < h → c < w → getPixel image r c = some ⟨50, 50, 50⟩ →
        getPixel out r c = some ⟨0, 0, 0⟩) ∧
      (∀ r c, r < h → c < w → getPixel image r c = some ⟨50, 200, 30⟩ →
        getPixel out r c = some ⟨0, 255, 0⟩) := by
  obtain ⟨out, ho, hdo, hpx⟩ := process_10_spec image h w hd hpos hh hw
  refine ⟨out, ho, hdo, hpx, ?_, ?_, ?_⟩
  · intro r c hr' hc hp
    rw [hpx r c _ hr' hc hp (by unfold SumFits; norm_num)]
    rfl
  · intro r c hr' hc hp
    rw [hpx r c _ hr' hc hp (by unfold SumFits; norm_num)]
    rfl
  · intro r c hr' hc hp
    rw [hpx r c _ hr' hc hp (by unfold SumFits; norm_num)]
    rfl

/-- C18 (amended), instance: the raster `posterRaster` holding the three pixels
(200,200,150), (50,50,50) and (50,200,30). -/
theorem process_10_dominance_witness :
    ∃ out, process_10 posterRaster = some out ∧ Dims out 1 3 ∧
      (∀ r c p, r < 1 → c < 3 → getPixel posterRaster r c = some p →
        SumFits p.red p.green p.blue →
        getPixel out r c = some
          (if p.red + p.green + p.blue ≥ 550 then ⟨255, 255, 255⟩
           else if p.red + p.green + p.blue ≤ 150 then ⟨0, 0, 0⟩
           else if p.red ≥ p.green ∧ p.red ≥ p.blue then ⟨255, 0, 0⟩
           else if p.green ≥ p.blue then ⟨0, 255, 0⟩
           else ⟨0, 0, 255⟩)) ∧
      (∀ r c, r < 1 → c < 3 → getPixel posterRaster r c = some ⟨200, 200, 150⟩ →
        getPixel out r c = some ⟨255, 255, 255⟩) ∧
      (∀ r c, r < 1 → c < 3 → getPixel posterRaster r c = some ⟨50, 50, 50⟩ →
        getPixel out r c = some ⟨0, 0, 0⟩) ∧
      (∀ r c, r < 1 → c < 3 → getPixel posterRaster r c = some ⟨50, 200, 30⟩ →
        getPixel out r c = some ⟨0, 255, 0⟩) :=
  process_10_dominance posterRaster 1 3 (by decide) (by decide) (by decide) (by decide)


/-- C19: for every non-empty rectangular raster with channels in [0,255] (and
dimensions that are `int` values), `process_3` returns a raster of the same
dimensions in which all three channels of each pixel equal the truncation of
`(r + g + b) / 3.0`; that truncation equals the integer quotient of `r + g + b`
by 3 and lies in [0,255]. -/
theorem process_3_grayscale (image : Image) (h w : Nat) (hd : Dims image h w) (hpos : 0 < h)
    (hh : h < 2147483648) (hw : w < 2147483648) (hr : InRange image) :
    ∃ out, process_3 image = some out ∧ Dims out h w ∧
      ∀ r c p, r < h → c < w → getPixel image r c = some p →
        getPixel out r c = some ⟨truncate (((p.red + p.green + p.blue : Int) : ℚ) / 3),
          truncate (((p.red + p.green + p.blue : Int) : ℚ) / 3),
          truncate (((p.red + p.green + p.blue : Int) : ℚ) / 3)⟩ ∧
        truncate (((p.red + p.green + p.blue : Int) : ℚ) / 3) = (p.red + p.green + p.blue) / 3 ∧
        0 ≤ (p.red + p.green + p.blue) / 3 ∧ (p.red + p.green + p.blue) / 3 ≤ 255 := by
  obtain ⟨out, ho, hdo, hpx⟩ := process_3_spec image h w hd hpos hh hw hr
  refine ⟨out, ho, hdo, ?_⟩
  intro r c p hr' hc hp
  have hb := inRange_getPixel hr hp
  have ht := truncate_div_three (p.red + p.green + p.blue) (by omega)
  rw [ht]
  exact ⟨hpx r c p hr' hc hp, rfl, by omega, by omega⟩

/-- C19, instance: the 2 by 2 raster of the specification. -/
theorem process_3_grayscale_witness :
    ∃ out, process_3 sampleRaster = some out ∧ Dims out 2 2 ∧
      ∀ r c p, r < 2 → c < 2 → getPixel sampleRaster r c = some p →
        getPixel out r c = some ⟨truncate (((p.red + p.green + p.blue : Int) : ℚ) / 3),
          truncate (((p.red + p.green + p.blue : Int) : ℚ) / 3),
          truncate (((p.red + p.green + p.blue : Int) : ℚ) / 3)⟩ ∧
        truncate (((p.red + p.green + p.blue : Int) : ℚ) / 3) = (p.red + p.green + p.blue) / 3 ∧
        0 ≤ (p.red + p.green + p.blue) / 3 ∧ (p.red + p.green + p.blue) / 3 ≤ 255 :=
  process_3_grayscale sampleRaster 2 2 (by decide) (by decide) (by decide) (by decide)
    (by decide)


/-- C15 (counterexample): on the valid one-pixel white raster `whiteRaster`
with the factor 100000000 the product 25500000000 is not an `int` value; the
conversion yields the least `int`, which is clamped to 0, so `process_9` returns
black, whereas the truncation of 255 * factor clamped to [0,255] is 255.  On
`shadowRaster`, the pixel (10,20,30), with the `double` nearest to 0.3 as
factor, the products are rounded to the `double` values 3, 6 and 9 and
`process_9` returns (3,6,9), whereas the truncations of the exact products are
2, 5 and 8. -/
theorem process_9_not_exact_clamp :
    (Dims whiteRaster 1 1 ∧ InRange whiteRaster ∧
      process_9 whiteRaster 100000000 = some [[⟨0, 0, 0⟩]] ∧
      max 0 (min 255 (truncate ((255 : ℚ) * 100000000))) = 255) ∧
    (Dims shadowRaster 1 1 ∧ InRange shadowRaster ∧
      process_9 shadowRaster factor03 = some [[⟨3, 6, 9⟩]] ∧
      truncate (10 * factor03) = 2 ∧ truncate (20 * factor03) = 5 ∧
      truncate (30 * factor03) = 8) :=
  ⟨⟨by decide, by decide, process_9_white_large, clamp_white_large⟩,
    ⟨by decide, by decide, process_9_shadow, truncate_shadow⟩⟩

/-- C15 (amended): for every non-empty rectangular raster and every scaling
factor, `process_9` returns a raster of the same dimensions whose channels all
lie in [0,255]; each channel is the truncation toward zero, clamped to [0,255],
of the `double` product channel * factor (the exact product rounded to the
nearest `double`), whenever that truncation is an `int` value. -/
theorem process_9_clamped (image : Image) (h w : Nat) (hd : Dims image h w) (hpos : 0 < h)
    (hh : h < 2147483648) (hw : w < 2147483648) (f : ℚ) :
    ∃ out, process_9 image f = some out ∧ Dims out h w ∧ InRange out ∧
      ∀ r c p, r < h → c < w → getPixel image r c = some p →
        ∃ q, getPixel out r c = some q ∧
          (FitsInt (fmul (p.red : ℚ) f) →
            q.red = max 0 (min 255 (truncate (fmul (p.red : ℚ) f)))) ∧
          (FitsInt (fmul (p.green : ℚ) f) →
            q.green = max 0 (min 255 (truncate (fmul (p.green : ℚ) f)))) ∧
          (FitsInt (fmul (p.blue : ℚ) f) →
            q.blue = max 0 (min 255 (truncate (fmul (p.blue : ℚ) f)))) :=
  process_9_clamped_aux image h w hd hpos hh hw f

/-- C15 (amended), instance: the one-pixel white raster darkened by the
factor 1/2. -/
theorem process_9_clamped_witness :
    ∃ out, process_9 whiteRaster (1 / 2) = some out ∧ Dims out 1 1 ∧ InRange out ∧
      ∀ r c p, r < 1 → c < 1 → getPixel whiteRaster r c = some p →
        ∃ q, getPixel out r c = some q ∧
          (FitsInt (fmul (p.red : ℚ) (1 / 2)) →
            q.red = max 0 (min 255 (truncate (fmul (p.red : ℚ) (1 / 2))))) ∧
          (FitsInt (fmul (p.green : ℚ) (1 / 2)) →
            q.green = max 0 (min 255 (truncate (fmul (p.green : ℚ) (1 / 2))))) ∧
          (FitsInt (fmul (p.blue : ℚ) (1 / 2)) →
            q.blue = max 0 (min 255 (truncate (fmul (p.blue : ℚ) (1 / 2))))) :=
  process_9_clamped whiteRaster 1 1 (by decide) (by decide) (by decide) (by decide) (1 / 2)


/-- C20 (counterexample): four one-pixel rasters on which `process_2` does not
return the stated truncations.  On `darkRaster`, channels 50, with the factor
100000000 the product 5000000000 is not an `int` value and the conversion
yields the least `int`.  On `shadowRaster`, the pixel (10,20,30) of average 20,
with the `double` nearest to 0.3 the products are rounded to 3, 6 and 9, whereas
the truncations of the exact products are 2, 5 and 8.  On `wrapSumRaster`, the
pixel (1500000015, 1500000015, 255), the `int` sum wraps to a negative value,
so that the pixel of average at least 170 is darkened, to (0,0,0) with the
factor 0, whereas `255 - (255 - c) * 0` is 255.  On `extremeRaster`, whose red
channel is -2147483648 and whose average is at least 170, the `int` difference
`255 - red` wraps and the factor 1/2 gives red 1073741951, whereas
`255 - (255 - red) * (1/2)` truncates to -1073741696. -/
theorem process_2_not_exact :
    (Dims darkRaster 1 1 ∧
      process_2 darkRaster 100000000
        = some [[⟨-2147483648, -2147483648, -2147483648⟩]] ∧
      truncate ((50 : ℚ) * 100000000) = 5000000000) ∧
    (Dims shadowRaster 1 1 ∧ process_2 shadowRaster factor03 = some [[⟨3, 6, 9⟩]] ∧
      truncate (10 * factor03) = 2 ∧ truncate (20 * factor03) = 5 ∧
      truncate (30 * factor03) = 8) ∧
    (Dims wrapSumRaster 1 1 ∧ process_2 wrapSumRaster 0 = some [[⟨0, 0, 0⟩]] ∧
      (170 : ℚ) ≤ ((1500000015 + 1500000015 + 255 : Int) : ℚ) / 3 ∧
      truncate ((255 : ℚ) - (255 - 1500000015) * 0) = 255) ∧
    (Dims extremeRaster 1 1 ∧
      process_2 extremeRaster (1 / 2)
        = some [[⟨1073741951, 1073741951, 1073741951⟩]] ∧
      (170 : ℚ) ≤ ((-2147483648 + 2147483647 + 2147483647 : Int) : ℚ) / 3 ∧
      truncate ((255 : ℚ) - (255 - -2147483648) * (1 / 2)) = -1073741696) :=
  ⟨⟨by decide, process_2_dark_large, truncate_clarendon_samples.1⟩,
    ⟨by decide, process_2_shadow, truncate_shadow⟩,
    ⟨by decide, process_2_wrapSum, by norm_num, truncate_clarendon_samples.2.1⟩,
    ⟨by decide, process_2_extreme, by norm_num, truncate_clarendon_samples.2.2⟩⟩

/-- C20 (amended): for every non-empty rectangular raster and every factor,
`process_2` returns a raster of the same dimensions; no clamping is applied.
For each pixel (r,g,b) whose sums `b + r` and `b + r + g` are `int` values, with
`avg = (r + g + b) / 3.0`: when `avg >= 170`, every channel `c` for which
`255 - c` is an `int` value becomes the truncation toward zero of
`255 - (255 - c) * factor`; when `avg < 90`, every channel `c` becomes the
truncation of `c * factor`; when `90 <= avg < 170` the pixel is unchanged.  The
products and differences are `double` operations (the exact result rounded to
the nearest `double`), and a channel is described whenever the truncation is an
`int` value. -/
theorem process_2_clarendon (image : Image) (h w : Nat) (hd : Dims image h w) (hpos : 0 < h)
    (hh : h < 2147483648) (hw : w < 2147483648) (f : ℚ) :
    ∃ out, process_2 image f = some out ∧ Dims out h w ∧
      ∀ r c p, r < h → c < w → getPixel image r c = some p →
        SumFits p.blue p.red p.green →
        ∃ q, getPixel out r c = some q ∧
          (170 ≤ ((p.red + p.green + p.blue : Int) : ℚ) / 3 →
            ((-2147483392 ≤ p.red ∧ p.red ≤ 2147483647) → FitsInt (brighten p.red f) →
              q.red = truncate (brighten p.red f)) ∧
            ((-2147483392 ≤ p.green ∧ p.green ≤ 2147483647) → FitsInt (brighten p.green f) →
              q.green = truncate (brighten p.green f)) ∧
            ((-2147483392 ≤ p.blue ∧ p.blue ≤ 2147483647) → FitsInt (brighten p.blue f) →
              q.blue = truncate (brighten p.blue f))) ∧
          (((p.red + p.green + p.blue : Int) : ℚ) / 3 < 90 →
            (FitsInt (fmul (p.red : ℚ) f) → q.red = truncate (fmul (p.red : ℚ) f)) ∧
            (FitsInt (fmul (p.green : ℚ) f) → q.green = truncate (fmul (p.green : ℚ) f)) ∧
            (FitsInt (fmul (p.blue : ℚ) f) → q.blue = truncate (fmul (p.blue : ℚ) f))) ∧
          (90 ≤ ((p.red + p.green + p.blue : Int) : ℚ) / 3 →
            ((p.red + p.green + p.blue : Int) : ℚ) / 3 < 170 → q = p) :=
  process_2_clarendon_aux image h w hd hpos hh hw f

/-- C20 (amended), instance: the 2 by 2 raster of the specification with the
`double` nearest to 0.3 as factor. -/
theorem process_2_clarendon_witness :
    ∃ out, process_2 sampleRaster factor03 = some out ∧ Dims out 2 2 ∧
      ∀ r c p, r < 2 → c < 2 → getPixel sampleRaster r c = some p →
        SumFits p.blue p.red p.green →
        ∃ q, getPixel out r c = some q ∧
          (170 ≤ ((p.red + p.green + p.blue : Int) : ℚ) / 3 →
            ((-2147483392 ≤ p.red ∧ p.red ≤ 2147483647) →
              FitsInt (brighten p.red factor03) →
              q.red = truncate (brighten p.red factor03)) ∧
            ((-2147483392 ≤ p.green ∧ p.green ≤ 2147483647) →
              FitsInt (brighten p.green factor03) →
              q.green = truncate (brighten p.green factor03)) ∧
            ((-2147483392 ≤ p.blue ∧ p.blue ≤ 2147483647) →
              FitsInt (brighten p.blue factor03) →
              q.blue = truncate (brighten p.blue factor03))) ∧
          (((p.red + p.green + p.blue : Int) : ℚ) / 3 < 90 →
            (FitsInt (fmul (p.red : ℚ) factor03) →
              q.red = truncate (fmul (p.red : ℚ) factor03)) ∧
            (FitsInt (fmul (p.green : ℚ) factor03) →
              q.green = truncate (fmul (p.green : ℚ) factor03)) ∧
            (FitsInt (fmul (p.blue : ℚ) factor03) →
              q.blue = truncate (fmul (p.blue : ℚ) factor03))) ∧
          (90 ≤ ((p.red + p.green + p.blue : Int) : ℚ) / 3 →
            ((p.red + p.green + p.blue : Int) : ℚ) / 3 < 170 → q = p) :=
  process_2_clarendon sampleRaster 2 2 (by decide) (by decide) (by decide) (by decide)
    factor03


/-- C16: each of `process_1`, `process_2` and `process_8` sends some valid
raster with all channels in [0,255] to a raster with a channel outside
[0,255], the value being the unclamped truncation of the per-pixel formula:
for every library function `sqrt` with `sqrt 9 = 3`, `process_1` turns the
white pixel in row 1, column 0 of the 2 by 6 raster `vignetteRaster` into
channels -127, the truncation of `255 * ((2 - 3) / 2)`; `process_2` with factor
10 turns the pixel (50,50,50) into channels 500, the truncation of `50 * 10`;
`process_8` with factor 2 turns the black pixel into channels -255, the
truncation of `255 - (255 - 0) * 2`. -/
theorem unclamped_transforms_leave_range (sqrt : ℚ → ℚ) (hs : sqrt 9 = 3) :
    (Dims vignetteRaster 2 6 ∧ InRange vignetteRaster ∧
      (∃ out, process_1 sqrt vignetteRaster = some out ∧
        getPixel out 1 0 = some ⟨-127, -127, -127⟩) ∧
      truncate ((255 : ℚ) * ((2 - 3) / 2)) = -127) ∧
    (Dims darkRaster 1 1 ∧ InRange darkRaster ∧
      process_2 darkRaster 10 = some [[⟨500, 500, 500⟩]] ∧ truncate ((50 : ℚ) * 10) = 500) ∧
    (Dims blackRaster 1 1 ∧ InRange blackRaster ∧
      process_8 blackRaster 2 = some [[⟨-255, -255, -255⟩]] ∧
      truncate ((255 : ℚ) - (255 - 0) * 2) = -255) :=
  ⟨⟨by decide, by decide, process_1_vignetteRaster sqrt hs, truncate_neg_half_255⟩,
    ⟨by decide, by decide, process_2_darkRaster, truncate_500⟩,
    ⟨by decide, by decide, process_8_blackRaster, truncate_neg_255⟩⟩

/-- C16, instance: the library square root `sqrt64`, which is exact on the
square 9. -/
theorem unclamped_transforms_leave_range_witness :
    sqrt64 9 = 3 ∧
    (Dims vignetteRaster 2 6 ∧ InRange vignetteRaster ∧
      (∃ out, process_1 sqrt64 vignetteRaster = some out ∧
        getPixel out 1 0 = some ⟨-127, -127, -127⟩) ∧
      truncate ((255 : ℚ) * ((2 - 3) / 2)) = -127) ∧
    (Dims darkRaster 1 1 ∧ InRange darkRaster ∧
      process_2 darkRaster 10 = some [[⟨500, 500, 500⟩]] ∧ truncate ((50 : ℚ) * 10) = 500) ∧
    (Dims blackRaster 1 1 ∧ InRange blackRaster ∧
      process_8 blackRaster 2 = some [[⟨-255, -255, -255⟩]] ∧
      truncate ((255 : ℚ) - (255 - 0) * 2) = -255) :=
  ⟨sqrt64_nine, unclamped_transforms_leave_range sqrt64 sqrt64_nine⟩


/-- C24 (counterexample): for `N = 23860930` the product `N * 90` leaves the
range of `int`; in 32-bit arithmetic `angle` is -2147483596, `angle % 90` is
-76, the invalid-angle branch is taken and `process_5` returns the raster
unmodified (a half turn was requested). -/
theorem process_5_guard_taken :
    imul 23860930 90 = -2147483596 ∧ Int.tmod (imul 23860930 90) 90 = -76 ∧
    process_5_invalid 23860930 = true ∧
    process_5 twoPixelRaster 23860930 = some twoPixelRaster ∧
    process_5 twoPixelRaster 2 ≠ some twoPixelRaster := by
  decide

/-- C24 (amended): for every value `N` of the parameter with `N * 90`
representable as an `int`, `angle = N * 90` satisfies `angle % 90 == 0`, so the
branch of `process_5` that prints the invalid-parameter message is not
taken. -/
theorem process_5_guard_dead (N : Int) (h1 : -2147483648 ≤ N * 90)
    (h2 : N * 90 < 2147483648) :
    imul N 90 = N * 90 ∧ Int.tmod (imul N 90) 90 = 0 ∧ process_5_invalid N = false :=
  process_5_guard N h1 h2

/-- C24 (amended), instance: `N = 7`. -/
theorem process_5_guard_dead_witness :
    imul 7 90 = 7 * 90 ∧ Int.tmod (imul 7 90) 90 = 0 ∧ process_5_invalid 7 = false :=
  process_5_guard_dead 7 (by decide) (by decide)

/-- C29 (counterexample): on `twoPixelRaster` with `a = 23860929` and `b = 1`,
rotating by `a` and then by `b` quarter turns gives the half turn, whereas
`process_5` with `a + b = 23860930` returns the raster unmodified, because
`(a + b) * 90` leaves the range of `int`. -/
theorem process_5_counts_overflow :
    (process_5 twoPixelRaster 23860929).bind (fun rotated => process_5 rotated 1)
      = some [[⟨4, 5, 6⟩, ⟨1, 2, 3⟩]] ∧
    process_5 twoPixelRaster (23860929 + 1) = some [[⟨1, 2, 3⟩, ⟨4, 5, 6⟩]] ∧
    (process_5 twoPixelRaster 23860929).bind (fun rotated => process_5 rotated 1)
      ≠ process_5 twoPixelRaster (23860929 + 1) := by
  decide

/-- C29 (amended): for every non-empty rectangular raster `R` of width at
least 1 and all non-negative integers `a`, `b` with `(a + b) * 90` representable
as an `int`, `process_5(process_5(R, a), b) = process_5(R, a + b)`, and both
sides are rasters. -/
theorem process_5_counts_add (image : Image) (h w : Nat) (hd : Dims image h w) (hpos : 0 < h)
    (hwpos : 0 < w) (hh : h < 2147483648) (hw : w < 2147483648) (a b : Int)
    (ha : 0 ≤ a) (hb : 0 ≤ b) (hab : (a + b) * 90 < 2147483648) :
    (process_5 image a).bind (fun rotated => process_5 rotated b) = process_5 image (a + b) ∧
    ∃ out, process_5 image (a + b) = some out :=
  process_5_add image h w hd hpos hwpos hh hw a b ha hb hab

/-- C29 (amended), instance: three and then six quarter turns of the 2 by 2
raster of the specification. -/
theorem process_5_counts_add_witness :
    (process_5 sampleRaster 3).bind (fun rotated => process_5 rotated 6)
      = process_5 sampleRaster (3 + 6) ∧
    ∃ out, process_5 sampleRaster (3 + 6) = some out :=
  process_5_counts_add sampleRaster 2 2 (by decide) (by decide) (by decide) (by decide)
    (by decide) 3 6 (by decide) (by decide) (by decide)

/-- C30: for every non-empty rectangular raster `R` of height `h` and width
`w >= 1` (both `int` values), `process_5(R, 2)` is a raster of height `h` and
width `w` whose pixel at `(row, col)` equals the pixel of `R` at
`(h - 1 - row, w - 1 - col)`: the rows are reversed and each row is reversed. -/
theorem process_5_half_turn (image : Image) (h w : Nat) (hd : Dims image h w) (hpos : 0 < h)
    (hwpos : 0 < w) (hh : h < 2147483648) (hw : w < 2147483648) :
    ∃ out, process_5 image 2 = some out ∧ Dims out h w ∧
      (∀ row col, row < h → col < w →
        getPixel out row col = getPixel image (h - 1 - row) (w - 1 - col)) ∧
      out = image.reverse.map List.reverse :=
  process_5_two image h w hd hpos hwpos hh hw

/-- C30, instance: the 2 by 2 raster of the specification. -/
theorem process_5_half_turn_witness :
    ∃ out, process_5 sampleRaster 2 = some out ∧ Dims out 2 2 ∧
      (∀ row col, row < 2 → col < 2 →
        getPixel out row col = getPixel sampleRaster (2 - 1 - row) (2 - 1 - col)) ∧
      out = sampleRaster.reverse.map List.reverse :=
  process_5_half_turn sampleRaster 2 2 (by decide) (by decide) (by decide) (by decide)
    (by decide)


/-- C28: for every non-empty rectangular raster of height `h` and width `w`
(both `int` values) and all integers `x_scale >= 0`, `y_scale >= 0`: at every
pass `(row, col)` of the loops of `process_6` (`row < new_rows`,
`col < new_columns`) both divisions have a non-zero divisor and the source
indices `row / y_scale < h` and `col / x_scale < w` address a pixel of the
input; hence, whenever the two computed sizes are not negative, `process_6`
returns a raster of those sizes copied from the source positions, which
contains no pixel when a scale is 0; the only failure is the vector
constructor rejecting a size that wrapped to a negative `int`. -/
theorem process_6_reads_in_bounds (image : Image) (h w : Nat) (hd : Dims image h w)
    (hpos : 0 < h) (hh : h < 2147483648) (hw : w < 2147483648) (x_scale y_scale : Int)
    (hx : 0 ≤ x_scale) (hy : 0 ≤ y_scale) :
    (∀ row col : Nat, (row : Int) < imul y_scale (wrap32 h) →
      (col : Int) < imul x_scale (wrap32 w) →
      ∃ i j : Nat, idiv row y_scale = some (i : Int) ∧ idiv col x_scale = some (j : Int) ∧
        i < h ∧ j < w ∧ ∃ p, getPixel image i j = some p) ∧
    (0 ≤ imul y_scale (wrap32 h) → 0 ≤ imul x_scale (wrap32 w) →
      ∃ out, process_6 image x_scale y_scale = some out ∧
        Dims out (imul y_scale (wrap32 h)).toNat (imul x_scale (wrap32 w)).toNat ∧
        (∀ row col, row < (imul y_scale (wrap32 h)).toNat →
          col < (imul x_scale (wrap32 w)).toNat →
          getPixel out row col = getPixel image (row / y_scale.toNat) (col / x_scale.toNat)) ∧
        (x_scale = 0 ∨ y_scale = 0 → ∀ row col, getPixel out row col = none)) ∧
    (imul y_scale (wrap32 h) < 0 ∨ imul x_scale (wrap32 w) < 0 →
      process_6 image x_scale y_scale = none) :=
  process_6_in_bounds image h w hd hpos hh hw x_scale y_scale hx hy

/-- C28, instance: the 2 by 2 raster of the specification with `x_scale = 0`
and `y_scale = 3` gives six rows without pixels, and with `x_scale = 3`,
`y_scale = 2` a 4 by 6 raster. -/
theorem process_6_reads_in_bounds_witness :
    (∃ out, process_6 sampleRaster 0 3 = some out ∧ Dims out 6 0 ∧
      ∀ row col, getPixel out row col = none) ∧
    (∃ out, process_6 sampleRaster 3 2 = some out ∧ Dims out 4 6 ∧
      ∀ row col, row < 4 → col < 6 →
        getPixel out row col = getPixel sampleRaster (row / 2) (col / 3)) :=
  have t0 := (process_6_reads_in_bounds sampleRaster 2 2 (by decide) (by decide) (by decide)
    (by decide) 0 3 (by decide) (by decide)).2.1 (by decide) (by decide)
  have t1 := (process_6_reads_in_bounds sampleRaster 2 2 (by decide) (by decide) (by decide)
    (by decide) 3 2 (by decide) (by decide)).2.1 (by decide) (by decide)
  ⟨t0.elim fun out ho => ⟨out, ho.1, ho.2.1, ho.2.2.2 (Or.inl rfl)⟩,
   t1.elim fun out ho => ⟨out, ho.1, ho.2.1, ho.2.2.1⟩⟩


/-- C26 (counterexample): the raster `wideRaster` is non-empty and rectangular
with one row of 715827883 pixels, but `read_image` of the bytes written by
`write_image` is the empty raster, which has neither the height nor the width
of the input: `width * 3` leaves the range of `int`. -/
theorem roundtrip_loses_dimensions :
    Dims wideRaster 1 715827883 ∧
    (write_image wideRaster).bind read_image = some [] ∧
    ¬ Dims ([] : Image) 1 715827883 :=
  ⟨dims_single_row _ _, roundtrip_wideRaster, by decide⟩

/-- C26 (amended): for every non-empty rectangular raster of height `h` below
`2 ^ 31` whose encoded size `54 + (width * 3 + padding) * height` is below
`2 ^ 31`, with arbitrary integer channel values, `read_image` of the bytes
written by `write_image` is a raster of the same height and width in which each
channel equals the original channel reduced modulo 256 into [0,255]. -/
theorem roundtrip_truncates (image : Image) (h w : Nat) (hd : Dims image h w) (hpos : 0 < h)
    (hh : h < 2147483648) (hsz : encodedSize w h < 2147483648) :
    ∃ out, (write_image image).bind read_image = some out ∧ Dims out h w ∧
      ∀ i j p, getPixel image i j = some p →
        getPixel out i j = some ⟨p.red % 256, p.green % 256, p.blue % 256⟩ ∧
        (0 ≤ p.red % 256 ∧ p.red % 256 ≤ 255) ∧ (0 ≤ p.green % 256 ∧ p.green % 256 ≤ 255) ∧
        (0 ≤ p.blue % 256 ∧ p.blue % 256 ≤ 255) :=
  roundtrip_mod_256 image h w hd hpos hh hsz

/-- C26 (amended), instance: the one-pixel raster `overflowRaster` with
channels -255, 256 and 500. -/
theorem roundtrip_truncates_witness :
    ∃ out, (write_image overflowRaster).bind read_image = some out ∧ Dims out 1 1 ∧
      ∀ i j p, getPixel overflowRaster i j = some p →
        getPixel out i j = some ⟨p.red % 256, p.green % 256, p.blue % 256⟩ ∧
        (0 ≤ p.red % 256 ∧ p.red % 256 ≤ 255) ∧ (0 ≤ p.green % 256 ∧ p.green % 256 ≤ 255) ∧
        (0 ≤ p.blue % 256 ∧ p.blue % 256 ≤ 255) :=
  roundtrip_truncates overflowRaster 1 1 (by decide) (by decide) (by decide) (by decide)

/-- C27 (counterexample): the 30 byte file `negativeStartFile` declares size 3,
start -1, width 1, height 1 and 24 bits per pixel; it passes the size check
(`-1 + (3 + 1) * 1 = 3`) and has more bytes than its declared size, yet the
raster `read_image` returns has channels -1: `seekg(-1)` sets the fail bit and
every `get()` returns `EOF`. -/
theorem read_image_negative_start :
    headerOf negativeStartFile = ⟨3, -1, 1, 1, 24⟩ ∧
    (headerOf negativeStartFile).file_size = (headerOf negativeStartFile).layout_size ∧
    (headerOf negativeStartFile).file_size ≤ negativeStartFile.length ∧
    read_image negativeStartFile = some [[⟨-1, -1, -1⟩]] ∧
    ¬ InRange [[⟨-1, -1, -1⟩]] := by
  decide

/-- C27 (amended): for every byte stream of at least 30 bytes that passes the
size check of `read_image`, with `start >= 0`, `height >= 1`, `width >= 1`,
`bits_per_pixel >= 24`, a layout size
`start + (width * (bits_per_pixel / 8) + padding) * height` below `2 ^ 31`, and
at least as many bytes as the declared file size, `read_image` returns a raster
of exactly `height` rows, each of exactly `width` pixels, and every channel
value lies in [0,255]. -/
theorem read_image_in_range (file : List Byte) (h30 : 30 ≤ file.length)
    (hchk : (headerOf file).file_size = (headerOf file).layout_size)
    (hlt : specLayoutSize (headerOf file) < 2147483648)
    (hbpp : 24 ≤ (headerOf file).bits_per_pixel)
    (hs : 0 ≤ (headerOf file).start) (hw : 1 ≤ (headerOf file).width)
    (hh : 1 ≤ (headerOf file).height)
    (hlen : (headerOf file).file_size ≤ file.length) :
    ∃ img, read_image file = some img ∧
      Dims img (headerOf file).height.toNat (headerOf file).width.toNat ∧ InRange img :=
  read_image_well_formed file h30 hchk hlt hbpp hs hw hh hlen

/-- C27 (amended), instance: the 70 byte file `sampleFile`. -/
theorem read_image_in_range_witness :
    ∃ img, read_image sampleFile = some img ∧
      Dims img (headerOf sampleFile).height.toNat (headerOf sampleFile).width.toNat ∧
      InRange img :=
  read_image_in_range sampleFile (by decide) (by decide) (by decide) (by decide) (by decide)
    (by decide) (by decide) (by decide)


/-- C25 (counterexample): the 30 byte files `overlapFileA` and `overlapFileB`
have 32 bits per pixel, pass the size check and differ only in the bytes at
offsets 18 and 22, which are fourth bytes of pixel slots (the pixel array
starts at offset 3, inside the header); these bytes are also the low bytes of
the width and height fields, and `read_image` returns a 3 by 2 raster for one
file and a 2 by 3 raster for the other. -/
theorem read_image_alpha_overlaps_header :
    headerOf overlapFileA = ⟨27, 3, 2, 3, 32⟩ ∧ headerOf overlapFileB = ⟨27, 3, 3, 2, 32⟩ ∧
    (headerOf overlapFileA).file_size = (headerOf overlapFileA).layout_size ∧
    (headerOf overlapFileB).file_size = (headerOf overlapFileB).layout_size ∧
    overlapFileB = (overlapFileA.set 18 3).set 22 2 ∧
    (18 : Int) = pixelOffset (headerOf overlapFileA) 1 1 + 3 ∧
    (22 : Int) = pixelOffset (headerOf overlapFileA) 0 0 + 3 ∧
    (18 : Int) = pixelOffset (headerOf overlapFileB) 0 0 + 3 ∧
    (22 : Int) = pixelOffset (headerOf overlapFileB) 0 1 + 3 ∧
    read_image overlapFileA
      = some [[⟨0, 0, 0⟩, ⟨0, 0, 0⟩], [⟨0, 0, 0⟩, ⟨0, 0, 0⟩], [⟨0, 0, 0⟩, ⟨0, 0, 0⟩]] ∧
    read_image overlapFileB
      = some [[⟨0, 0, 0⟩, ⟨0, 0, 0⟩, ⟨0, 0, 0⟩], [⟨0, 0, 0⟩, ⟨0, 0, 0⟩, ⟨0, 0, 0⟩]] ∧
    read_image overlapFileA ≠ read_image overlapFileB := by
  have ea : read_image overlapFileA
      = some [[⟨0, 0, 0⟩, ⟨0, 0, 0⟩], [⟨0, 0, 0⟩, ⟨0, 0, 0⟩], [⟨0, 0, 0⟩, ⟨0, 0, 0⟩]] := by
    decide
  have eb : read_image overlapFileB
      = some [[⟨0, 0, 0⟩, ⟨0, 0, 0⟩, ⟨0, 0, 0⟩], [⟨0, 0, 0⟩, ⟨0, 0, 0⟩, ⟨0, 0, 0⟩]] := by
    decide
  refine ⟨by decide, by decide, by decide, by decide, rfl, by decide, by decide, by decide,
    by decide, ea, eb, ?_⟩
  rw [ea, eb]
  decide

/-- C25 (amended): let `F` be a byte stream of 32 bits per pixel that passes the
size check (declared size equal to the layout size, without overflow), whose
pixel array starts after the header fields (`start >= 30`), with width and
height not negative and at least as many bytes as its declared size, and let
`G` be a stream of the same length that differs from `F` only in the fourth
byte of some pixel slots.  Then `read_image` returns identical rasters for `F`
and `G`; the pixel `(i, j)` is taken from the first three bytes of the slot at
offset `start + 4 * ((height - 1 - i) * width + j)`. -/
theorem read_image_ignores_alpha (F G : List Byte) (h30 : 30 ≤ F.length)
    (hFG : G.length = F.length)
    (hbpp : (headerOf F).bits_per_pixel = 32)
    (hsize : (headerOf F).file_size = specLayoutSize (headerOf F))
    (hs : 30 ≤ (headerOf F).start) (hw : 0 ≤ (headerOf F).width)
    (hh : 0 ≤ (headerOf F).height)
    (hlen : (headerOf F).file_size ≤ F.length)
    (hdiff : ∀ k : Nat, F[k]? ≠ G[k]? →
      ∃ i j : Nat, (i : Int) < (headerOf F).height ∧ (j : Int) < (headerOf F).width ∧
        (k : Int) = pixelOffset (headerOf F) i j + 3) :
    read_image G = read_image F ∧
    ∃ img, read_image F = some img ∧
      Dims img (headerOf F).height.toNat (headerOf F).width.toNat ∧
      ∀ i j : Nat, (i : Int) < (headerOf F).height → (j : Int) < (headerOf F).width →
        getPixel img i j = some (pixelAt F
          ((headerOf F).start + 4 * (((headerOf F).height - 1 - i) * (headerOf F).width + j))) :=
  read_image_alpha F G h30 hFG hbpp hsize hs hw hh hlen hdiff

/-- C25 (amended), instance: the 34 byte file `alphaFile` and the same file
with its fourth pixel byte, at offset 33, set to 0. -/
theorem read_image_ignores_alpha_witness :
    read_image (alphaFile.set 33 0) = read_image alphaFile ∧
    ∃ img, read_image alphaFile = some img ∧
      Dims img (headerOf alphaFile).height.toNat (headerOf alphaFile).width.toNat ∧
      ∀ i j : Nat, (i : Int) < (headerOf alphaFile).height →
        (j : Int) < (headerOf alphaFile).width →
        getPixel img i j = some (pixelAt alphaFile
          ((headerOf alphaFile).start
            + 4 * (((headerOf alphaFile).height - 1 - i) * (headerOf alphaFile).width + j))) :=
  read_image_ignores_alpha alphaFile (alphaFile.set 33 0) (by decide) (by decide) (by decide)
    (by decide) (by decide) (by decide) (by decide) (by decide)
    (fun k hk =>
      have h33 : k = 33 := by
        by_contra hne
        exact hk (List.getElem?_set_ne (Ne.symm hne)).symm
      ⟨0, 0, by decide, by decide, by rw [h33]; decide⟩)


/-- C22 (counterexample): on the valid 2 by 2 raster of the specification,
`process_6` with `x_scale = -1` computes the column count -2 and the vector
constructor throws (invalid allocation size); on `twoRowRaster` of height 2,
`process_6` with `y_scale = 1073741824` computes the row count
`2 * 1073741824`, which wraps to -2147483648, and the constructor throws; on
`emptyRowRaster`, one row without pixels, `process_5` with `N = 2` applies
`process_4` to the raster without rows that the first `process_4` returns, and
`image[0]` is out of bounds.  None of the calls returns a raster. -/
theorem transforms_can_fail :
    (Dims sampleRaster 2 2 ∧ InRange sampleRaster ∧
      imul (-1) (wrap32 2) = -2 ∧ allocImage 2 (-2) = none ∧
      process_6 sampleRaster (-1) 1 = none) ∧
    (Dims twoRowRaster 2 1 ∧ InRange twoRowRaster ∧
      imul 1073741824 (wrap32 2) = -2147483648 ∧
      process_6 twoRowRaster 1 1073741824 = none) ∧
    (Dims emptyRowRaster 1 0 ∧ process_4 emptyRowRaster = some [] ∧
      process_5 emptyRowRaster 2 = none) := by
  refine ⟨⟨by decide, by decide, by decide, by decide, by decide⟩,
    ⟨by decide, by decide, by decide, by decide⟩, ⟨by decide, by decide, by decide⟩⟩

/-- C22 (amended): for every non-empty rectangular raster of height `h` and
width `w` (both `int` values), each transform returns a raster on the following
parameters: `process_1`, `process_3`, `process_4`, `process_7` and `process_10`
always; `process_2`, `process_8` and `process_9` for every factor; `process_5`
for every integer `N` when `w >= 1`; `process_6` for all scales `x_scale >= 0`,
`y_scale >= 0` whose products with the dimensions are below `2 ^ 31`. -/
theorem transforms_total (sqrt : ℚ → ℚ) (image : Image) (h w : Nat) (hd : Dims image h w)
    (hpos : 0 < h) (hh : h < 2147483648) (hw : w < 2147483648) :
    (∃ out, process_1 sqrt image = some out ∧ Dims out h w) ∧
    (∀ f : ℚ, ∃ out, process_2 image f = some out ∧ Dims out h w) ∧
    (∃ out, process_3 image = some out ∧ Dims out h w) ∧
    (∃ out, process_4 image = some out ∧ Dims out w h) ∧
    (0 < w → ∀ N : Int, ∃ out, process_5 image N = some out ∧
      (Dims out h w ∨ Dims out w h)) ∧
    (∀ x_scale y_scale : Int, 0 ≤ x_scale → 0 ≤ y_scale →
      y_scale * h < 2147483648 → x_scale * w < 2147483648 →
      ∃ out, process_6 image x_scale y_scale = some out ∧
        Dims out (y_scale * h).toNat (x_scale * w).toNat) ∧
    (∃ out, process_7 image = some out ∧ Dims out h w) ∧
    (∀ f : ℚ, ∃ out, process_8 image f = some out ∧ Dims out h w) ∧
    (∀ f : ℚ, ∃ out, process_9 image f = some out ∧ Dims out h w) ∧
    (∃ out, process_10 image = some out ∧ Dims out h w) :=
  transforms_total_aux sqrt image h w hd hpos hh hw

/-- C22 (amended), instance: the 2 by 2 raster of the specification with the
library square root, the factor 100000000, seven quarter turns and the scales
3 and 2. -/
theorem transforms_total_witness :
    (∃ out, process_1 sqrt64 sampleRaster = some out ∧ Dims out 2 2) ∧
    (∃ out, process_2 sampleRaster 100000000 = some out ∧ Dims out 2 2) ∧
    (∃ out, process_3 sampleRaster = some out ∧ Dims out 2 2) ∧
    (∃ out, process_4 sampleRaster = some out ∧ Dims out 2 2) ∧
    (∃ out, process_5 sampleRaster 7 = some out ∧ (Dims out 2 2 ∨ Dims out 2 2)) ∧
    (∃ out, process_6 sampleRaster 3 2 = some out ∧
      Dims out ((2 : Int) * (2 : Nat)).toNat ((3 : Int) * (2 : Nat)).toNat) ∧
    (∃ out, process_7 sampleRaster = some out ∧ Dims out 2 2) ∧
    (∃ out, process_8 sampleRaster 100000000 = some out ∧ Dims out 2 2) ∧
    (∃ out, process_9 sampleRaster 100000000 = some out ∧ Dims out 2 2) ∧
    (∃ out, process_10 sampleRaster = some out ∧ Dims out 2 2) :=
  have t := transforms_total sqrt64 sampleRaster 2 2 (by decide) (by decide) (by decide)
    (by decide)
  ⟨t.1, t.2.1 100000000, t.2.2.1, t.2.2.2.1, t.2.2.2.2.1 (by decide) 7,
    t.2.2.2.2.2.1 3 2 (by decide) (by decide) (by decide) (by decide),
    t.2.2.2.2.2.2.1, t.2.2.2.2.2.2.2.1 100000000, t.2.2.2.2.2.2.2.2.1 100000000,
    t.2.2.2.2.2.2.2.2.2⟩

/-- C23 (counterexample): on the raster `threeRowRaster` of height 3 and width
1 with the positive scales `x_scale = 1`, `y_scale = 1431655766`, `process_6`
returns a raster of height 2: `y_scale * num_rows = 4294967298` wraps to the
`int` 2, so the height is not multiplied by `y_scale`.  On `emptyRowRaster`,
one row without pixels, `process_5` with `N = 2` returns no raster. -/
theorem process_6_height_wraps :
    (Dims threeRowRaster 3 1 ∧ imul 1431655766 (wrap32 3) = 2 ∧
      process_6 threeRowRaster 1 1431655766 = some [[Pixel.zero], [Pixel.zero]] ∧
      ¬ Dims [[Pixel.zero], [Pixel.zero]] (3 * 1431655766) (1 * 1)) ∧
    (Dims emptyRowRaster 1 0 ∧ process_5 emptyRowRaster 2 = none) := by
  refine ⟨by decide, by decide, by decide⟩

/-- C23 (amended): for every non-empty rectangular raster of height `h` and
width `w` (both `int` values): `process_1`, `process_3`, `process_7` and
`process_10`, and `process_2`, `process_8` and `process_9` with every factor,
return a raster of height `h` and width `w`; `process_4` returns a raster of
height `w` and width `h`; every raster that `process_5` returns is `h` by `w` or
`w` by `h`, and `process_5` returns a raster for every `N` when `w >= 1`; and
`process_6` with positive scales whose products with the dimensions are below
`2 ^ 31` returns a raster of height `h * y_scale` and width `w * x_scale`. -/
theorem transforms_keep_rectangular (sqrt : ℚ → ℚ) (image : Image) (h w : Nat)
    (hd : Dims image h w) (hpos : 0 < h) (hh : h < 2147483648) (hw : w < 2147483648) :
    (∃ out, process_1 sqrt image = some out ∧ Dims out h w) ∧
    (∀ f : ℚ, ∃ out, process_2 image f = some out ∧ Dims out h w) ∧
    (∃ out, process_3 image = some out ∧ Dims out h w) ∧
    (∃ out, process_4 image = some out ∧ Dims out w h) ∧
    ((∀ (N : Int) out, process_5 image N = some out → Dims out h w ∨ Dims out w h) ∧
      (0 < w → ∀ N : Int, ∃ out, process_5 image N = some out)) ∧
    (∀ x_scale y_scale : Nat, 0 < x_scale → 0 < y_scale →
      h * y_scale < 2147483648 → w * x_scale < 2147483648 →
      ∃ out, process_6 image x_scale y_scale = some out ∧
        Dims out (h * y_scale) (w * x_scale)) ∧
    (∃ out, process_7 image = some out ∧ Dims out h w) ∧
    (∀ f : ℚ, ∃ out, process_8 image f = some out ∧ Dims out h w) ∧
    (∀ f : ℚ, ∃ out, process_9 image f = some out ∧ Dims out h w) ∧
    (∃ out, process_10 image = some out ∧ Dims out h w) :=
  transforms_shape_aux sqrt image h w hd hpos hh hw

/-- C23 (amended), instance: on the one-pixel raster `darkRaster`, `process_2`
with factor 10 returns a 1 by 1 raster, `process_6` with scales 3 and 2 returns
a 2 by 3 raster, and `process_4` returns a 1 by 1 raster. -/
theorem transforms_keep_rectangular_witness :
    (∃ out, process_2 darkRaster 10 = some out ∧ Dims out 1 1) ∧
    (∃ out, process_6 darkRaster (3 : Nat) (2 : Nat) = some out ∧ Dims out (1 * 2) (1 * 3)) ∧
    (∃ out, process_4 darkRaster = some out ∧ Dims out 1 1) :=
  have t := transforms_keep_rectangular sqrt64 darkRaster 1 1 (by decide) (by decide)
    (by decide) (by decide)
  ⟨t.2.1 10, t.2.2.2.2.2.1 3 2 (by decide) (by decide) (by decide) (by decide), t.2.2.2.1⟩


/-- C31 (counterexample): on the raster `threeRowRaster` of height 3 with the
positive factors `a = 1`, `b = 715827883`, `c = 1`, `d = 2`, the first
enlargement fails (`b * 3` wraps to a negative `int` and the vector constructor
throws), so the two-step enlargement returns no raster, whereas `process_6`
with the factors `a * c = 1` and `b * d = 1431655766` returns a raster of
height 2 (`3 * 1431655766` wraps to 2). -/
theorem process_6_factors_overflow :
    Dims threeRowRaster 3 1 ∧
    process_6 threeRowRaster 1 715827883 = none ∧
    (process_6 threeRowRaster 1 715827883).bind (fun enlarged => process_6 enlarged 1 2)
      = none ∧
    process_6 threeRowRaster (1 * 1) (715827883 * 2) = some [[Pixel.zero], [Pixel.zero]] ∧
    (process_6 threeRowRaster 1 715827883).bind (fun enlarged => process_6 enlarged 1 2)
      ≠ process_6 threeRowRaster (1 * 1) (715827883 * 2) := by
  decide

/-- C31 (amended): for every non-empty rectangular raster `R` of height `h`
and width `w` and all positive integers `a`, `b`, `c`, `d` with
`h * b * d` and `w * a * c` below `2 ^ 31`,
`process_6(process_6(R, a, b), c, d) = process_6(R, a * c, b * d)`, a raster of
height `h * b * d` and width `w * a * c`. -/
theorem process_6_factors_multiply (image : Image) (h w a b c d : Nat) (hd : Dims image h w)
    (hpos : 0 < h) (ha : 0 < a) (hb : 0 < b) (hc : 0 < c) (hdp : 0 < d)
    (hH : h * b * d < 2147483648) (hW : w * a * c < 2147483648) :
    ∃ out, process_6 image ((a : Int) * c) ((b : Int) * d) = some out ∧
      Dims out (h * b * d) (w * a * c) ∧
      (process_6 image a b).bind (fun enlarged => process_6 enlarged c d)
        = process_6 image ((a : Int) * c) ((b : Int) * d) :=
  process_6_twice image h w a b c d hd hpos ha hb hc hdp hH hW

/-- C31 (amended), instance: the 2 by 2 raster of the specification enlarged by
(2, 3) and then by (5, 4). -/
theorem process_6_factors_multiply_witness :
    ∃ out, process_6 sampleRaster (((2 : Nat) : Int) * (5 : Nat)) (((3 : Nat) : Int) * (4 : Nat))
        = some out ∧
      Dims out (2 * 3 * 4) (2 * 2 * 5) ∧
      (process_6 sampleRaster (2 : Nat) (3 : Nat)).bind
          (fun enlarged => process_6 enlarged (5 : Nat) (4 : Nat))
        = process_6 sampleRaster (((2 : Nat) : Int) * (5 : Nat)) (((3 : Nat) : Int) * (4 : Nat)) :=
  process_6_factors_multiply sampleRaster 2 2 2 3 5 4 (by decide) (by decide) (by decide)
    (by decide) (by decide) (by decide) (by decide) (by decide)

/-- C32: for every non-empty rectangular raster `R` (dimensions that are `int`
values), `process_10` returns a raster of the same dimensions in which every
pixel is one of (255,255,255), (0,0,0), (255,0,0), (0,255,0), (0,0,255), and
`process_10(process_10(R)) = process_10(R)`. -/
theorem process_10_idempotent (image : Image) (h w : Nat) (hd : Dims image h w) (hpos : 0 < h)
    (hh : h < 2147483648) (hw : w < 2147483648) :
    ∃ out, process_10 image = some out ∧ Dims out h w ∧
      (∀ r c q, getPixel out r c = some q →
        q = ⟨255, 255, 255⟩ ∨ q = ⟨0, 0, 0⟩ ∨ q = ⟨255, 0, 0⟩ ∨ q = ⟨0, 255, 0⟩ ∨
          q = ⟨0, 0, 255⟩) ∧
      process_10 out = some out ∧
      (process_10 image).bind process_10 = process_10 image :=
  process_10_twice image h w hd hpos hh hw

/-- C32, instance: the 1 by 3 raster `posterRaster`. -/
theorem process_10_idempotent_witness :
    ∃ out, process_10 posterRaster = some out ∧ Dims out 1 3 ∧
      (∀ r c q, getPixel out r c = some q →
        q = ⟨255, 255, 255⟩ ∨ q = ⟨0, 0, 0⟩ ∨ q = ⟨255, 0, 0⟩ ∨ q = ⟨0, 255, 0⟩ ∨
          q = ⟨0, 0, 255⟩) ∧
      process_10 out = some out ∧
      (process_10 posterRaster).bind process_10 = process_10 posterRaster :=
  process_10_idempotent posterRaster 1 3 (by decide) (by decide) (by decide) (by decide)

/-- C33: for every non-empty rectangular raster `R` with channels in [0,255]
(dimensions that are `int` values), `process_3` returns a raster `G` of the
same dimensions with `process_3(G) = G`, so that
`process_3(process_3(R)) = process_3(R)`. -/
theorem process_3_idempotent (image : Image) (h w : Nat) (hd : Dims image h w) (hpos : 0 < h)
    (hh : h < 2147483648) (hw : w < 2147483648) (hr : InRange image) :
    ∃ out, process_3 image = some out ∧ Dims out h w ∧ process_3 out = some out ∧
      (process_3 image).bind process_3 = process_3 image :=
  process_3_twice image h w hd hpos hh hw hr

/-- C33, instance: the 2 by 2 raster of the specification. -/
theorem process_3_idempotent_witness :
    ∃ out, process_3 sampleRaster = some out ∧ Dims out 2 2 ∧ process_3 out = some out ∧
      (process_3 sampleRaster).bind process_3 = process_3 sampleRaster :=
  process_3_idempotent sampleRaster 2 2 (by decide) (by decide) (by decide) (by decide)
    (by decide)


end BmpApp
